import Mathlib

/-!
# Verification of the `xml` single-header parser (`xmlparser.hpp`)

Shallow embedding of the `char` instantiation of the templated parser in
`src/xmlparser.hpp`.  The input buffer is modelled as a `List Char`; a C
pointer into the buffer is a `Nat` index; dereferencing reads through `getC`,
which returns the NUL character at and beyond the end of the list (modelling
the terminator of a null-terminated buffer).  `std::basic_string<char>`
values (names, contents, attribute keys/values) are `List Char`.
`std::unordered_map` is modelled as an association list in insertion order;
`emplace` inserts only when the key is absent, `operator[]` upserts, exactly
as in the C++ standard library.  Code that throws `xml::Exception` is
modelled with `Except (List Char)` carrying the message.

Loops whose C++ termination argument is a strictly advancing pointer are
written in structural recursion on an explicit fuel argument that is always
initialised large enough to cover the pointer range, so every definition
reduces by `rfl`/`decide`.
-/

namespace Xml

/-- The NUL character: value of `*p` at the terminator of a C string. -/
def nulChar : Char := Char.ofNat 0

/-- The apostrophe character (ASCII 39). -/
def aposChar : Char := Char.ofNat 39

/-- Dereference the buffer at index `i`; positions past the end read the
null terminator, as in a null-terminated C buffer. -/
def getC (s : List Char) (i : Nat) : Char := s.getD i nulChar

/-- `IsSpace<char>` resolves to `std::isspace` (C locale): HT, LF, VT, FF,
CR and the space character. -/
def IsSpace (c : Char) : Bool := (9 ≤ c.toNat && c.toNat ≤ 13) || c.toNat = 32

/-- `IsAlpha<char>` resolves to `std::isalpha` (C locale): ASCII letters. -/
def IsAlpha (c : Char) : Bool :=
  (65 ≤ c.toNat && c.toNat ≤ 90) || (97 ≤ c.toNat && c.toNat ≤ 122)

/-- `std::find_if` over the index interval `[a, b)`: the first index whose
character satisfies `p`, and `b` if there is none (empty interval when
`b ≤ a`). -/
def findFrom (s : List Char) (p : Char → Bool) (a b : Nat) : Nat :=
  match (List.range' a (b - a)).find? (fun i => p (getC s i)) with
  | some i => i
  | none => b

/-- The text of the half-open index interval `[a, b)` of the buffer. -/
def slice (s : List Char) (a b : Nat) : List Char := (s.drop a).take (b - a)

/-- `std::all_of(first, last, IsSpace)` over the interval `[a, b)`. -/
def allSpace (s : List Char) (a b : Nat) : Bool :=
  (List.range' a (b - a)).all (fun i => IsSpace (getC s i))

/-- `std::any_of` over the interval `[a, b)` of a position predicate.
The source forms `*it_right - 3` on pairs, which for very short tokens
produces a last-before-first range (undefined behaviour in C++); the
embedding reads such a range as empty. -/
def anyIn (_s : List Char) (a b : Nat) (p : Nat → Bool) : Bool :=
  (List.range' a (b - a)).any p

/-- Row `index` of `EntityRefTable<char>`: the three spellings (named,
decimal, hexadecimal) followed by the literal replacement string. -/
def EntityRefTable (index : Nat) : List (List Char) :=
  match index with
  | 0 => ["&amp;".toList, "&#38;".toList, "&#x26;".toList, "&".toList]
  | 1 => ["&lt;".toList, "&#60;".toList, "&#x3C;".toList, "<".toList]
  | 2 => ["&gt;".toList, "&#62;".toList, "&#x3E;".toList, ">".toList]
  | 3 => ["&quot;".toList, "&#34;".toList, "&#x22;".toList, "\"".toList]
  | _ => ["&apos;".toList, "&#39;".toList, "&#x27;".toList, [aposChar]]

/-- `DeclarationAttrs<char>`: the three declaration attribute keys. -/
def DeclarationAttrs (i : Nat) : List Char :=
  match i with
  | 0 => "version".toList
  | 1 => "encoding".toList
  | _ => "standalone".toList

/-- The boundary-emitting loop of `Tokenize`: `prev` is `*(pit - 1)`, `rest`
the characters from the current position `i` to the terminator.  A boundary
is emitted at `i` when `*pit == '<'`, or else when `*(pit-1) == '>'`. -/
def tokenizeAux (prev : Char) (rest : List Char) (i : Nat) : List Nat :=
  match rest with
  | [] => []
  | c :: cs =>
      if c = '<' then i :: tokenizeAux c cs (i + 1)
      else if prev = '>' then i :: tokenizeAux c cs (i + 1)
      else tokenizeAux c cs (i + 1)

/-- `Tokenize`: the list of boundary positions.  Starts with position `0`,
emits positions at each `'<'` or behind each `'>'`, and finally appends the
index of the null terminator unless the last boundary already points at
it. -/
def Tokenize (s : List Char) : List Nat :=
  let toks : List Nat :=
    0 :: (match s with
          | [] => []
          | c :: cs => tokenizeAux c cs 1)
  if getC s (toks.getLastD 0) ≠ nulChar then toks ++ [s.length] else toks

/-- `RemoveGaps`: for each adjacent boundary pair, the left boundary is
erased when the delimited text is entirely whitespace; the last boundary is
always kept.  (The C++ loop advances `it_left` to the erase result, so the
pairs inspected are exactly the adjacent pairs of the original list.) -/
def RemoveGaps (s : List Char) : List Nat → List Nat
  | [] => []
  | [p] => [p]
  | p :: q :: rest =>
      if allSpace s p q then RemoveGaps s (q :: rest)
      else p :: RemoveGaps s (q :: rest)

/-- `IsCommentStart`: the four characters at `i` spell `<!--`. -/
def IsCommentStart (s : List Char) (i : Nat) : Bool :=
  getC s i = '<' && getC s (i + 1) = '!' && getC s (i + 2) = '-' && getC s (i + 3) = '-'

/-- `IsCommentEnd`: the three characters at `i` spell `-->`. -/
def IsCommentEnd (s : List Char) (i : Nat) : Bool :=
  getC s i = '-' && getC s (i + 1) = '-' && getC s (i + 2) = '>'

/-- The scanning loop of `RemoveInsideComments` over boundary pairs
`(l, r)`.  `mode = none` is the state `it_erase_from == end`; `mode = some
pend` means a comment start was seen and the boundaries in `pend` (followed
by the current left boundary) are scheduled for erasure once a pair
containing `-->` is found.  If the list is exhausted first, no erasure
happens and the pending boundaries survive, as in the source. -/
def ricAux (s : List Char) (mode : Option (List Nat)) (l : Nat) :
    List Nat → List Nat
  | [] =>
      match mode with
      | none => [l]
      | some pend => pend ++ [l]
  | r :: rest =>
      match mode with
      | none =>
          if anyIn s l (r - 3) (fun i => IsCommentStart s i) then
            if anyIn s l (r - 2) (fun i => IsCommentEnd s i) then
              l :: ricAux s none r rest
            else
              l :: ricAux s (some []) r rest
          else
            l :: ricAux s none r rest
      | some pend =>
          if anyIn s l (r - 2) (fun i => IsCommentEnd s i) then
            ricAux s none r rest
          else
            ricAux s (some (pend ++ [l])) r rest

/-- `RemoveInsideComments`: erase the boundaries interior to each comment so
that each comment becomes a single token. -/
def RemoveInsideComments (s : List Char) (tokens : List Nat) : List Nat :=
  match tokens with
  | [] => []
  | l :: rest => ricAux s none l rest

/-- Token kind bits, as in `enum Token`. -/
def tokOPEN : Nat := 0x01
def tokCLOSE : Nat := 0x02
def tokCONTENT : Nat := 0x04
def tokCOMMENT : Nat := 0x08
def tokERROR : Nat := 0x00

/-- `DetermineToken` on the token `[pbegin, pend)`. -/
def DetermineToken (s : List Char) (pbegin pend : Nat) : Nat :=
  if getC s pbegin = '<' then
    if getC s (pbegin + 1) = '/' then tokCLOSE
    else if IsCommentStart s pbegin then tokCOMMENT
    else
      let g := findFrom s (fun c => c = '>') pbegin pend
      if g = pend then tokERROR
      else if getC s (g - 1) = '/' then tokOPEN ||| tokCLOSE
      else tokOPEN
  else tokCONTENT

/-- `RemoveLeadingComments`: pop boundaries from the front while the first
token is a comment.  (The source dereferences past the end when fewer than
two boundaries remain; the callers never reach that state on the inputs
considered here.) -/
def RemoveLeadingComments (s : List Char) : List Nat → List Nat
  | l :: r :: rest =>
      if DetermineToken s l r = tokCOMMENT then RemoveLeadingComments s (r :: rest)
      else l :: r :: rest
  | ts => ts

/-- `ExtractName`: the characters from `pbegin + 1` up to the first
whitespace, `'>'` or `'/'`. -/
def ExtractName (s : List Char) (pbegin pend : Nat) : List Char :=
  slice s (pbegin + 1)
    (findFrom s (fun c => IsSpace c || c = '>' || c = '/') (pbegin + 1) pend)

/-- `std::unordered_map::emplace`: insert only when the key is absent. -/
def emplaceAttr (m : List (List Char × List Char)) (k v : List Char) :
    List (List Char × List Char) :=
  if m.any (fun kv => kv.1 = k) then m else m ++ [(k, v)]

/-- Association-list lookup, modelling `std::unordered_map::find`. -/
def lookupAttr (m : List (List Char × List Char)) (k : List Char) :
    Option (List Char) :=
  match m.find? (fun kv => kv.1 = k) with
  | some kv => some kv.2
  | none => none

/-- The attribute-reading loop of `ExtractAttributes`.  `fuel` is a
termination device only: the source pointer `pbegin` strictly increases
every iteration, so any `fuel ≥ pend - pbegin` gives the loop's exact
behaviour. -/
def eaLoop (s : List Char) (pend : Nat) :
    Nat → Nat → List (List Char × List Char) → List (List Char × List Char)
  | 0, _, attrs => attrs
  | fuel + 1, pbegin, attrs =>
      if pbegin < pend then
        let keybegin := findFrom s (fun c => IsAlpha c) pbegin pend
        if keybegin = pend then attrs
        else
          let keyend := findFrom s (fun c => c = '=') keybegin pend
          let valbegin := keyend + 2
          let quote := getC s (valbegin - 1)
          let valend := findFrom s (fun c => c = quote) valbegin pend
          eaLoop s pend fuel valend
            (emplaceAttr attrs (slice s keybegin keyend) (slice s valbegin valend))
      else attrs

/-- `ExtractAttributes` on the tag `[pbegin, pend)`. -/
def ExtractAttributes (s : List Char) (pbegin pend : Nat) :
    List (List Char × List Char) :=
  let start := findFrom s (fun c => c = '>' || IsSpace c) pbegin pend
  eaLoop s pend pend start []

/-- Result of one confined iteration of the `ExtractAttributes` scan on a
prefix buffer: `stop` when the loop exits cleanly at this iteration, `next
v` when every find of the iteration lands strictly inside the buffer and
the scan resumes at `v`, `bad` otherwise. -/
inductive EaStepRes where
  | stop : EaStepRes
  | bad : EaStepRes
  | next (v : Nat) : EaStepRes

/-- One iteration of the `ExtractAttributes` scan over the whole buffer
`t`, classified by confinement. -/
def eaStep (t : List Char) (p : Nat) : EaStepRes :=
  if p < t.length then
    let keybegin := findFrom t (fun c => IsAlpha c) p t.length
    if keybegin = t.length then .stop
    else
      let keyend := findFrom t (fun c => c = '=') keybegin t.length
      if keyend + 1 < t.length then
        let valend := findFrom t (fun c => c = getC t (keyend + 1))
          (keyend + 2) t.length
        if valend = t.length then .bad else .next valend
      else .bad
  else .stop

/-- The attribute scan starting at `p` stays confined to the buffer `t`
within `fuel` iterations. -/
def eaScanOK (t : List Char) : Nat → Nat → Bool
  | 0, _ => false
  | fuel + 1, p =>
      match eaStep t p with
      | .stop => true
      | .bad => false
      | .next v => eaScanOK t fuel v

/-- The comparison loop of `CheckEntityRef` for one table entry: compare
`word` against the buffer from position `pos` while both are non-null.  The
result is `some count` when the loop ends with `equal == true` (`count` is
the number of positions advanced), `none` on a mismatch.  Note that
exhausting the buffer before the word still counts as equal, as in the
source. -/
def erCmp (word : List Char) (s : List Char) (pos : Nat) : Option Nat :=
  match word with
  | [] => some 0
  | w :: ws =>
      if getC s pos = nulChar then some 0
      else if w = getC s pos then
        match erCmp ws s (pos + 1) with
        | some k => some (k + 1)
        | none => none
      else none

/-- `CheckEntityRef`: try the three spellings of entity `erIndex` at
position `pos`; on the first hit return the replacement string and the
matched length. -/
def CheckEntityRef (s : List Char) (pos : Nat) (erIndex : Nat) :
    Option (List Char × Nat) :=
  let line := EntityRefTable erIndex
  match erCmp (line.getD 0 []) s pos with
  | some k => some (line.getD 3 [], k)
  | none =>
      match erCmp (line.getD 1 []) s pos with
      | some k => some (line.getD 3 [], k)
      | none =>
          match erCmp (line.getD 2 []) s pos with
          | some k => some (line.getD 3 [], k)
          | none => none

/-- The inner loop of `SubstituteEntityRef`: try all five entities at
`pos`, first hit wins. -/
def checkAllEntityRefs (s : List Char) (pos : Nat) : Option (List Char × Nat) :=
  match CheckEntityRef s pos 0 with
  | some r => some r
  | none =>
      match CheckEntityRef s pos 1 with
      | some r => some r
      | none =>
          match CheckEntityRef s pos 2 with
          | some r => some r
          | none =>
              match CheckEntityRef s pos 3 with
              | some r => some r
              | none => CheckEntityRef s pos 4

/-- `std::basic_string::replace(pos, count, repl)`. -/
def replaceAt (c : List Char) (pos count : Nat) (repl : List Char) : List Char :=
  c.take pos ++ repl ++ (c.drop pos).drop count

/-- The scanning loop of `SubstituteEntityRef`: `from` runs while
`from < &back - 2`, i.e. `pos + 3 < length`; after a replacement the scan
resumes at the following position.  `fuel` is a termination device: the
position advances by one each step and the length never grows (every
replacement removes at least four characters and inserts one) unless the
content contains an embedded NUL, on which the source loops forever; the
embedding then stops when the fuel runs out. -/
def serLoop (fuel : Nat) (c : List Char) (pos : Nat) : List Char :=
  match fuel with
  | 0 => c
  | fuel + 1 =>
      if pos + 3 < c.length then
        match checkAllEntityRefs c pos with
        | some (repl, count) => serLoop fuel (replaceAt c pos count repl) (pos + 1)
        | none => serLoop fuel c (pos + 1)
      else c

/-- `SubstituteEntityRef`: replace every entity reference in `content` by
its literal character. -/
def SubstituteEntityRef (content : List Char) : List Char :=
  if content.isEmpty then content else serLoop content.length content 0

/-- The five reserved literal characters, i.e. column 3 of the table. -/
def reservedChar (c : Char) : Option Nat :=
  if c = '&' then some 0
  else if c = '<' then some 1
  else if c = '>' then some 2
  else if c = '"' then some 3
  else if c = aposChar then some 4
  else none

/-- The scanning loop of `InsertEntityRef`: on a reserved character at
`pos`, replace it by the named spelling (column 0) and resume at
`pos + 4`; otherwise advance by one.  `fuel` is a termination device: each
replacement consumes one reserved character and the inserted tail contains
none, so `6 * length + 4` steps always suffice. -/
def ierLoop (fuel : Nat) (c : List Char) (pos : Nat) : List Char :=
  match fuel with
  | 0 => c
  | fuel + 1 =>
      if pos < c.length then
        match reservedChar (getC c pos) with
        | some idx =>
            ierLoop fuel (replaceAt c pos 1 ((EntityRefTable idx).getD 0 [])) (pos + 4)
        | none => ierLoop fuel c (pos + 1)
      else c

/-- `InsertEntityRef`: replace the five reserved characters by their named
spellings. -/
def InsertEntityRef (content : List Char) : List Char :=
  ierLoop (6 * content.length + 4) content 0

/-- `ElementData<char>`: one node of the element tree. -/
inductive ElementData where
  | mk (name content : List Char) (attrs : List (List Char × List Char))
      (children : List ElementData)

/-- The `name` field. -/
def ElementData.name : ElementData → List Char
  | .mk n _ _ _ => n

/-- The `content` field. -/
def ElementData.content : ElementData → List Char
  | .mk _ c _ _ => c

/-- The `attrs` field. -/
def ElementData.attrs : ElementData → List (List Char × List Char)
  | .mk _ _ a _ => a

/-- The `children` field. -/
def ElementData.children : ElementData → List ElementData
  | .mk _ _ _ ch => ch

/-- Append a completed child to a node's child vector.  In the source a
child is anchored in its parent when it is opened and then mutated through
the stack top; the functional model attaches the finished child when it is
popped, producing the same child order. -/
def appendChild (parent child : ElementData) : ElementData :=
  .mk parent.name parent.content parent.attrs (parent.children ++ [child])

/-- When the token sequence is exhausted while the stack is still
non-empty, the source's in-place tree is already complete (every node was
anchored at open time); the functional model folds the open stack back
together. -/
def collapseStack (top : ElementData) : List ElementData → ElementData
  | [] => top
  | p :: ps => collapseStack (appendChild p top) ps

/-- One `CONTENT` step: append the token text to the stack top's content
and substitute entity references when enabled. -/
def appendContent (e : ElementData) (text : List Char) (replaceEr : Bool) :
    ElementData :=
  let newContent := e.content ++ text
  .mk e.name (if replaceEr then SubstituteEntityRef newContent else newContent)
    e.attrs e.children

/-- The token-consuming loop of `BuildElementTree`.  `top` is the stack
top, `stk` the rest of the stack (root at the bottom), `l` the current left
boundary and the list the remaining right boundaries. -/
def buildLoop (s : List Char) (replaceEr : Bool) :
    ElementData → List ElementData → Nat → List Nat → Option ElementData
  | top, stk, _, [] => some (collapseStack top stk)
  | top, stk, l, r :: rest =>
      let what := DetermineToken s l r
      if what &&& tokOPEN ≠ 0 then
        let child : ElementData := .mk (ExtractName s l r) [] (ExtractAttributes s l r) []
        if what &&& tokCLOSE ≠ 0 then
          -- self-closing: push then immediately pop the new child
          buildLoop s replaceEr (appendChild top child) stk r rest
        else
          buildLoop s replaceEr child (top :: stk) r rest
      else if what &&& tokCLOSE ≠ 0 then
        match stk with
        | [] => some top -- root popped: loop guard `tree.size() > 0` fails, rest ignored
        | p :: ps => buildLoop s replaceEr (appendChild p top) ps r rest
      else if what = tokCONTENT then
        buildLoop s replaceEr (appendContent top (slice s l r) replaceEr) stk r rest
      else if what = tokERROR then
        none
      else
        -- COMMENT: falls through every branch of the source loop
        buildLoop s replaceEr top stk r rest

/-- `BuildElementTree`: root from the first token pair, then the stack
loop.  Fewer than two boundaries never happens on the constructor's inputs
(the source would dereference invalid iterators). -/
def BuildElementTree (s : List Char) (replaceEr : Bool) (tokens : List Nat) :
    Option ElementData :=
  match tokens with
  | l :: r :: rest =>
      let root : ElementData := .mk (ExtractName s l r) [] (ExtractAttributes s l r) []
      buildLoop s replaceEr root [] r rest
  | _ => none

/-- The `Document` data: the root tree and the three declaration fields. -/
structure DocumentT where
  root : ElementData
  version : List Char
  encoding : List Char
  standalone : List Char

/-- The token pipeline of the parsing constructor: tokenize, remove
whitespace-only tokens, collapse comments, drop leading comments. -/
def filteredTokens (s : List Char) : List Nat :=
  RemoveLeadingComments s (RemoveInsideComments s (RemoveGaps s (Tokenize s)))

/-- The parsing constructor `Document::Document(const char_t*, bool)`. -/
def parseDocument (s : List Char) (replaceEr : Bool) : Except (List Char) DocumentT :=
  let tokens := filteredTokens s
  let pfirst := tokens.headD 0
  if getC s pfirst ≠ '<' then .error "Malformed beginning".toList
  else if getC s (pfirst + 1) = '?' then
    let declaration := ExtractAttributes s pfirst ((tokens.drop 1).headD 0)
    let version := (lookupAttr declaration (DeclarationAttrs 0)).getD []
    let encoding := (lookupAttr declaration (DeclarationAttrs 1)).getD []
    let standalone := (lookupAttr declaration (DeclarationAttrs 2)).getD []
    match BuildElementTree s replaceEr (RemoveLeadingComments s (tokens.drop 1)) with
    | some root => .ok ⟨root, version, encoding, standalone⟩
    | none => .error "Malformed xml".toList
  else
    match BuildElementTree s replaceEr tokens with
    | some root => .ok ⟨root, [], [], []⟩
    | none => .error "Malformed xml".toList

/-! ## The `Element` view: accessors and mutations

An `Element` is a borrowed pointer to an `ElementData`; its operations are
modelled as functions on the node, with `Except` for the throwing paths
(the source throws before mutating, so an `error` result leaves no changed
node). -/

/-- `Element::GetAttr(index)`: advance a begin iterator `index` times,
throwing when it hits the end **inside** the loop; then dereference.  When
`index` equals the attribute count the loop completes without the check
firing and the source dereferences the end iterator (undefined behaviour),
modelled as `ok none`. -/
def GetAttr (attrs : List (List Char × List Char)) (index : Nat) :
    Except (List Char) (Option (List Char × List Char)) :=
  getAttrLoop attrs index index
where
  getAttrLoop (l : List (List Char × List Char)) (index : Nat) :
      Nat → Except (List Char) (Option (List Char × List Char))
    | 0 => .ok l.head?
    | n + 1 =>
        match l with
        | [] => .error ("Attribute ".toList ++ (Nat.repr index).toList ++ " not found".toList)
        | _ :: t => getAttrLoop t index n

/-- `Element::GetAttributeName(std::size_t)`. -/
def GetAttributeName (e : ElementData) (index : Nat) :
    Except (List Char) (Option (List Char)) :=
  (GetAttr e.attrs index).map (fun o => o.map (fun kv => kv.1))

/-- `Element::GetAttributeValue(std::size_t)`. -/
def GetAttributeValueAt (e : ElementData) (index : Nat) :
    Except (List Char) (Option (List Char)) :=
  (GetAttr e.attrs index).map (fun o => o.map (fun kv => kv.2))

/-- `Element::GetAttributeValue(const string&)`: map lookup by name. -/
def GetAttributeValue (e : ElementData) (attrName : List Char) :
    Except (List Char) (List Char) :=
  match lookupAttr e.attrs attrName with
  | some v => .ok v
  | none => .error ("Attribute ".toList ++ attrName ++ " not found".toList)

/-- `Element::GetChild(std::size_t)`: explicit range check, then index. -/
def GetChild (e : ElementData) (index : Nat) : Except (List Char) ElementData :=
  if index ≥ e.children.length then
    .error ("Child ".toList ++ (Nat.repr index).toList ++ " not found, child count = ".toList
      ++ (Nat.repr e.children.length).toList)
  else .ok (e.children.getD index (.mk [] [] [] []))

/-- The scanning loop of `Element::GetChild(const string&)`: first child
whose name equals `name` exactly. -/
def getChildLoop (name : List Char) : List ElementData → Except (List Char) ElementData
  | [] => .error ("Child ".toList ++ name ++ " not found".toList)
  | c :: rest => if c.name = name then .ok c else getChildLoop name rest

/-- `Element::GetChild(const string&)`. -/
def GetChildByName (e : ElementData) (name : List Char) :
    Except (List Char) ElementData :=
  getChildLoop name e.children

/-- `Element::SetName(string)`. -/
def SetName (e : ElementData) (name : List Char) : ElementData :=
  .mk name e.content e.attrs e.children

/-- `Element::SetName(ns, name)`: `ns + ":" + name`. -/
def SetNameNs (e : ElementData) (ns name : List Char) : ElementData :=
  .mk (ns ++ ":".toList ++ name) e.content e.attrs e.children

/-- `Element::SetContent`: fails when the node has children. -/
def SetContent (e : ElementData) (content : List Char) :
    Except (List Char) ElementData :=
  if e.children.length ≠ 0 then .error "Cannot have both content and children".toList
  else .ok (.mk e.name content e.attrs e.children)

/-- `std::unordered_map::operator[] = value`: overwrite in place or
append. -/
def upsertAttr (m : List (List Char × List Char)) (k v : List Char) :
    List (List Char × List Char) :=
  if m.any (fun kv => kv.1 = k) then
    m.map (fun kv => if kv.1 = k then (kv.1, v) else kv)
  else m ++ [(k, v)]

/-- `Element::AddAttribute`: upsert, never fails. -/
def AddAttribute (e : ElementData) (name value : List Char) : ElementData :=
  .mk e.name e.content (upsertAttr e.attrs name value) e.children

/-- `Element::AddChild(pos, name)`: fails when the node has non-empty
content; inserts at `pos`, clamped to the child count. -/
def AddChildAt (e : ElementData) (pos : Nat) (name : Option (List Char)) :
    Except (List Char) ElementData :=
  if e.content ≠ [] then .error "Cannot have both content and children".toList
  else
    let p := min pos e.children.length
    let child : ElementData := .mk (name.getD []) [] [] []
    .ok (.mk e.name e.content e.attrs (e.children.take p ++ child :: e.children.drop p))

/-- `Element::AddChild(name)`: append at the end. -/
def AddChild (e : ElementData) (name : Option (List Char)) :
    Except (List Char) ElementData :=
  if e.content ≠ [] then .error "Cannot have both content and children".toList
  else
    let child : ElementData := .mk (name.getD []) [] [] []
    .ok (.mk e.name e.content e.attrs (e.children ++ [child]))

/-! ## The serializer -/

/-- One attribute rendered as ` key="value"`. -/
def renderAttr (kv : List Char × List Char) : List Char :=
  " ".toList ++ kv.1 ++ "=\"".toList ++ kv.2 ++ "\"".toList

mutual
/-- `operator<<(ostream&, const ElementData&)`.  The attribute iteration
order of the source's `std::unordered_map` is unspecified; the model
renders attributes in insertion order. -/
def serializeElem : ElementData → List Char
  | .mk n c a ch =>
      "<".toList ++ n ++ (a.map renderAttr).flatten ++
      (if c.isEmpty && ch.isEmpty then " />".toList
       else ">".toList ++ InsertEntityRef c ++ serializeChildren ch ++
         "</".toList ++ n ++ ">".toList)
termination_by structural e => e

/-- Serialization of a child list, in order (the `for` loop over
`e.children`). -/
def serializeChildren : List ElementData → List Char
  | [] => []
  | e :: rest => serializeElem e ++ serializeChildren rest
termination_by structural l => l
end

/-- `Document::ToString`: the declaration line (only when at least one
field is non-empty, each empty field skipped) followed by the root. -/
def ToString (d : DocumentT) : List Char :=
  (if d.version.isEmpty && d.encoding.isEmpty && d.standalone.isEmpty then []
   else
     "<?xml".toList ++
     (if d.version.isEmpty then [] else
       " ".toList ++ DeclarationAttrs 0 ++ "=\"".toList ++ d.version ++ "\"".toList) ++
     (if d.encoding.isEmpty then [] else
       " ".toList ++ DeclarationAttrs 1 ++ "=\"".toList ++ d.encoding ++ "\"".toList) ++
     (if d.standalone.isEmpty then [] else
       " ".toList ++ DeclarationAttrs 2 ++ "=\"".toList ++ d.standalone ++ "\"".toList) ++
     " ?>".toList) ++
  serializeElem d.root

/-! ## General lemmas about the model -/

/-- The node invariant of the data model: never both non-empty content and
children. -/
def Inv (e : ElementData) : Prop := e.content = [] ∨ e.children = []

theorem lookupAttr_append_of_present (m m' : List (List Char × List Char))
    (k : List Char) (h : m.any (fun kv => kv.1 = k) = true) :
    lookupAttr (m ++ m') k = lookupAttr m k := by
  unfold lookupAttr
  rw [List.find?_append]
  rcases List.any_eq_true.mp h with ⟨kv, hmem, hk⟩
  have : (m.find? (fun kv => kv.1 = k)).isSome := by
    rw [List.find?_isSome]
    exact ⟨kv, hmem, hk⟩
  rcases Option.isSome_iff_exists.mp this with ⟨v, hv⟩
  rw [hv]
  rfl

theorem lookupAttr_emplaceAttr_of_present (m : List (List Char × List Char))
    (k v k' : List Char) (h : m.any (fun kv => kv.1 = k') = true) :
    lookupAttr (emplaceAttr m k v) k' = lookupAttr m k' := by
  unfold emplaceAttr
  split
  · rfl
  · exact lookupAttr_append_of_present m [(k, v)] k' h

theorem any_emplaceAttr_of_any (m : List (List Char × List Char))
    (k v k' : List Char) (h : m.any (fun kv => kv.1 = k') = true) :
    (emplaceAttr m k v).any (fun kv => kv.1 = k') = true := by
  unfold emplaceAttr
  split
  · exact h
  · rw [List.any_append, h, Bool.true_or]

theorem eaLoop_preserves_present (s : List Char) (pend : Nat) (fuel : Nat) :
    ∀ (p : Nat) (attrs : List (List Char × List Char)) (k : List Char),
      attrs.any (fun kv => kv.1 = k) = true →
      lookupAttr (eaLoop s pend fuel p attrs) k = lookupAttr attrs k := by
  induction fuel with
  | zero => intro p attrs k _; rfl
  | succ fuel ih =>
      intro p attrs k h
      unfold eaLoop
      split
      · dsimp only
        split
        · rfl
        · rw [ih _ _ k (any_emplaceAttr_of_any _ _ _ _ h)]
          exact lookupAttr_emplaceAttr_of_present _ _ _ _ h
      · rfl

/-! ## C1: duplicate attribute keys -/

/-- C1 (counterexample).  The spec says the value of the **last** occurrence
of a duplicated attribute key is stored; on the tag `<a k="1" k="2">` the
parser stores `k = "1"` (the first occurrence), not `"2"`. -/
theorem c1_counterexample :
    (parseDocument "<a k=\"1\" k=\"2\"></a>".toList true).map
        (fun d => lookupAttr d.root.attrs "k".toList) = .ok (some "1".toList) ∧
    "1".toList ≠ "2".toList := by
  exact ⟨rfl, by decide⟩

/-- C1 (amended): duplicate attribute keys keep the **first** occurrence.
`ExtractAttributes` inserts with `std::unordered_map::emplace`, which never
overwrites: for every buffer, tag bounds and accumulated attribute map, any
key already bound keeps its binding through the rest of the attribute loop;
concretely, parsing `<a k="1" k="2"></a>` stores `k = "1"`. -/
theorem c1_first_occurrence_wins :
    (∀ (s : List Char) (pend fuel p : Nat) (attrs : List (List Char × List Char))
        (k : List Char),
        attrs.any (fun kv => kv.1 = k) = true →
        lookupAttr (eaLoop s pend fuel p attrs) k = lookupAttr attrs k) ∧
    (parseDocument "<a k=\"1\" k=\"2\"></a>".toList true).map
        (fun d => lookupAttr d.root.attrs "k".toList) = .ok (some "1".toList) := by
  constructor
  · intro s pend fuel p attrs k h
    exact eaLoop_preserves_present s pend fuel p attrs k h
  · rfl

/-- C1 (witness for the amended theorem): the binding `k = "1"` survives the
attribute loop over the rest of the tag `<a k="1" k="2">`. -/
theorem c1_first_occurrence_wins_witness :
    lookupAttr (eaLoop "<a k=\"1\" k=\"2\">".toList 17 17 8
        [("k".toList, "1".toList)]) "k".toList = some "1".toList := by
  have h := c1_first_occurrence_wins.1 "<a k=\"1\" k=\"2\">".toList 17 17 8
      [("k".toList, "1".toList)] "k".toList (by decide)
  rw [h]
  decide

/-! ## C2: exhausted token sequence and partial trees -/

/-- C2 (counterexample).  The claim says an input whose tokens exhaust
before the root is closed (`<a><b></b>`) raises the malformed-document
failure; in fact parsing succeeds and returns the partially built tree. -/
theorem c2_counterexample :
    parseDocument "<a><b></b>".toList true =
      .ok ⟨.mk "a".toList [] [] [.mk "b".toList [] [] []], [], [], []⟩ := by
  rfl

/-- C2 (amended).  When the filtered token sequence is exhausted before the
root element's closing tag is consumed, the builder returns the partial
tree it has anchored so far and the Document constructor accepts it:
`<a><b></b>` yields root `a` with child `b` and no error.  The
malformed-document failure arises only when the buffer does not begin with
`<` (`Malformed beginning`) or when a non-root tag lacks its closing `>`
(`Malformed xml`), as for `<a><b`. -/
theorem c2_partial_tree_returned :
    parseDocument "<a><b></b>".toList false =
      .ok ⟨.mk "a".toList [] [] [.mk "b".toList [] [] []], [], [], []⟩ ∧
    parseDocument "<a><b".toList true = .error "Malformed xml".toList ∧
    parseDocument "x<a></a>".toList true = .error "Malformed beginning".toList := by
  exact ⟨rfl, rfl, rfl⟩

/-! ## C3: index out of range in the attribute / child accessors -/

/-- C3 (code bug).  `Element::GetChild(index)` checks `index >= size` and
throws, but `Element::GetAttr(index)` checks the iterator only **inside**
the advancing loop: for `index` equal to the attribute count the loop
completes without the check firing and the source dereferences the end
iterator (undefined behaviour, modelled as `ok none`) instead of raising
the not-found error; only `index > count` throws.  Evaluated on a node
with one attribute and one child. -/
theorem c3_getattr_off_by_one :
    GetAttributeName (.mk "a".toList [] [("k".toList, "v".toList)]
        [.mk "b".toList [] [] []]) 1 = .ok none ∧
    GetAttributeName (.mk "a".toList [] [("k".toList, "v".toList)]
        [.mk "b".toList [] [] []]) 2 =
      .error "Attribute 2 not found".toList ∧
    GetAttributeName (.mk "a".toList [] [("k".toList, "v".toList)]
        [.mk "b".toList [] [] []]) 0 = .ok (some "k".toList) ∧
    GetChild (.mk "a".toList [] [("k".toList, "v".toList)]
        [.mk "b".toList [] [] []]) 1 =
      .error "Child 1 not found, child count = 1".toList ∧
    GetChild (.mk "a".toList [] [("k".toList, "v".toList)]
        [.mk "b".toList [] [] []]) 0 = .ok (.mk "b".toList [] [] []) := by
  exact ⟨rfl, rfl, rfl, rfl, rfl⟩

/-! ## C4: entity-reference matching -/

theorem getC_eq_getElem (s : List Char) (pos : Nat) (hp : pos < s.length) :
    getC s pos = s[pos] := by
  unfold getC
  exact List.getD_eq_getElem s nulChar hp

theorem getC_eq_nul_of_ge (s : List Char) (pos : Nat) (hp : s.length ≤ pos) :
    getC s pos = nulChar := by
  unfold getC
  rw [List.getD_eq_default]
  exact hp

theorem erCmp_eq (w s : List Char) (hnul : nulChar ∉ s) :
    ∀ pos, erCmp w s pos =
      if w.isPrefixOf (s.drop pos) || (s.drop pos).isPrefixOf w then
        some (min w.length (s.length - pos))
      else none := by
  induction w with
  | nil =>
      intro pos
      simp [erCmp, List.isPrefixOf]
  | cons c ws ih =>
      intro pos
      by_cases hp : pos < s.length
      · have hdrop : s.drop pos = s[pos] :: s.drop (pos + 1) :=
          List.drop_eq_getElem_cons hp
        have hget : getC s pos = s[pos] := getC_eq_getElem s pos hp
        have hgetne : ¬(getC s pos = nulChar) := by
          rw [hget]
          intro hh
          exact hnul (hh ▸ List.getElem_mem hp)
        unfold erCmp
        rw [if_neg hgetne, hdrop]
        by_cases hc : c = getC s pos
        · rw [if_pos hc]
          have hceq : (c == s[pos]) = true := by
            rw [beq_iff_eq]
            rw [hget] at hc
            exact hc
          have hceq2 : (s[pos] == c) = true := by
            rw [beq_iff_eq]
            rw [hget] at hc
            exact hc.symm
          have hcond : ((c :: ws).isPrefixOf (s[pos] :: s.drop (pos + 1)) ||
              (s[pos] :: s.drop (pos + 1)).isPrefixOf (c :: ws)) =
              (ws.isPrefixOf (s.drop (pos + 1)) ||
               (s.drop (pos + 1)).isPrefixOf ws) := by
            simp only [List.isPrefixOf, hceq, hceq2, Bool.true_and]
          rw [ih (pos + 1), hcond]
          by_cases hC : (ws.isPrefixOf (s.drop (pos + 1)) ||
              (s.drop (pos + 1)).isPrefixOf ws) = true
          · rw [if_pos hC, if_pos hC]
            dsimp only
            simp only [Option.some.injEq, List.length_cons]
            omega
          · rw [if_neg hC, if_neg hC]
        · rw [if_neg hc]
          have hceq : (c == s[pos]) = false := by
            rw [beq_eq_false_iff_ne]
            rw [hget] at hc
            exact hc
          have hceq2 : (s[pos] == c) = false := by
            rw [beq_eq_false_iff_ne]
            rw [hget] at hc
            exact fun hh => hc hh.symm
          have hcond : ((c :: ws).isPrefixOf (s[pos] :: s.drop (pos + 1)) ||
              (s[pos] :: s.drop (pos + 1)).isPrefixOf (c :: ws)) = false := by
            simp only [List.isPrefixOf, hceq, hceq2, Bool.false_and, Bool.or_self]
          rw [hcond]
          simp
      · have hdrop : s.drop pos = [] := List.drop_eq_nil_of_le (by omega)
        have hget : getC s pos = nulChar := getC_eq_nul_of_ge s pos (by omega)
        unfold erCmp
        rw [if_pos hget, hdrop]
        have : s.length - pos = 0 := by omega
        simp [List.isPrefixOf, this]

/-- C4 (counterexample).  The claim says a truncated spelling at the end of
the buffer gives no match; in fact `CheckEntityRef` on the buffer `&amp`
(entity 0) reports a match of length 4 even though no complete spelling of
`&` occurs there. -/
theorem c4_counterexample :
    CheckEntityRef "&amp".toList 0 0 = some ("&".toList, 4) ∧
    ("&amp;".toList.isPrefixOf "&amp".toList ||
     "&#38;".toList.isPrefixOf "&amp".toList ||
     "&#x26;".toList.isPrefixOf "&amp".toList) = false := by
  exact ⟨rfl, by decide⟩

/-- C4 (amended).  For a NUL-free buffer, `CheckEntityRef` returns a
replacement if and only if, for one of the three spellings of the queried
entity (tried in table order), either the spelling is a prefix of the text
at the position, **or** the remaining text up to the end of the buffer is a
(possibly empty) proper prefix of the spelling — a truncated entity at end
of input also matches.  The reported length is the number of characters
compared: the spelling length, capped by the remaining buffer length. -/
theorem c4_truncated_match (s : List Char) (pos erIndex : Nat)
    (hnul : nulChar ∉ s) :
    CheckEntityRef s pos erIndex =
      (let line := EntityRefTable erIndex
       let w0 := line.getD 0 []
       let w1 := line.getD 1 []
       let w2 := line.getD 2 []
       if w0.isPrefixOf (s.drop pos) || (s.drop pos).isPrefixOf w0 then
         some (line.getD 3 [], min w0.length (s.length - pos))
       else if w1.isPrefixOf (s.drop pos) || (s.drop pos).isPrefixOf w1 then
         some (line.getD 3 [], min w1.length (s.length - pos))
       else if w2.isPrefixOf (s.drop pos) || (s.drop pos).isPrefixOf w2 then
         some (line.getD 3 [], min w2.length (s.length - pos))
       else none) := by
  unfold CheckEntityRef
  dsimp only
  rw [erCmp_eq _ _ hnul pos, erCmp_eq _ _ hnul pos, erCmp_eq _ _ hnul pos]
  by_cases h0 : (((EntityRefTable erIndex).getD 0 []).isPrefixOf (s.drop pos) ||
      (s.drop pos).isPrefixOf ((EntityRefTable erIndex).getD 0 [])) = true
  · rw [if_pos h0, if_pos h0]
  · rw [if_neg h0, if_neg h0]
    by_cases h1 : (((EntityRefTable erIndex).getD 1 []).isPrefixOf (s.drop pos) ||
        (s.drop pos).isPrefixOf ((EntityRefTable erIndex).getD 1 [])) = true
    · rw [if_pos h1, if_pos h1]
    · rw [if_neg h1, if_neg h1]
      by_cases h2 : (((EntityRefTable erIndex).getD 2 []).isPrefixOf (s.drop pos) ||
          (s.drop pos).isPrefixOf ((EntityRefTable erIndex).getD 2 [])) = true
      · rw [if_pos h2, if_pos h2]
      · rw [if_neg h2, if_neg h2]

/-- C4 (witness): the amended characterization applied to the buffer
`&amp`, whose remainder at position 0 is a proper prefix of the spelling
`&amp;`. -/
theorem c4_truncated_match_witness :
    CheckEntityRef "&amp".toList 0 0 = some ("&".toList, 4) :=
  (c4_truncated_match "&amp".toList 0 0 (by decide)).trans (by decide)

/-! ## C5: the parse-serialize-parse round trip for reserved characters -/

/-- C5.  For each of the five reserved characters (rows of the entity
table) and each of its three spellings, parsing `<a>` + spelling + `</a>`
yields the literal character as the root content, serializing that
document re-escapes it with the named spelling only, and re-parsing the
serialized text yields the same literal character. -/
theorem c5_round_trip (idx col : Nat) (h1 : idx < 5) (h2 : col < 3) :
    ((parseDocument ("<a>".toList ++ (EntityRefTable idx).getD col [] ++ "</a>".toList)
        true).map (fun d => d.root.content) =
      .ok [getC ((EntityRefTable idx).getD 3 []) 0]) ∧
    ((parseDocument ("<a>".toList ++ (EntityRefTable idx).getD col [] ++ "</a>".toList)
        true).map ToString =
      .ok ("<a>".toList ++ (EntityRefTable idx).getD 0 [] ++ "</a>".toList)) ∧
    ((parseDocument ("<a>".toList ++ (EntityRefTable idx).getD 0 [] ++ "</a>".toList)
        true).map (fun d => d.root.content) =
      .ok [getC ((EntityRefTable idx).getD 3 []) 0]) := by
  interval_cases idx <;> interval_cases col <;> exact ⟨rfl, rfl, rfl⟩

/-- C5 (witness): the round trip at the named spelling of `&`. -/
theorem c5_round_trip_witness :
    (parseDocument ("<a>".toList ++ (EntityRefTable 0).getD 0 [] ++ "</a>".toList)
        true).map (fun d => d.root.content) =
      .ok [getC ((EntityRefTable 0).getD 3 []) 0] :=
  (c5_round_trip 0 0 (by decide) (by decide)).1

/-! ## C8: the declaration fields -/

/-- C8.  Parsing `<?xml version="1.0" encoding="UTF-8"?><r/>` yields
version `1.0`, encoding `UTF-8`, empty standalone, and a root named `r`
with no children and empty content; and every successfully parsed input
whose first token does not begin a declaration (second character not `?`)
leaves all three declaration fields empty. -/
theorem c8_declaration_fields :
    (parseDocument "<?xml version=\"1.0\" encoding=\"UTF-8\"?><r/>".toList true =
      .ok ⟨.mk "r".toList [] [] [], "1.0".toList, "UTF-8".toList, []⟩) ∧
    (∀ (s : List Char) (rer : Bool) (d : DocumentT),
        parseDocument s rer = .ok d →
        getC s ((filteredTokens s).headD 0 + 1) ≠ '?' →
        d.version = [] ∧ d.encoding = [] ∧ d.standalone = []) := by
  constructor
  · rfl
  · intro s rer d h hq
    unfold parseDocument at h
    dsimp only at h
    by_cases h1 : getC s ((filteredTokens s).headD 0) ≠ '<'
    · rw [if_pos h1] at h
      cases h
    · rw [if_neg h1, if_neg hq] at h
      cases hb : BuildElementTree s rer (filteredTokens s) with
      | some root =>
          rw [hb] at h
          injection h with h2
          subst h2
          exact ⟨rfl, rfl, rfl⟩
      | none =>
          rw [hb] at h
          cases h

/-- C8 (witness): the no-declaration half applied to `<r/>`. -/
theorem c8_declaration_fields_witness :
    (⟨.mk "r".toList [] [] [], [], [], []⟩ : DocumentT).version = [] ∧
    (⟨.mk "r".toList [] [] [], [], [], []⟩ : DocumentT).encoding = [] ∧
    (⟨.mk "r".toList [] [] [], [], [], []⟩ : DocumentT).standalone = [] :=
  c8_declaration_fields.2 "<r/>".toList true ⟨.mk "r".toList [] [] [], [], [], []⟩
    rfl (by decide)

/-! ## C9: the content/children invariant under mutation -/

/-- C9.  Every `Element` mutation preserves the invariant that a node
never has both non-empty content and children: `SetContent` fails with the
conflict error when the node has children, both `AddChild` forms fail with
the same error when the node has non-empty content (the source throws
before mutating, so the node is unchanged), the successful paths preserve
the invariant, and the remaining mutations (`SetName`, both forms, and
`AddAttribute`) preserve it as well. -/
theorem c9_invariant_preserved (e : ElementData) (hinv : Inv e) :
    (∀ c, e.children ≠ [] →
        SetContent e c = .error "Cannot have both content and children".toList) ∧
    (∀ c d, SetContent e c = .ok d → Inv d) ∧
    (∀ p n, e.content ≠ [] →
        AddChildAt e p n = .error "Cannot have both content and children".toList) ∧
    (∀ p n d, AddChildAt e p n = .ok d → Inv d) ∧
    (∀ n, e.content ≠ [] →
        AddChild e n = .error "Cannot have both content and children".toList) ∧
    (∀ n d, AddChild e n = .ok d → Inv d) ∧
    (∀ n, Inv (SetName e n)) ∧
    (∀ ns n, Inv (SetNameNs e ns n)) ∧
    (∀ k v, Inv (AddAttribute e k v)) := by
  refine ⟨?_, ?_, ?_, ?_, ?_, ?_, ?_, ?_, ?_⟩
  · intro c hch
    unfold SetContent
    rw [if_pos (by simpa using hch)]
  · intro c d h
    unfold SetContent at h
    by_cases hch : e.children.length ≠ 0
    · rw [if_pos hch] at h
      cases h
    · rw [if_neg hch] at h
      injection h with h2
      subst h2
      right
      show e.children = []
      exact List.length_eq_zero.mp (not_ne_iff.mp hch)
  · intro p n hco
    unfold AddChildAt
    rw [if_pos hco]
  · intro p n d h
    unfold AddChildAt at h
    by_cases hco : e.content ≠ []
    · rw [if_pos hco] at h
      cases h
    · rw [if_neg hco] at h
      dsimp only at h
      injection h with h2
      subst h2
      left
      show e.content = []
      exact not_ne_iff.mp hco
  · intro n hco
    unfold AddChild
    rw [if_pos hco]
  · intro n d h
    unfold AddChild at h
    by_cases hco : e.content ≠ []
    · rw [if_pos hco] at h
      cases h
    · rw [if_neg hco] at h
      dsimp only at h
      injection h with h2
      subst h2
      left
      show e.content = []
      exact not_ne_iff.mp hco
  · intro n
    cases e with
    | mk nm co at_ ch =>
        rcases hinv with h | h
        · exact Or.inl h
        · exact Or.inr h
  · intro ns n
    rcases hinv with h | h
    · exact Or.inl h
    · exact Or.inr h
  · intro k v
    rcases hinv with h | h
    · exact Or.inl h
    · exact Or.inr h

/-- C9 (witness): the invariant clauses evaluated on the node `<a>hi</a>`:
adding a child fails with the conflict error, and `SetName` keeps the
invariant. -/
theorem c9_invariant_preserved_witness :
    AddChild (.mk "a".toList "hi".toList [] []) (some "b".toList) =
      .error "Cannot have both content and children".toList ∧
    Inv (SetName (.mk "a".toList "hi".toList [] []) "c".toList) :=
  ⟨(c9_invariant_preserved (.mk "a".toList "hi".toList [] []) (Or.inr rfl)).2.2.2.2.1
      (some "b".toList) (by decide),
   (c9_invariant_preserved (.mk "a".toList "hi".toList [] []) (Or.inr rfl)).2.2.2.2.2.2.1
      "c".toList⟩

/-! ## C10: child lookup by name returns the first match -/

theorem getChildLoop_first (name : List Char) (c : ElementData) :
    ∀ (pre post : List ElementData), c.name = name →
      (∀ c' ∈ pre, c'.name ≠ name) →
      getChildLoop name (pre ++ c :: post) = .ok c := by
  intro pre
  induction pre with
  | nil =>
      intro post hc _
      show getChildLoop name (c :: post) = .ok c
      unfold getChildLoop
      rw [if_pos hc]
  | cons p ps ih =>
      intro post hc hpre
      have hp : ¬p.name = name := hpre p (List.mem_cons_self p ps)
      show getChildLoop name (p :: (ps ++ c :: post)) = .ok c
      unfold getChildLoop
      rw [if_neg hp]
      exact ih post hc (fun c' hm => hpre c' (List.mem_cons_of_mem p hm))

/-- C10.  When a node's child list decomposes as `pre ++ c :: post` with
`c` the first child named `name` (no child in `pre` has that name),
`GetChild` by name returns exactly `c` — the first matching child in
document order; later children with the same name are never returned. -/
theorem c10_first_child_by_name (e : ElementData) (name : List Char)
    (pre post : List ElementData) (c : ElementData)
    (hdec : e.children = pre ++ c :: post) (hc : c.name = name)
    (hpre : ∀ c' ∈ pre, c'.name ≠ name) :
    GetChildByName e name = .ok c := by
  unfold GetChildByName
  rw [hdec]
  exact getChildLoop_first name c pre post hc hpre

/-- C10 (witness): lookup of `b` among children `[x, b(1), b(2)]` returns
the first `b`. -/
theorem c10_first_child_by_name_witness :
    GetChildByName
      (.mk "a".toList [] []
        [.mk "x".toList [] [] [],
         .mk "b".toList "one".toList [] [],
         .mk "b".toList "two".toList [] []]) "b".toList =
      .ok (.mk "b".toList "one".toList [] []) :=
  c10_first_child_by_name
    (.mk "a".toList [] []
      [.mk "x".toList [] [] [],
       .mk "b".toList "one".toList [] [],
       .mk "b".toList "two".toList [] []]) "b".toList
    [.mk "x".toList [] [] []]
    [.mk "b".toList "two".toList [] []]
    (.mk "b".toList "one".toList [] [])
    rfl rfl
    (by
      intro c' hm
      rcases List.mem_singleton.mp hm with rfl
      decide)

/-! ## Positional lemmas for symbolic buffers -/

theorem getC_cons_succ (c : Char) (s : List Char) (i : Nat) :
    getC (c :: s) (i + 1) = getC s i := rfl

theorem getC_append_left (u v : List Char) (i : Nat) (h : i < u.length) :
    getC (u ++ v) i = getC u i := by
  unfold getC
  exact List.getD_append u v nulChar i h

theorem getC_append_right (u v : List Char) (i : Nat) (h : u.length ≤ i) :
    getC (u ++ v) i = getC v (i - u.length) := by
  unfold getC
  exact List.getD_append_right u v nulChar i h

theorem getC_mem (s : List Char) (i : Nat) (h : i < s.length) : getC s i ∈ s := by
  rw [getC_eq_getElem s i h]
  exact List.getElem_mem h

theorem getLastD_mem (l : List Char) (d : Char) (h : l ≠ []) : l.getLastD d ∈ l := by
  induction l generalizing d with
  | nil => exact absurd rfl h
  | cons c cs ih =>
      rw [List.getLastD_cons]
      cases cs with
      | nil => exact List.mem_cons_self _ _
      | cons e es => exact List.mem_cons_of_mem c (ih c (by simp))

theorem find?_range'_eq_some (p : Nat → Bool) :
    ∀ (n a j : Nat), a ≤ j → j < a + n → p j = true →
      (∀ i, a ≤ i → i < j → p i = false) →
      (List.range' a n).find? p = some j := by
  intro n
  induction n with
  | zero => intro a j h1 h2 _ _; omega
  | succ n ih =>
      intro a j h1 h2 hj hb
      rw [List.range'_succ]
      by_cases ha : a = j
      · subst ha
        exact List.find?_cons_of_pos _ hj
      · have hpa : p a = false := hb a le_rfl (by omega)
        rw [List.find?_cons_of_neg _ (by simp [hpa])]
        exact ih (a + 1) j (by omega) (by omega) hj (fun i hi1 hi2 => hb i (by omega) hi2)

theorem find?_range'_eq_none (p : Nat → Bool) :
    ∀ (n a : Nat), (∀ i, a ≤ i → i < a + n → p i = false) →
      (List.range' a n).find? p = none := by
  intro n
  induction n with
  | zero => intro a _; rfl
  | succ n ih =>
      intro a hb
      rw [List.range'_succ]
      rw [List.find?_cons_of_neg _ (by simp [hb a le_rfl (by omega)])]
      exact ih (a + 1) (fun i hi1 hi2 => hb i (by omega) (by omega))

theorem findFrom_eq (s : List Char) (p : Char → Bool) (a b j : Nat)
    (h1 : a ≤ j) (h2 : j < b) (hj : p (getC s j) = true)
    (hb : ∀ i, a ≤ i → i < j → p (getC s i) = false) :
    findFrom s p a b = j := by
  unfold findFrom
  rw [find?_range'_eq_some _ (b - a) a j h1 (by omega) hj (fun i hi1 hi2 => hb i hi1 hi2)]

theorem findFrom_none (s : List Char) (p : Char → Bool) (a b : Nat)
    (hb : ∀ i, a ≤ i → i < b → p (getC s i) = false) :
    findFrom s p a b = b := by
  unfold findFrom
  rw [find?_range'_eq_none _ (b - a) a (fun i hi1 hi2 => hb i hi1 (by omega))]

theorem allSpace_eq_false (s : List Char) (a b j : Nat) (h1 : a ≤ j) (h2 : j < b)
    (hj : IsSpace (getC s j) = false) : allSpace s a b = false := by
  unfold allSpace
  rw [List.all_eq_false]
  refine ⟨j, ?_, by simp [hj]⟩
  rw [List.mem_range'_1]
  omega

theorem anyIn_eq_false (s : List Char) (a b : Nat) (p : Nat → Bool)
    (hb : ∀ i, a ≤ i → i < b → p i = false) : anyIn s a b p = false := by
  unfold anyIn
  rw [List.any_eq_false]
  intro i hi
  rw [List.mem_range'_1] at hi
  simp [hb i hi.1 (by omega)]

theorem anyIn_eq_true (s : List Char) (a b : Nat) (p : Nat → Bool) (j : Nat)
    (h1 : a ≤ j) (h2 : j < b) (hj : p j = true) : anyIn s a b p = true := by
  unfold anyIn
  rw [List.any_eq_true]
  refine ⟨j, ?_, hj⟩
  rw [List.mem_range'_1]
  omega

/-! ## Tokenizer lemmas -/

theorem tokenizeAux_nil (prev : Char) (i : Nat) : tokenizeAux prev [] i = [] := rfl

theorem tokenizeAux_cons (prev c : Char) (cs : List Char) (i : Nat) :
    tokenizeAux prev (c :: cs) i =
      if c = '<' then i :: tokenizeAux c cs (i + 1)
      else if prev = '>' then i :: tokenizeAux c cs (i + 1)
      else tokenizeAux c cs (i + 1) := rfl

theorem tokenizeAux_append (ys : List Char) :
    ∀ (rest : List Char) (prev : Char) (i : Nat),
      tokenizeAux prev (ys ++ rest) i =
        tokenizeAux prev ys i ++ tokenizeAux (ys.getLastD prev) rest (i + ys.length) := by
  induction ys with
  | nil => intro rest prev i; simp [tokenizeAux]
  | cons c cs ih =>
      intro rest prev i
      have harith : i + 1 + cs.length = i + (cs.length + 1) := by omega
      show tokenizeAux prev (c :: (cs ++ rest)) i = _
      rw [tokenizeAux_cons, tokenizeAux_cons, List.getLastD_cons, List.length_cons]
      by_cases hc : c = '<'
      · rw [if_pos hc, if_pos hc, ih rest c (i + 1), harith, List.cons_append]
      · rw [if_neg hc, if_neg hc]
        by_cases hp : prev = '>'
        · rw [if_pos hp, if_pos hp, ih rest c (i + 1), harith, List.cons_append]
        · rw [if_neg hp, if_neg hp, ih rest c (i + 1), harith]

theorem tokenizeAux_no_marks :
    ∀ (ys : List Char) (prev : Char) (i : Nat),
      (∀ c ∈ ys, ¬c = '<') → (∀ c ∈ (prev :: ys).dropLast, ¬c = '>') →
      tokenizeAux prev ys i = [] := by
  intro ys
  induction ys with
  | nil => intro prev i _ _; rfl
  | cons c cs ih =>
      intro prev i hlt hgt
      have hc : ¬c = '<' := hlt c (List.mem_cons_self c cs)
      have hdrop : (prev :: c :: cs).dropLast = prev :: (c :: cs).dropLast := by
        rw [List.dropLast_cons₂]
      have hp : ¬prev = '>' := by
        apply hgt prev
        rw [hdrop]
        exact List.mem_cons_self _ _
      rw [tokenizeAux_cons, if_neg hc, if_neg hp]
      apply ih c (i + 1) (fun d hd => hlt d (List.mem_cons_of_mem c hd))
      intro d hd
      apply hgt d
      rw [hdrop]
      cases cs with
      | nil => cases hd
      | cons e es =>
          rw [List.dropLast_cons₂] at hd ⊢
          rcases List.mem_cons.mp hd with h | h
          · exact List.mem_cons_of_mem _ (h ▸ List.mem_cons_self _ _)
          · exact List.mem_cons_of_mem _ (List.mem_cons_of_mem _ h)

/-! ## Equation lemmas for the pipeline stages -/

theorem RemoveGaps_nil (s : List Char) : RemoveGaps s [] = [] := rfl

theorem RemoveGaps_single (s : List Char) (p : Nat) : RemoveGaps s [p] = [p] := rfl

theorem RemoveGaps_cons₂ (s : List Char) (p q : Nat) (rest : List Nat) :
    RemoveGaps s (p :: q :: rest) =
      if allSpace s p q then RemoveGaps s (q :: rest)
      else p :: RemoveGaps s (q :: rest) := rfl

theorem ricAux_none_nil (s : List Char) (l : Nat) : ricAux s none l [] = [l] := rfl

theorem ricAux_none_cons (s : List Char) (l r : Nat) (rest : List Nat) :
    ricAux s none l (r :: rest) =
      if anyIn s l (r - 3) (fun i => IsCommentStart s i) then
        if anyIn s l (r - 2) (fun i => IsCommentEnd s i) then
          l :: ricAux s none r rest
        else
          l :: ricAux s (some []) r rest
      else
        l :: ricAux s none r rest := rfl

theorem ricAux_some_nil (s : List Char) (pend : List Nat) (l : Nat) :
    ricAux s (some pend) l [] = pend ++ [l] := rfl

theorem ricAux_some_cons (s : List Char) (pend : List Nat) (l r : Nat)
    (rest : List Nat) :
    ricAux s (some pend) l (r :: rest) =
      if anyIn s l (r - 2) (fun i => IsCommentEnd s i) then
        ricAux s none r rest
      else
        ricAux s (some (pend ++ [l])) r rest := rfl

theorem RemoveLeadingComments_cons₂ (s : List Char) (l r : Nat) (rest : List Nat) :
    RemoveLeadingComments s (l :: r :: rest) =
      if DetermineToken s l r = tokCOMMENT then RemoveLeadingComments s (r :: rest)
      else l :: r :: rest := rfl

theorem buildLoop_nil (s : List Char) (rer : Bool) (top : ElementData)
    (stk : List ElementData) (l : Nat) :
    buildLoop s rer top stk l [] = some (collapseStack top stk) := rfl

theorem buildLoop_cons (s : List Char) (rer : Bool) (top : ElementData)
    (stk : List ElementData) (l r : Nat) (rest : List Nat) :
    buildLoop s rer top stk l (r :: rest) =
      (let what := DetermineToken s l r
       if what &&& tokOPEN ≠ 0 then
         let child : ElementData := .mk (ExtractName s l r) [] (ExtractAttributes s l r) []
         if what &&& tokCLOSE ≠ 0 then
           buildLoop s rer (appendChild top child) stk r rest
         else
           buildLoop s rer child (top :: stk) r rest
       else if what &&& tokCLOSE ≠ 0 then
         match stk with
         | [] => some top
         | p :: ps => buildLoop s rer (appendChild p top) ps r rest
       else if what = tokCONTENT then
         buildLoop s rer (appendContent top (slice s l r) rer) stk r rest
       else if what = tokERROR then
         none
       else
         buildLoop s rer top stk r rest) := rfl

/-! ## Character-class facts -/

theorem alpha_ne_char (c d : Char) (h : IsAlpha c = true) (hd : IsAlpha d = false) :
    ¬c = d := fun he => by rw [he, hd] at h; cases h

theorem IsSpace_eq_false_of_alpha (c : Char) (h : IsAlpha c = true) :
    IsSpace c = false := by
  cases hsp : IsSpace c
  · rfl
  · exfalso
    unfold IsAlpha at h
    unfold IsSpace at hsp
    simp only [Bool.or_eq_true, Bool.and_eq_true, decide_eq_true_eq] at h hsp
    omega

/-! ## Evaluation of the pipeline on `<x/>` -/

theorem s1_tokenize (x : List Char) (hne : x ≠ [])
    (hx : ∀ c ∈ x, IsAlpha c = true) :
    Tokenize ('<' :: (x ++ ['/', '>'])) = [0, x.length + 3] := by
  have h1 : tokenizeAux '<' x 1 = [] := by
    apply tokenizeAux_no_marks
    · intro c hc
      exact alpha_ne_char c '<' (hx c hc) (by decide)
    · intro c hc
      rcases List.mem_cons.mp (List.dropLast_subset _ hc) with h | h
      · rw [h]; decide
      · exact alpha_ne_char c '>' (hx c h) (by decide)
  have hlast : IsAlpha (x.getLastD '<') = true := hx _ (getLastD_mem x '<' hne)
  have h2 : tokenizeAux (x.getLastD '<') ['/', '>'] (1 + x.length) = [] := by
    rw [tokenizeAux_cons, if_neg (by decide),
        if_neg (alpha_ne_char _ '>' hlast (by decide)),
        tokenizeAux_cons, if_neg (by decide), if_neg (by decide), tokenizeAux_nil]
  have hbody : tokenizeAux '<' (x ++ ['/', '>']) 1 = [] := by
    rw [tokenizeAux_append, h1, h2, List.nil_append]
  unfold Tokenize
  dsimp only
  rw [hbody, if_pos (by show ('<' : Char) ≠ nulChar; decide)]
  simp [List.length_append, List.length_cons]
theorem eaLoop_succ (s : List Char) (pend fuel p : Nat)
    (attrs : List (List Char × List Char)) :
    eaLoop s pend (fuel + 1) p attrs =
      (if p < pend then
        let keybegin := findFrom s (fun c => IsAlpha c) p pend
        if keybegin = pend then attrs
        else
          let keyend := findFrom s (fun c => c = '=') keybegin pend
          let valbegin := keyend + 2
          let quote := getC s (valbegin - 1)
          let valend := findFrom s (fun c => c = quote) valbegin pend
          eaLoop s pend fuel valend
            (emplaceAttr attrs (slice s keybegin keyend) (slice s valbegin valend))
      else attrs) := rfl

theorem s1_getC_alpha (x : List Char) (hx : ∀ c ∈ x, IsAlpha c = true)
    (i : Nat) (hi : i < x.length) :
    IsAlpha (getC ('<' :: (x ++ ['/', '>'])) (i + 1)) = true := by
  rw [getC_cons_succ, getC_append_left _ _ i hi]
  exact hx _ (getC_mem x i hi)

theorem s1_getC_slash (x : List Char) :
    getC ('<' :: (x ++ ['/', '>'])) (x.length + 1) = '/' := by
  rw [getC_cons_succ, getC_append_right x _ x.length le_rfl, Nat.sub_self]
  rfl

theorem s1_getC_gt (x : List Char) :
    getC ('<' :: (x ++ ['/', '>'])) (x.length + 2) = '>' := by
  rw [show x.length + 2 = (x.length + 1) + 1 from rfl, getC_cons_succ,
      getC_append_right x _ (x.length + 1) (by omega),
      show x.length + 1 - x.length = 1 from by omega]
  rfl

theorem s1_comment_start_false (x : List Char) (hne : x ≠ [])
    (hx : ∀ c ∈ x, IsAlpha c = true) (i : Nat) (hi : i < x.length) :
    IsCommentStart ('<' :: (x ++ ['/', '>'])) i = false := by
  cases i with
  | zero =>
      have h1 : IsAlpha (getC ('<' :: (x ++ ['/', '>'])) 1) = true :=
        s1_getC_alpha x hx 0 (List.length_pos.mpr hne)
      have hb : ¬getC ('<' :: (x ++ ['/', '>'])) 1 = '!' :=
        alpha_ne_char _ _ h1 (by decide)
      simp [IsCommentStart, hb]
  | succ j =>
      have h1 : IsAlpha (getC ('<' :: (x ++ ['/', '>'])) (j + 1)) = true :=
        s1_getC_alpha x hx j (by omega)
      have hb : ¬getC ('<' :: (x ++ ['/', '>'])) (j + 1) = '<' :=
        alpha_ne_char _ _ h1 (by decide)
      simp [IsCommentStart, hb]

theorem s1_DetermineToken (x : List Char) (hne : x ≠ [])
    (hx : ∀ c ∈ x, IsAlpha c = true) :
    DetermineToken ('<' :: (x ++ ['/', '>'])) 0 (x.length + 3) = 3 := by
  have hn : 0 < x.length := List.length_pos.mpr hne
  unfold DetermineToken
  rw [if_pos (show getC ('<' :: (x ++ ['/', '>'])) 0 = '<' from rfl)]
  have h1 : IsAlpha (getC ('<' :: (x ++ ['/', '>'])) (0 + 1)) = true :=
    s1_getC_alpha x hx 0 hn
  rw [if_neg (alpha_ne_char _ '/' h1 (by decide))]
  rw [if_neg (by simp [s1_comment_start_false x hne hx 0 hn])]
  dsimp only
  have hfind : findFrom ('<' :: (x ++ ['/', '>'])) (fun c => c = '>') 0
      (x.length + 3) = x.length + 2 := by
    apply findFrom_eq
    · omega
    · omega
    · rw [s1_getC_gt]
      simp
    · intro i h0 hi
      cases i with
      | zero =>
          show decide (('<' : Char) = '>') = false
          decide
      | succ j =>
          by_cases hj : j < x.length
          · have h1 : IsAlpha (getC ('<' :: (x ++ ['/', '>'])) (j + 1)) = true :=
              s1_getC_alpha x hx j hj
            simp [alpha_ne_char _ '>' h1 (by decide)]
          · have hj' : j = x.length := by omega
            subst hj'
            rw [s1_getC_slash]
            decide
  rw [hfind, if_neg (by omega),
      show x.length + 2 - 1 = x.length + 1 from by omega, s1_getC_slash,
      if_pos rfl]
  rfl

theorem s1_ExtractName (x : List Char) (hx : ∀ c ∈ x, IsAlpha c = true) :
    ExtractName ('<' :: (x ++ ['/', '>'])) 0 (x.length + 3) = x := by
  unfold ExtractName
  have hfind : findFrom ('<' :: (x ++ ['/', '>']))
      (fun c => IsSpace c || c = '>' || c = '/') (0 + 1) (x.length + 3) =
      x.length + 1 := by
    apply findFrom_eq
    · omega
    · omega
    · rw [s1_getC_slash]
      decide
    · intro i h1 hi
      obtain ⟨j, rfl⟩ : ∃ j, i = j + 1 := ⟨i - 1, by omega⟩
      have ha : IsAlpha (getC ('<' :: (x ++ ['/', '>'])) (j + 1)) = true :=
        s1_getC_alpha x hx j (by omega)
      simp [IsSpace_eq_false_of_alpha _ ha, alpha_ne_char _ '>' ha (by decide),
        alpha_ne_char _ '/' ha (by decide)]
  rw [hfind]
  unfold slice
  rw [show x.length + 1 - (0 + 1) = x.length from by omega]
  show (x ++ ['/', '>']).take x.length = x
  exact List.take_left x _

theorem s1_ExtractAttributes (x : List Char) (hx : ∀ c ∈ x, IsAlpha c = true) :
    ExtractAttributes ('<' :: (x ++ ['/', '>'])) 0 (x.length + 3) = [] := by
  unfold ExtractAttributes
  dsimp only
  have hstart : findFrom ('<' :: (x ++ ['/', '>']))
      (fun c => c = '>' || IsSpace c) 0 (x.length + 3) = x.length + 2 := by
    apply findFrom_eq
    · omega
    · omega
    · rw [s1_getC_gt]
      decide
    · intro i h0 hi
      cases i with
      | zero =>
          show (decide (('<' : Char) = '>') || IsSpace '<') = false
          decide
      | succ j =>
          by_cases hj : j < x.length
          · have ha : IsAlpha (getC ('<' :: (x ++ ['/', '>'])) (j + 1)) = true :=
              s1_getC_alpha x hx j hj
            simp [alpha_ne_char _ '>' ha (by decide), IsSpace_eq_false_of_alpha _ ha]
          · have hj' : j = x.length := by omega
            subst hj'
            rw [s1_getC_slash]
            decide
  rw [hstart, show x.length + 3 = (x.length + 2) + 1 from rfl, eaLoop_succ,
      if_pos (by omega)]
  dsimp only
  have hkb : findFrom ('<' :: (x ++ ['/', '>'])) (fun c => IsAlpha c)
      (x.length + 2) ((x.length + 2) + 1) = (x.length + 2) + 1 := by
    apply findFrom_none
    intro i h1 h2
    have hi : i = x.length + 2 := by omega
    subst hi
    rw [s1_getC_gt]
    decide
  rw [hkb, if_pos rfl]

theorem s1_filteredTokens (x : List Char) (hne : x ≠ [])
    (hx : ∀ c ∈ x, IsAlpha c = true) :
    filteredTokens ('<' :: (x ++ ['/', '>'])) = [0, x.length + 3] := by
  unfold filteredTokens
  rw [s1_tokenize x hne hx]
  have hrg : RemoveGaps ('<' :: (x ++ ['/', '>'])) [0, x.length + 3] =
      [0, x.length + 3] := by
    rw [RemoveGaps_cons₂,
        if_neg (by
          rw [allSpace_eq_false ('<' :: (x ++ ['/', '>'])) 0 (x.length + 3) 0
            le_rfl (by omega) (by show IsSpace '<' = false; decide)]
          simp),
        RemoveGaps_single]
  rw [hrg]
  have hric : RemoveInsideComments ('<' :: (x ++ ['/', '>'])) [0, x.length + 3] =
      [0, x.length + 3] := by
    show ricAux ('<' :: (x ++ ['/', '>'])) none 0 [x.length + 3] = [0, x.length + 3]
    rw [ricAux_none_cons,
        if_neg (by
          rw [anyIn_eq_false _ 0 (x.length + 3 - 3) _
            (fun i h1 h2 => s1_comment_start_false x hne hx i (by omega))]
          simp),
        ricAux_none_nil]
  rw [hric]
  rw [RemoveLeadingComments_cons₂,
      if_neg (by rw [s1_DetermineToken x hne hx]; decide)]

/-- Evaluation of the parsing constructor on `<x/>` for an alphabetic
element name `x`. -/
theorem parse_self_closing (x : List Char) (rer : Bool) (hne : x ≠ [])
    (hx : ∀ c ∈ x, IsAlpha c = true) :
    parseDocument ('<' :: (x ++ ['/', '>'])) rer =
      .ok ⟨.mk x [] [] [], [], [], []⟩ := by
  unfold parseDocument
  dsimp only
  rw [s1_filteredTokens x hne hx]
  rw [if_neg (show ¬getC ('<' :: (x ++ ['/', '>']))
      (List.headD [0, x.length + 3] 0) ≠ '<' from not_not_intro rfl)]
  have h1 : IsAlpha (getC ('<' :: (x ++ ['/', '>'])) (0 + 1)) = true :=
    s1_getC_alpha x hx 0 (List.length_pos.mpr hne)
  rw [if_neg (show ¬getC ('<' :: (x ++ ['/', '>']))
      (List.headD [0, x.length + 3] 0 + 1) = '?' from
    alpha_ne_char _ '?' h1 (by decide))]
  show (match BuildElementTree ('<' :: (x ++ ['/', '>'])) rer [0, x.length + 3] with
    | some root => Except.ok (⟨root, [], [], []⟩ : DocumentT)
    | none => Except.error "Malformed xml".toList) = _
  unfold BuildElementTree
  dsimp only
  rw [s1_ExtractName x hx, s1_ExtractAttributes x hx, buildLoop_nil]
  rfl
/-! ## Evaluation of the pipeline on `<x></x>` -/

theorem s2_getC_alpha1 (x : List Char) (hx : ∀ c ∈ x, IsAlpha c = true)
    (i : Nat) (hi : i < x.length) :
    IsAlpha (getC ('<' :: (x ++ ('>' :: '<' :: '/' :: (x ++ ['>'])))) (i + 1)) = true := by
  rw [getC_cons_succ, getC_append_left _ _ i hi]
  exact hx _ (getC_mem x i hi)

theorem s2_getC_gt1 (x : List Char) :
    getC ('<' :: (x ++ ('>' :: '<' :: '/' :: (x ++ ['>'])))) (x.length + 1) = '>' := by
  rw [getC_cons_succ, getC_append_right x _ x.length le_rfl, Nat.sub_self]
  rfl

theorem s2_getC_lt2 (x : List Char) :
    getC ('<' :: (x ++ ('>' :: '<' :: '/' :: (x ++ ['>'])))) (x.length + 2) = '<' := by
  rw [show x.length + 2 = (x.length + 1) + 1 from rfl, getC_cons_succ,
      getC_append_right x _ (x.length + 1) (by omega),
      show x.length + 1 - x.length = 1 from by omega]
  rfl

theorem s2_getC_slash (x : List Char) :
    getC ('<' :: (x ++ ('>' :: '<' :: '/' :: (x ++ ['>'])))) (x.length + 3) = '/' := by
  rw [show x.length + 3 = (x.length + 2) + 1 from rfl, getC_cons_succ,
      getC_append_right x _ (x.length + 2) (by omega),
      show x.length + 2 - x.length = 2 from by omega]
  rfl

theorem s2_getC_alpha2 (x : List Char) (hx : ∀ c ∈ x, IsAlpha c = true)
    (i : Nat) (hi : i < x.length) :
    IsAlpha (getC ('<' :: (x ++ ('>' :: '<' :: '/' :: (x ++ ['>']))))
      (x.length + 4 + i)) = true := by
  rw [show x.length + 4 + i = (x.length + 3 + i) + 1 from by omega, getC_cons_succ,
      getC_append_right x _ (x.length + 3 + i) (by omega),
      show x.length + 3 + i - x.length = i + 3 from by omega]
  show IsAlpha (getC (x ++ ['>']) i) = true
  rw [getC_append_left _ _ i hi]
  exact hx _ (getC_mem x i hi)

theorem s2_getC_gt2 (x : List Char) :
    getC ('<' :: (x ++ ('>' :: '<' :: '/' :: (x ++ ['>']))))
      (2 * x.length + 4) = '>' := by
  rw [show 2 * x.length + 4 = (2 * x.length + 3) + 1 from rfl, getC_cons_succ,
      getC_append_right x _ (2 * x.length + 3) (by omega),
      show 2 * x.length + 3 - x.length = x.length + 3 from by omega]
  show getC (x ++ ['>']) x.length = '>'
  rw [getC_append_right x _ x.length le_rfl, Nat.sub_self]
  rfl

theorem s2_tokenize (x : List Char) (hne : x ≠ [])
    (hx : ∀ c ∈ x, IsAlpha c = true) :
    Tokenize ('<' :: (x ++ ('>' :: '<' :: '/' :: (x ++ ['>'])))) =
      [0, x.length + 2, 2 * x.length + 5] := by
  have hxlt : ∀ c ∈ x, ¬c = '<' := fun c hc => alpha_ne_char c '<' (hx c hc) (by decide)
  have hxgt : ∀ c ∈ x, ¬c = '>' := fun c hc => alpha_ne_char c '>' (hx c hc) (by decide)
  have h1 : tokenizeAux '<' x 1 = [] := by
    apply tokenizeAux_no_marks x '<' 1 hxlt
    intro c hc
    rcases List.mem_cons.mp (List.dropLast_subset _ hc) with h | h
    · rw [h]; decide
    · exact hxgt c h
  have h4 : tokenizeAux '/' x (x.length + 4) = [] := by
    apply tokenizeAux_no_marks x '/' _ hxlt
    intro c hc
    rcases List.mem_cons.mp (List.dropLast_subset _ hc) with h | h
    · rw [h]; decide
    · exact hxgt c h
  have hlast1 : IsAlpha (x.getLastD '<') = true := hx _ (getLastD_mem x '<' hne)
  have hlast2 : IsAlpha (x.getLastD '/') = true := hx _ (getLastD_mem x '/' hne)
  have hbody : tokenizeAux '<' (x ++ ('>' :: '<' :: '/' :: (x ++ ['>']))) 1 =
      [x.length + 2] := by
    rw [tokenizeAux_append, h1, List.nil_append]
    rw [tokenizeAux_cons, if_neg (by decide),
        if_neg (alpha_ne_char _ '>' hlast1 (by decide))]
    rw [tokenizeAux_cons, if_pos rfl]
    rw [tokenizeAux_cons, if_neg (by decide), if_neg (by decide)]
    rw [show 1 + x.length + 1 + 1 + 1 = x.length + 4 from by omega,
        show 1 + x.length + 1 = x.length + 2 from by omega]
    rw [tokenizeAux_append, h4, List.nil_append]
    rw [tokenizeAux_cons, if_neg (by decide),
        if_neg (alpha_ne_char _ '>' hlast2 (by decide)), tokenizeAux_nil]
  unfold Tokenize
  dsimp only
  rw [hbody,
      if_pos (by
        rw [show ((0 : Nat) :: [x.length + 2]).getLastD 0 = x.length + 2 from rfl,
            s2_getC_lt2 x]
        decide)]
  simp [List.length_append, List.length_cons]
  omega

theorem s2_comment_start_false_1 (x : List Char) (hne : x ≠ [])
    (hx : ∀ c ∈ x, IsAlpha c = true) (i : Nat) (hi : i < x.length) :
    IsCommentStart ('<' :: (x ++ ('>' :: '<' :: '/' :: (x ++ ['>'])))) i = false := by
  cases i with
  | zero =>
      have h1 : IsAlpha (getC ('<' :: (x ++ ('>' :: '<' :: '/' :: (x ++ ['>'])))) 1) =
          true := s2_getC_alpha1 x hx 0 (List.length_pos.mpr hne)
      have hb : ¬getC ('<' :: (x ++ ('>' :: '<' :: '/' :: (x ++ ['>'])))) 1 = '!' :=
        alpha_ne_char _ _ h1 (by decide)
      simp [IsCommentStart, hb]
  | succ j =>
      have h1 : IsAlpha (getC ('<' :: (x ++ ('>' :: '<' :: '/' :: (x ++ ['>']))))
          (j + 1)) = true := s2_getC_alpha1 x hx j (by omega)
      have hb : ¬getC ('<' :: (x ++ ('>' :: '<' :: '/' :: (x ++ ['>'])))) (j + 1) = '<' :=
        alpha_ne_char _ _ h1 (by decide)
      simp [IsCommentStart, hb]

theorem s2_comment_start_false_2 (x : List Char) (hx : ∀ c ∈ x, IsAlpha c = true)
    (i : Nat) (h1 : x.length + 2 ≤ i) (h2 : i < 2 * x.length + 3) :
    IsCommentStart ('<' :: (x ++ ('>' :: '<' :: '/' :: (x ++ ['>'])))) i = false := by
  by_cases hc2 : i = x.length + 2
  · subst hc2
    have hb : ¬getC ('<' :: (x ++ ('>' :: '<' :: '/' :: (x ++ ['>']))))
        (x.length + 2 + 1) = '!' := by
      rw [show x.length + 2 + 1 = x.length + 3 from rfl, s2_getC_slash]
      decide
    simp [IsCommentStart, hb]
  · by_cases hc3 : i = x.length + 3
    · subst hc3
      have hb : ¬getC ('<' :: (x ++ ('>' :: '<' :: '/' :: (x ++ ['>']))))
          (x.length + 3) = '<' := by
        rw [s2_getC_slash]
        decide
      simp [IsCommentStart, hb]
    · obtain ⟨j, rfl⟩ : ∃ j, i = x.length + 4 + j := ⟨i - (x.length + 4), by omega⟩
      have ha : IsAlpha (getC ('<' :: (x ++ ('>' :: '<' :: '/' :: (x ++ ['>']))))
          (x.length + 4 + j)) = true := s2_getC_alpha2 x hx j (by omega)
      have hb : ¬getC ('<' :: (x ++ ('>' :: '<' :: '/' :: (x ++ ['>']))))
          (x.length + 4 + j) = '<' := alpha_ne_char _ _ ha (by decide)
      simp [IsCommentStart, hb]
theorem s2_DetermineToken_root (x : List Char) (hne : x ≠ [])
    (hx : ∀ c ∈ x, IsAlpha c = true) :
    DetermineToken ('<' :: (x ++ ('>' :: '<' :: '/' :: (x ++ ['>'])))) 0
      (x.length + 2) = 1 := by
  have hn : 0 < x.length := List.length_pos.mpr hne
  unfold DetermineToken
  rw [if_pos (show getC ('<' :: (x ++ ('>' :: '<' :: '/' :: (x ++ ['>'])))) 0 = '<'
      from rfl)]
  have h1 : IsAlpha (getC ('<' :: (x ++ ('>' :: '<' :: '/' :: (x ++ ['>'])))) (0 + 1)) =
      true := s2_getC_alpha1 x hx 0 hn
  rw [if_neg (alpha_ne_char _ '/' h1 (by decide))]
  rw [if_neg (by simp [s2_comment_start_false_1 x hne hx 0 hn])]
  dsimp only
  have hfind : findFrom ('<' :: (x ++ ('>' :: '<' :: '/' :: (x ++ ['>']))))
      (fun c => c = '>') 0 (x.length + 2) = x.length + 1 := by
    apply findFrom_eq
    · omega
    · omega
    · rw [s2_getC_gt1]
      simp
    · intro i h0 hi
      cases i with
      | zero =>
          show decide (('<' : Char) = '>') = false
          decide
      | succ j =>
          have ha : IsAlpha (getC ('<' :: (x ++ ('>' :: '<' :: '/' :: (x ++ ['>']))))
              (j + 1)) = true := s2_getC_alpha1 x hx j (by omega)
          simp [alpha_ne_char _ '>' ha (by decide)]
  rw [hfind, if_neg (by omega),
      show x.length + 1 - 1 = x.length from by omega]
  have hlastpos : IsAlpha (getC ('<' :: (x ++ ('>' :: '<' :: '/' :: (x ++ ['>']))))
      x.length) = true := by
    have := s2_getC_alpha1 x hx (x.length - 1) (by omega)
    rw [show x.length - 1 + 1 = x.length from by omega] at this
    exact this
  rw [if_neg (alpha_ne_char _ '/' hlastpos (by decide))]
  rfl

theorem s2_DetermineToken_close (x : List Char) :
    DetermineToken ('<' :: (x ++ ('>' :: '<' :: '/' :: (x ++ ['>']))))
      (x.length + 2) (2 * x.length + 5) = 2 := by
  unfold DetermineToken
  rw [if_pos (s2_getC_lt2 x),
      if_pos (show getC ('<' :: (x ++ ('>' :: '<' :: '/' :: (x ++ ['>']))))
        (x.length + 2 + 1) = '/' from s2_getC_slash x)]
  rfl

theorem s2_ExtractName (x : List Char) (hx : ∀ c ∈ x, IsAlpha c = true) :
    ExtractName ('<' :: (x ++ ('>' :: '<' :: '/' :: (x ++ ['>'])))) 0
      (x.length + 2) = x := by
  unfold ExtractName
  have hfind : findFrom ('<' :: (x ++ ('>' :: '<' :: '/' :: (x ++ ['>']))))
      (fun c => IsSpace c || c = '>' || c = '/') (0 + 1) (x.length + 2) =
      x.length + 1 := by
    apply findFrom_eq
    · omega
    · omega
    · rw [s2_getC_gt1]
      decide
    · intro i h1 hi
      obtain ⟨j, rfl⟩ : ∃ j, i = j + 1 := ⟨i - 1, by omega⟩
      have ha : IsAlpha (getC ('<' :: (x ++ ('>' :: '<' :: '/' :: (x ++ ['>']))))
          (j + 1)) = true := s2_getC_alpha1 x hx j (by omega)
      simp [IsSpace_eq_false_of_alpha _ ha, alpha_ne_char _ '>' ha (by decide),
        alpha_ne_char _ '/' ha (by decide)]
  rw [hfind]
  unfold slice
  rw [show x.length + 1 - (0 + 1) = x.length from by omega]
  show (x ++ ('>' :: '<' :: '/' :: (x ++ ['>']))).take x.length = x
  exact List.take_left x _

theorem s2_ExtractAttributes (x : List Char) (hx : ∀ c ∈ x, IsAlpha c = true) :
    ExtractAttributes ('<' :: (x ++ ('>' :: '<' :: '/' :: (x ++ ['>'])))) 0
      (x.length + 2) = [] := by
  unfold ExtractAttributes
  dsimp only
  have hstart : findFrom ('<' :: (x ++ ('>' :: '<' :: '/' :: (x ++ ['>']))))
      (fun c => c = '>' || IsSpace c) 0 (x.length + 2) = x.length + 1 := by
    apply findFrom_eq
    · omega
    · omega
    · rw [s2_getC_gt1]
      decide
    · intro i h0 hi
      cases i with
      | zero =>
          show (decide (('<' : Char) = '>') || IsSpace '<') = false
          decide
      | succ j =>
          have ha : IsAlpha (getC ('<' :: (x ++ ('>' :: '<' :: '/' :: (x ++ ['>']))))
              (j + 1)) = true := s2_getC_alpha1 x hx j (by omega)
          simp [alpha_ne_char _ '>' ha (by decide), IsSpace_eq_false_of_alpha _ ha]
  rw [hstart, show x.length + 2 = (x.length + 1) + 1 from rfl, eaLoop_succ,
      if_pos (by omega)]
  dsimp only
  have hkb : findFrom ('<' :: (x ++ ('>' :: '<' :: '/' :: (x ++ ['>']))))
      (fun c => IsAlpha c) (x.length + 1) ((x.length + 1) + 1) =
      (x.length + 1) + 1 := by
    apply findFrom_none
    intro i h1 h2
    have hi : i = x.length + 1 := by omega
    subst hi
    rw [s2_getC_gt1]
    decide
  rw [hkb, if_pos rfl]

theorem s2_filteredTokens (x : List Char) (hne : x ≠ [])
    (hx : ∀ c ∈ x, IsAlpha c = true) :
    filteredTokens ('<' :: (x ++ ('>' :: '<' :: '/' :: (x ++ ['>'])))) =
      [0, x.length + 2, 2 * x.length + 5] := by
  unfold filteredTokens
  rw [s2_tokenize x hne hx]
  have hrg : RemoveGaps ('<' :: (x ++ ('>' :: '<' :: '/' :: (x ++ ['>']))))
      [0, x.length + 2, 2 * x.length + 5] =
      [0, x.length + 2, 2 * x.length + 5] := by
    rw [RemoveGaps_cons₂,
        if_neg (by
          rw [allSpace_eq_false _ 0 (x.length + 2) 0 le_rfl (by omega)
            (by show IsSpace '<' = false; decide)]
          simp),
        RemoveGaps_cons₂,
        if_neg (by
          rw [allSpace_eq_false _ (x.length + 2) (2 * x.length + 5) (x.length + 2)
            le_rfl (by omega) (by rw [s2_getC_lt2 x]; decide)]
          simp),
        RemoveGaps_single]
  rw [hrg]
  have hric : RemoveInsideComments ('<' :: (x ++ ('>' :: '<' :: '/' :: (x ++ ['>']))))
      [0, x.length + 2, 2 * x.length + 5] =
      [0, x.length + 2, 2 * x.length + 5] := by
    show ricAux _ none 0 [x.length + 2, 2 * x.length + 5] = _
    rw [ricAux_none_cons,
        if_neg (by
          rw [anyIn_eq_false _ 0 (x.length + 2 - 3) _
            (fun i h1 h2 => s2_comment_start_false_1 x hne hx i (by omega))]
          simp),
        ricAux_none_cons,
        if_neg (by
          rw [anyIn_eq_false _ (x.length + 2) (2 * x.length + 5 - 3) _
            (fun i h1 h2 => s2_comment_start_false_2 x hx i h1 (by omega))]
          simp),
        ricAux_none_nil]
  rw [hric]
  rw [RemoveLeadingComments_cons₂,
      if_neg (by rw [s2_DetermineToken_root x hne hx]; decide)]

/-- Evaluation of the parsing constructor on `<x></x>` for an alphabetic
element name `x`. -/
theorem parse_empty_pair (x : List Char) (rer : Bool) (hne : x ≠ [])
    (hx : ∀ c ∈ x, IsAlpha c = true) :
    parseDocument ('<' :: (x ++ ('>' :: '<' :: '/' :: (x ++ ['>'])))) rer =
      .ok ⟨.mk x [] [] [], [], [], []⟩ := by
  unfold parseDocument
  dsimp only
  rw [s2_filteredTokens x hne hx]
  rw [if_neg (show ¬getC ('<' :: (x ++ ('>' :: '<' :: '/' :: (x ++ ['>']))))
      (List.headD [0, x.length + 2, 2 * x.length + 5] 0) ≠ '<' from not_not_intro rfl)]
  have h1 : IsAlpha (getC ('<' :: (x ++ ('>' :: '<' :: '/' :: (x ++ ['>'])))) (0 + 1)) =
      true := s2_getC_alpha1 x hx 0 (List.length_pos.mpr hne)
  rw [if_neg (show ¬getC ('<' :: (x ++ ('>' :: '<' :: '/' :: (x ++ ['>']))))
      (List.headD [0, x.length + 2, 2 * x.length + 5] 0 + 1) = '?' from
    alpha_ne_char _ '?' h1 (by decide))]
  show (match BuildElementTree ('<' :: (x ++ ('>' :: '<' :: '/' :: (x ++ ['>'])))) rer
      [0, x.length + 2, 2 * x.length + 5] with
    | some root => Except.ok (⟨root, [], [], []⟩ : DocumentT)
    | none => Except.error "Malformed xml".toList) = _
  unfold BuildElementTree
  dsimp only
  rw [s2_ExtractName x hx, s2_ExtractAttributes x hx]
  rw [buildLoop_cons]
  dsimp only
  rw [s2_DetermineToken_close x]
  rfl
/-- C6.  For every non-empty alphabetic element name `x`, parsing the
self-closing tag `<x/>` and parsing the explicit empty pair `<x></x>`
produce the same Document: a root named `x` with empty content, no
attributes and zero children in both cases. -/
theorem c6_self_closing_equiv (x : List Char) (rer : Bool) (hne : x ≠ [])
    (hx : ∀ c ∈ x, IsAlpha c = true) :
    parseDocument ("<".toList ++ x ++ "/>".toList) rer =
      .ok ⟨.mk x [] [] [], [], [], []⟩ ∧
    parseDocument ("<".toList ++ x ++ "></".toList ++ x ++ ">".toList) rer =
      .ok ⟨.mk x [] [] [], [], [], []⟩ := by
  constructor
  · show parseDocument ('<' :: (x ++ ['/', '>'])) rer = _
    exact parse_self_closing x rer hne hx
  · have heq : "<".toList ++ x ++ "></".toList ++ x ++ ">".toList =
        '<' :: (x ++ ('>' :: '<' :: '/' :: (x ++ ['>']))) := by
      simp
    rw [heq]
    exact parse_empty_pair x rer hne hx

/-- C6 (witness): the equivalence evaluated at the name `a`. -/
theorem c6_self_closing_equiv_witness :
    parseDocument "<a/>".toList true =
      .ok ⟨.mk "a".toList [] [] [], [], [], []⟩ ∧
    parseDocument "<a></a>".toList true =
      .ok ⟨.mk "a".toList [] [] [], [], [], []⟩ :=
  c6_self_closing_equiv "a".toList true (by decide) (by decide)
/-! ## Congruence and shift lemmas for buffers that agree on a region

These relate the pipeline on `pre ++ cmt ++ post` with the pipeline on
`pre ++ post`: positions below the junction read the same characters in
both buffers, positions at or above it read the same characters shifted by
the comment length. -/

theorem find?_congr {α : Type} (p q : α → Bool) :
    ∀ (l : List α), (∀ x ∈ l, p x = q x) → l.find? p = l.find? q := by
  intro l
  induction l with
  | nil => intro _; rfl
  | cons a t ih =>
      intro h
      rw [List.find?_cons, List.find?_cons, h a (List.mem_cons_self a t)]
      split
      · rfl
      · exact ih (fun x hx => h x (List.mem_cons_of_mem a hx))

theorem any_congr {α : Type} (p q : α → Bool) :
    ∀ l : List α, (∀ x ∈ l, p x = q x) → l.any p = l.any q := by
  intro l
  induction l with
  | nil => intro _; rfl
  | cons a t ih =>
      intro h
      rw [List.any_cons, List.any_cons, h a (List.mem_cons_self a t),
        ih (fun x hx => h x (List.mem_cons_of_mem a hx))]

theorem all_congr {α : Type} (p q : α → Bool) :
    ∀ l : List α, (∀ x ∈ l, p x = q x) → l.all p = l.all q := by
  intro l
  induction l with
  | nil => intro _; rfl
  | cons a t ih =>
      intro h
      rw [List.all_cons, List.all_cons, h a (List.mem_cons_self a t),
        ih (fun x hx => h x (List.mem_cons_of_mem a hx))]

theorem findFrom_congr (s₁ s₂ : List Char) (p : Char → Bool) (a c : Nat)
    (h : ∀ i, a ≤ i → i < c → getC s₁ i = getC s₂ i) :
    findFrom s₁ p a c = findFrom s₂ p a c := by
  unfold findFrom
  have hc : (List.range' a (c - a)).find? (fun i => p (getC s₁ i)) =
      (List.range' a (c - a)).find? (fun i => p (getC s₂ i)) := by
    apply find?_congr
    intro i hi
    rw [List.mem_range'_1] at hi
    rw [h i hi.1 (by omega)]
  rw [hc]

theorem findFrom_cases (s : List Char) (p : Char → Bool) (a c : Nat) :
    findFrom s p a c = c ∨
    (a ≤ findFrom s p a c ∧ findFrom s p a c < c ∧
      p (getC s (findFrom s p a c)) = true) := by
  unfold findFrom
  cases hf : (List.range' a (c - a)).find? (fun i => p (getC s i)) with
  | none => exact Or.inl rfl
  | some j =>
      right
      have hm := List.mem_range'_1.mp (List.mem_of_find?_eq_some hf)
      have hp := List.find?_some hf
      refine ⟨hm.1, by dsimp only; omega, by dsimp only; simpa using hp⟩

theorem range'_add_right (k : Nat) : ∀ (n a : Nat), List.range' (a + k) n =
    (List.range' a n).map (fun x => x + k) := by
  intro n
  induction n with
  | zero => intro a; rfl
  | succ n ih =>
      intro a
      rw [List.range'_succ, List.range'_succ, List.map_cons,
        show a + k + 1 = (a + 1) + k from by omega, ih (a + 1)]

theorem anyIn_shift (s₁ s₂ : List Char) (p₁ p₂ : Nat → Bool) (a b c k : Nat)
    (hc : c - (a + k) = b - a)
    (hp : ∀ i, a ≤ i → i < b → p₁ (i + k) = p₂ i) :
    anyIn s₁ (a + k) c p₁ = anyIn s₂ a b p₂ := by
  unfold anyIn
  rw [hc, range'_add_right k (b - a) a, List.any_map]
  apply any_congr
  intro i hi
  rw [List.mem_range'_1] at hi
  show p₁ (i + k) = p₂ i
  exact hp i hi.1 (by omega)

theorem getC_shift (u v w : List Char) (i : Nat) (h : u.length ≤ i) :
    getC (u ++ (v ++ w)) (i + v.length) = getC (u ++ w) i := by
  rw [getC_append_right u (v ++ w) (i + v.length) (by omega),
      getC_append_right v w (i + v.length - u.length) (by omega),
      getC_append_right u w i h]
  congr 1
  omega

theorem allSpace_shift (u v w : List Char) (a b : Nat) (hu : u.length ≤ a) :
    allSpace (u ++ (v ++ w)) (a + v.length) (b + v.length) = allSpace (u ++ w) a b := by
  unfold allSpace
  rw [show b + v.length - (a + v.length) = b - a from by omega,
      range'_add_right v.length (b - a) a, List.all_map]
  apply all_congr
  intro i hi
  rw [List.mem_range'_1] at hi
  show IsSpace (getC (u ++ (v ++ w)) (i + v.length)) = IsSpace (getC (u ++ w) i)
  rw [getC_shift u v w i (by omega)]

theorem findFrom_shift (u v w : List Char) (p : Char → Bool) (a b : Nat)
    (hu : u.length ≤ a) :
    findFrom (u ++ (v ++ w)) p (a + v.length) (b + v.length) =
      (findFrom (u ++ w) p a b) + v.length := by
  unfold findFrom
  rw [show b + v.length - (a + v.length) = b - a from by omega,
      range'_add_right v.length (b - a) a, List.find?_map]
  have hcongr : ∀ i ∈ List.range' a (b - a),
      ((fun i => p (getC (u ++ (v ++ w)) i)) ∘ (fun x => x + v.length)) i =
        (fun i => p (getC (u ++ w) i)) i := by
    intro i hi
    rw [List.mem_range'_1] at hi
    show p (getC (u ++ (v ++ w)) (i + v.length)) = p (getC (u ++ w) i)
    rw [getC_shift u v w i (by omega)]
  rw [find?_congr _ _ _ hcongr]
  cases (List.range' a (b - a)).find? (fun i => p (getC (u ++ w) i)) with
  | none => rfl
  | some j => rfl

theorem slice_append_of_le (u X : List Char) (a b : Nat) (hb : b ≤ u.length) :
    slice (u ++ X) a b = slice u a b := by
  unfold slice
  rw [List.drop_append_eq_append_drop, List.take_append_eq_append_take]
  have h1 : (u.drop a).length = u.length - a := List.length_drop a u
  by_cases ha : a ≤ u.length
  · rw [show a - u.length = 0 from by omega]
    rw [show b - a - (u.drop a).length = 0 from by omega]
    simp
  · rw [show b - a = 0 from by omega]
    simp

theorem slice_shift (u v w : List Char) (a b : Nat) (hu : u.length ≤ a) :
    slice (u ++ (v ++ w)) (a + v.length) (b + v.length) = slice (u ++ w) a b := by
  unfold slice
  have hdrop : (u ++ (v ++ w)).drop (a + v.length) = w.drop (a - u.length) := by
    rw [show u ++ (v ++ w) = (u ++ v) ++ w from (List.append_assoc u v w).symm,
        show a + v.length = (u ++ v).length + (a - u.length) from by
          simp only [List.length_append]; omega,
        List.drop_append]
  have hdrop2 : (u ++ w).drop a = w.drop (a - u.length) := by
    conv_lhs => rw [show a = u.length + (a - u.length) from by omega]
    rw [List.drop_append]
  rw [hdrop, hdrop2, show b + v.length - (a + v.length) = b - a from by omega]
/-! ## Comment elision: setup

`cmtOf b` is the comment `<!--b-->`.  Throughout, the buffer with the
comment is `pre ++ (cmtOf b ++ post)` and the buffer without it is
`pre ++ post`; `pre.length` is the junction position. -/

/-- The full text of the comment `<!--b-->`. -/
def cmtOf (b : List Char) : List Char :=
  '<' :: '!' :: '-' :: '-' :: (b ++ ['-', '-', '>'])

theorem cmtOf_length (b : List Char) : (cmtOf b).length = b.length + 7 := by
  simp [cmtOf]


theorem agree_le (pre b post : List Char) (hpost : getC post 0 = '<')
    (i : Nat) (hi : i ≤ pre.length) :
    getC (pre ++ (cmtOf b ++ post)) i = getC (pre ++ post) i := by
  by_cases hlt : i < pre.length
  · rw [getC_append_left _ _ i hlt, getC_append_left _ _ i hlt]
  · have hie : i = pre.length := by omega
    subst hie
    rw [getC_append_right pre _ pre.length le_rfl, Nat.sub_self,
        getC_append_right pre _ pre.length le_rfl, Nat.sub_self, hpost]
    rfl

theorem cmtStart_append_false (pre X : List Char)
    (hprecmt : ∀ i, IsCommentStart pre i = false)
    (hpregt : getC pre (pre.length - 1) = '>')
    (l : Nat) (hl : l < pre.length) :
    IsCommentStart (pre ++ X) l = false := by
  by_cases h3 : l + 3 < pre.length
  · have : IsCommentStart (pre ++ X) l = IsCommentStart pre l := by
      unfold IsCommentStart
      rw [getC_append_left _ _ l (by omega), getC_append_left _ _ (l + 1) (by omega),
          getC_append_left _ _ (l + 2) (by omega), getC_append_left _ _ (l + 3) (by omega)]
    rw [this, hprecmt l]
  · by_cases h1 : l = pre.length - 1
    · have hb : ¬getC (pre ++ X) l = '<' := by
        rw [getC_append_left _ _ l hl, h1, hpregt]
        decide
      simp [IsCommentStart, hb]
    · by_cases h2 : l = pre.length - 2
      · have hb : ¬getC (pre ++ X) (l + 1) = '!' := by
          rw [getC_append_left _ _ (l + 1) (by omega),
              show l + 1 = pre.length - 1 from by omega, hpregt]
          decide
        simp [IsCommentStart, hb]
      · have hl3 : l = pre.length - 3 := by omega
        have hb : ¬getC (pre ++ X) (l + 2) = '-' := by
          rw [getC_append_left _ _ (l + 2) (by omega),
              show l + 2 = pre.length - 1 from by omega, hpregt]
          decide
        simp [IsCommentStart, hb]

theorem cmtStart_shift (pre b post : List Char) (i : Nat) (hi : pre.length ≤ i) :
    IsCommentStart (pre ++ (cmtOf b ++ post)) (i + (cmtOf b).length) =
      IsCommentStart (pre ++ post) i := by
  unfold IsCommentStart
  rw [getC_shift pre (cmtOf b) post i hi,
      show i + (cmtOf b).length + 1 = (i + 1) + (cmtOf b).length from by omega,
      getC_shift pre (cmtOf b) post (i + 1) (by omega),
      show i + (cmtOf b).length + 2 = (i + 2) + (cmtOf b).length from by omega,
      getC_shift pre (cmtOf b) post (i + 2) (by omega),
      show i + (cmtOf b).length + 3 = (i + 3) + (cmtOf b).length from by omega,
      getC_shift pre (cmtOf b) post (i + 3) (by omega)]

theorem cmtEnd_shift (pre b post : List Char) (i : Nat) (hi : pre.length ≤ i) :
    IsCommentEnd (pre ++ (cmtOf b ++ post)) (i + (cmtOf b).length) =
      IsCommentEnd (pre ++ post) i := by
  unfold IsCommentEnd
  rw [getC_shift pre (cmtOf b) post i hi,
      show i + (cmtOf b).length + 1 = (i + 1) + (cmtOf b).length from by omega,
      getC_shift pre (cmtOf b) post (i + 1) (by omega),
      show i + (cmtOf b).length + 2 = (i + 2) + (cmtOf b).length from by omega,
      getC_shift pre (cmtOf b) post (i + 2) (by omega)]

theorem getC_at_cmt (pre b post : List Char) (j : Nat) (hj : j < (cmtOf b).length) :
    getC (pre ++ (cmtOf b ++ post)) (pre.length + j) = getC (cmtOf b) j := by
  rw [getC_append_right pre _ (pre.length + j) (by omega),
      show pre.length + j - pre.length = j from by omega,
      getC_append_left _ _ j hj]

theorem getC_at_junction (pre b post : List Char) :
    getC (pre ++ (cmtOf b ++ post)) pre.length = '<' := by
  rw [getC_append_right pre _ pre.length le_rfl, Nat.sub_self]
  rfl

theorem cmtStart_at_junction (pre b post : List Char) :
    IsCommentStart (pre ++ (cmtOf b ++ post)) pre.length = true := by
  unfold IsCommentStart
  rw [getC_at_junction pre b post,
      getC_at_cmt pre b post 1 (by rw [cmtOf_length]; omega),
      getC_at_cmt pre b post 2 (by rw [cmtOf_length]; omega),
      getC_at_cmt pre b post 3 (by rw [cmtOf_length]; omega)]
  rfl

theorem cmtEnd_before_junction_end (pre b post : List Char) :
    IsCommentEnd (pre ++ (cmtOf b ++ post)) (pre.length + (b.length + 4)) = true := by
  unfold IsCommentEnd
  rw [getC_at_cmt pre b post (b.length + 4) (by rw [cmtOf_length]; omega),
      show pre.length + (b.length + 4) + 1 = pre.length + (b.length + 5) from by omega,
      getC_at_cmt pre b post (b.length + 5) (by rw [cmtOf_length]; omega),
      show pre.length + (b.length + 4) + 2 = pre.length + (b.length + 6) from by omega,
      getC_at_cmt pre b post (b.length + 6) (by rw [cmtOf_length]; omega)]
  have e1 : getC (cmtOf b) (b.length + 4) = '-' := by
    show getC (b ++ ['-', '-', '>']) b.length = '-'
    rw [getC_append_right b _ b.length le_rfl, Nat.sub_self]
    rfl
  have e2 : getC (cmtOf b) (b.length + 5) = '-' := by
    show getC (b ++ ['-', '-', '>']) (b.length + 1) = '-'
    rw [getC_append_right b _ (b.length + 1) (by omega),
        show b.length + 1 - b.length = 1 from by omega]
    rfl
  have e3 : getC (cmtOf b) (b.length + 6) = '>' := by
    show getC (b ++ ['-', '-', '>']) (b.length + 2) = '>'
    rw [getC_append_right b _ (b.length + 2) (by omega),
        show b.length + 2 - b.length = 2 from by omega]
    rfl
  rw [e1, e2, e3]
  rfl
theorem findFrom_le (s : List Char) (p : Char → Bool) (a c : Nat) :
    findFrom s p a c ≤ c := by
  rcases findFrom_cases s p a c with h | h
  · omega
  · omega

/-- Congruence of `DetermineToken` between two buffers whose relevant reads
agree up to a position shift `d`. -/
theorem DT_congr (s₁ s₂ : List Char) (l r d : Nat)
    (h0 : getC s₁ (l + d) = getC s₂ l)
    (h1 : getC s₁ (l + d + 1) = getC s₂ (l + 1))
    (hcs : IsCommentStart s₁ (l + d) = IsCommentStart s₂ l)
    (hff : findFrom s₁ (fun c => c = '>') (l + d) (r + d) =
      findFrom s₂ (fun c => c = '>') l r + d)
    (hgm : getC s₂ l = '<' → findFrom s₂ (fun c => c = '>') l r < r →
      getC s₁ (findFrom s₂ (fun c => c = '>') l r + d - 1) =
        getC s₂ (findFrom s₂ (fun c => c = '>') l r - 1)) :
    DetermineToken s₁ (l + d) (r + d) = DetermineToken s₂ l r := by
  unfold DetermineToken
  dsimp only
  rw [h0, h1, hcs, hff]
  by_cases hlt : getC s₂ l = '<'
  · rw [if_pos hlt, if_pos hlt]
    by_cases hsl : getC s₂ (l + 1) = '/'
    · rw [if_pos hsl, if_pos hsl]
    · rw [if_neg hsl, if_neg hsl]
      by_cases hcs2 : IsCommentStart s₂ l = true
      · rw [if_pos hcs2, if_pos hcs2]
      · rw [if_neg hcs2, if_neg hcs2]
        by_cases hg : findFrom s₂ (fun c => c = '>') l r = r
        · rw [if_pos (by omega), if_pos hg]
        · rw [if_neg (show ¬(findFrom s₂ (fun c => c = '>') l r + d = r + d) from by omega),
              if_neg hg, hgm hlt (by have := findFrom_le s₂ (fun c => c = '>') l r; omega)]
  · rw [if_neg hlt, if_neg hlt]

/-- `DetermineToken` agrees on the two buffers for a token entirely below
the junction. -/
theorem DT_pre_eq (pre b post : List Char) (hpost : getC post 0 = '<')
    (hprecmt : ∀ i, IsCommentStart pre i = false)
    (hpregt : getC pre (pre.length - 1) = '>')
    (l r : Nat) (hl : l < pre.length) (hr : r ≤ pre.length) :
    DetermineToken (pre ++ (cmtOf b ++ post)) l r = DetermineToken (pre ++ post) l r := by
  have hag := agree_le pre b post hpost
  have h := DT_congr (pre ++ (cmtOf b ++ post)) (pre ++ post) l r 0
    (by rw [Nat.add_zero]; exact hag l (by omega))
    (by rw [Nat.add_zero]; exact hag (l + 1) (by omega))
    (by rw [Nat.add_zero, cmtStart_append_false pre _ hprecmt hpregt l hl,
          cmtStart_append_false pre _ hprecmt hpregt l hl])
    (by rw [Nat.add_zero, Nat.add_zero, Nat.add_zero,
          findFrom_congr _ _ _ l r (fun i hi1 hi2 => hag i (by omega))])
    (fun _ hfr => by
      rw [Nat.add_zero]
      exact hag _ (by have := findFrom_le (pre ++ post) (fun c => c = '>') l r; omega))
  rw [Nat.add_zero, Nat.add_zero] at h
  exact h

/-- `DetermineToken` on a token at or above the junction, shifted by the
comment length. -/
theorem DT_shift (pre b post : List Char) (l r : Nat) (hl : pre.length ≤ l) :
    DetermineToken (pre ++ (cmtOf b ++ post)) (l + (cmtOf b).length)
      (r + (cmtOf b).length) = DetermineToken (pre ++ post) l r := by
  apply DT_congr
  · exact getC_shift pre (cmtOf b) post l hl
  · rw [show l + (cmtOf b).length + 1 = (l + 1) + (cmtOf b).length from by omega]
    exact getC_shift pre (cmtOf b) post (l + 1) (by omega)
  · exact cmtStart_shift pre b post l hl
  · exact findFrom_shift pre (cmtOf b) post _ l r hl
  · intro hlt hfr
    have hgl : l < findFrom (pre ++ post) (fun c => c = '>') l r := by
      rcases findFrom_cases (pre ++ post) (fun c => c = '>') l r with h | h
      · omega
      · rcases Nat.lt_or_ge l (findFrom (pre ++ post) (fun c => c = '>') l r) with h2 | h2
        · exact h2
        · exfalso
          have hle : findFrom (pre ++ post) (fun c => c = '>') l r = l := by omega
          rw [hle, hlt] at h
          simp at h
    rw [show findFrom (pre ++ post) (fun c => c = '>') l r + (cmtOf b).length - 1 =
          (findFrom (pre ++ post) (fun c => c = '>') l r - 1) + (cmtOf b).length
        from by omega]
    exact getC_shift pre (cmtOf b) post _ (by omega)

/-- The comment token at the junction is classified COMMENT. -/
theorem DT_cmt (pre b post : List Char) (r : Nat) :
    DetermineToken (pre ++ (cmtOf b ++ post)) pre.length r = tokCOMMENT := by
  unfold DetermineToken
  rw [if_pos (getC_at_junction pre b post),
      if_neg (show ¬getC (pre ++ (cmtOf b ++ post)) (pre.length + 1) = '/' from by
        rw [getC_at_cmt pre b post 1 (by rw [cmtOf_length]; omega),
            show getC (cmtOf b) 1 = '!' from rfl]
        decide),
      if_pos (cmtStart_at_junction pre b post)]

/-- A token whose first position is not a comment start is never classified
COMMENT. -/
theorem DT_ne_comment (s : List Char) (l r : Nat)
    (h : IsCommentStart s l = false) : DetermineToken s l r ≠ tokCOMMENT := by
  unfold DetermineToken
  by_cases hlt : getC s l = '<'
  · rw [if_pos hlt]
    by_cases hsl : getC s (l + 1) = '/'
    · rw [if_pos hsl]; decide
    · rw [if_neg hsl, if_neg (by simp [h])]
      dsimp only
      by_cases hg : findFrom s (fun c => c = '>') l r = r
      · rw [if_pos hg]; decide
      · rw [if_neg hg]
        by_cases hslash : getC s (findFrom s (fun c => c = '>') l r - 1) = '/'
        · rw [if_pos hslash]; decide
        · rw [if_neg hslash]; decide
  · rw [if_neg hlt]; decide
/-- A `findFrom` over an empty range returns the upper bound. -/
theorem findFrom_empty (s : List Char) (p : Char → Bool) (a c : Nat) (h : c ≤ a) :
    findFrom s p a c = c := by
  unfold findFrom
  rw [Nat.sub_eq_zero_of_le h]
  rfl

/-- A `slice` over an empty range is empty. -/
theorem slice_empty (s : List Char) (a c : Nat) (h : c ≤ a) : slice s a c = [] := by
  unfold slice
  rw [Nat.sub_eq_zero_of_le h]
  rfl

/-- Slices lying inside `pre` agree on the two buffers. -/
theorem slice_pre (pre b post : List Char) (l r : Nat) (hr : r ≤ pre.length) :
    slice (pre ++ (cmtOf b ++ post)) l r = slice (pre ++ post) l r := by
  rw [slice_append_of_le pre _ l r hr, slice_append_of_le pre post l r hr]

/-- `ExtractName` agrees on the two buffers for a token inside `pre`. -/
theorem EN_pre_eq (pre b post : List Char) (hpost : getC post 0 = '<')
    (l r : Nat) (hr : r ≤ pre.length) :
    ExtractName (pre ++ (cmtOf b ++ post)) l r = ExtractName (pre ++ post) l r := by
  unfold ExtractName
  have hag := agree_le pre b post hpost
  rw [findFrom_congr _ _ _ (l + 1) r (fun i _ h2 => hag i (by omega))]
  exact slice_pre pre b post (l + 1) _
    (le_trans (findFrom_le (pre ++ post) _ (l + 1) r) hr)

/-- `ExtractName` for a shifted token at or above the junction. -/
theorem EN_shift (pre b post : List Char) (l r : Nat) (hl : pre.length ≤ l) :
    ExtractName (pre ++ (cmtOf b ++ post)) (l + (cmtOf b).length) (r + (cmtOf b).length) =
      ExtractName (pre ++ post) l r := by
  unfold ExtractName
  rw [show l + (cmtOf b).length + 1 = (l + 1) + (cmtOf b).length from by omega,
      findFrom_shift pre (cmtOf b) post _ (l + 1) r (by omega),
      slice_shift pre (cmtOf b) post (l + 1) _ (by omega)]

/-- The attribute loop agrees on the two buffers when the scan range lies
inside `pre`. -/
theorem eaLoop_pre (pre b post : List Char) (hpost : getC post 0 = '<') (e : Nat)
    (he : e ≤ pre.length) :
    ∀ fuel p attrs, eaLoop (pre ++ (cmtOf b ++ post)) e fuel p attrs =
      eaLoop (pre ++ post) e fuel p attrs := by
  intro fuel
  induction fuel with
  | zero => intro p attrs; rfl
  | succ fuel ih =>
      intro p attrs
      rw [eaLoop_succ, eaLoop_succ]
      by_cases hpe : p < e
      · rw [if_pos hpe, if_pos hpe]
        dsimp only
        have hag := agree_le pre b post hpost
        rw [findFrom_congr (pre ++ (cmtOf b ++ post)) (pre ++ post)
            (fun c => IsAlpha c) p e (fun i _ h2 => hag i (by omega))]
        by_cases hkb : findFrom (pre ++ post) (fun c => IsAlpha c) p e = e
        · rw [if_pos hkb, if_pos hkb]
        · rw [if_neg hkb, if_neg hkb]
          set kb := findFrom (pre ++ post) (fun c => IsAlpha c) p e with hkbd
          rw [findFrom_congr (pre ++ (cmtOf b ++ post)) (pre ++ post)
              (fun c => c = '=') kb e (fun i _ h2 => hag i (by omega))]
          set ke := findFrom (pre ++ post) (fun c => c = '=') kb e with hked
          by_cases hkee : ke = e
          · rw [hkee]
            rw [findFrom_empty (pre ++ (cmtOf b ++ post)) _ (e + 2) e (by omega),
                findFrom_empty (pre ++ post) _ (e + 2) e (by omega),
                slice_empty (pre ++ (cmtOf b ++ post)) (e + 2) e (by omega),
                slice_empty (pre ++ post) (e + 2) e (by omega),
                slice_pre pre b post kb e he]
            exact ih e _
          · have hkelt : ke < e := by
              have := findFrom_le (pre ++ post) (fun c => c = '=') kb e
              omega
            rw [show ke + 2 - 1 = ke + 1 from by omega, hag (ke + 1) (by omega)]
            rw [findFrom_congr (pre ++ (cmtOf b ++ post)) (pre ++ post)
                (fun c => c = getC (pre ++ post) (ke + 1)) (ke + 2) e
                (fun i _ h2 => hag i (by omega))]
            rw [slice_pre pre b post kb ke (by omega),
                slice_pre pre b post (ke + 2) _
                  (le_trans (findFrom_le (pre ++ post) _ (ke + 2) e) (by omega))]
            exact ih _ _
      · rw [if_neg hpe, if_neg hpe]

/-- The attribute loop only depends on the fuel through the bound
`pend - pbegin`. -/
theorem eaLoop_fuel (s : List Char) (e : Nat) :
    ∀ f g p attrs, e - p ≤ f → e - p ≤ g →
      eaLoop s e f p attrs = eaLoop s e g p attrs := by
  intro f
  induction f with
  | zero =>
      intro g p attrs h1 h2
      have hpe : ¬p < e := by omega
      cases g with
      | zero => rfl
      | succ g => rw [eaLoop_succ, if_neg hpe]; rfl
  | succ f ih =>
      intro g p attrs h1 h2
      cases g with
      | zero =>
          have hpe : ¬p < e := by omega
          rw [eaLoop_succ, if_neg hpe]
          rfl
      | succ g =>
          rw [eaLoop_succ, eaLoop_succ]
          by_cases hpe : p < e
          · rw [if_pos hpe, if_pos hpe]
            dsimp only
            by_cases hkb : findFrom s (fun c => IsAlpha c) p e = e
            · rw [if_pos hkb, if_pos hkb]
            · rw [if_neg hkb, if_neg hkb]
              set kb := findFrom s (fun c => IsAlpha c) p e with hkbd
              set ke := findFrom s (fun c => c = '=') kb e with hked
              set ve := findFrom s (fun c => c = getC s (ke + 2 - 1)) (ke + 2) e
                with hved
              have hkbge : p ≤ kb := by
                rcases findFrom_cases s (fun c => IsAlpha c) p e with h | h
                · rw [hkbd]; omega
                · rw [hkbd]; exact h.1
              have hkege : kb ≤ ke ∨ ke = e := by
                rcases findFrom_cases s (fun c => c = '=') kb e with h | h
                · exact Or.inr h
                · exact Or.inl h.1
              have hvege : ke + 2 ≤ ve ∨ ve = e := by
                rcases findFrom_cases s (fun c => c = getC s (ke + 2 - 1)) (ke + 2) e
                    with h | h
                · exact Or.inr h
                · exact Or.inl h.1
              have hveb : p + 1 ≤ ve ∨ ve = e := by
                rcases hvege with h | h
                · left
                  rcases hkege with h2 | h2
                  · omega
                  · omega
                · exact Or.inr h
              have hb1 : e - ve ≤ f := by
                rcases hveb with h | h
                · omega
                · omega
              have hb2 : e - ve ≤ g := by
                rcases hveb with h | h
                · omega
                · omega
              exact ih g ve _ hb1 hb2
          · rw [if_neg hpe, if_neg hpe]

/-- The attribute loop above the junction, shifted by the comment length. -/
theorem eaLoop_shift (pre b post : List Char) (e : Nat) (hple : pre.length ≤ e) :
    ∀ fuel p attrs, pre.length ≤ p →
      eaLoop (pre ++ (cmtOf b ++ post)) (e + (cmtOf b).length) fuel
          (p + (cmtOf b).length) attrs =
        eaLoop (pre ++ post) e fuel p attrs := by
  intro fuel
  induction fuel with
  | zero => intro p attrs _; rfl
  | succ fuel ih =>
      intro p attrs hp
      rw [eaLoop_succ, eaLoop_succ]
      by_cases hpe : p < e
      · rw [if_pos (show p + (cmtOf b).length < e + (cmtOf b).length from by omega),
            if_pos hpe]
        dsimp only
        rw [findFrom_shift pre (cmtOf b) post _ p e hp]
        by_cases hkb : findFrom (pre ++ post) (fun c => IsAlpha c) p e = e
        · rw [if_pos (by omega), if_pos hkb]
        · rw [if_neg (show ¬(findFrom (pre ++ post) (fun c => IsAlpha c) p e +
                (cmtOf b).length = e + (cmtOf b).length) from by omega),
              if_neg hkb]
          have hkbge : p ≤ findFrom (pre ++ post) (fun c => IsAlpha c) p e := by
            rcases findFrom_cases (pre ++ post) (fun c => IsAlpha c) p e with h | h
            · omega
            · exact h.1
          set kb := findFrom (pre ++ post) (fun c => IsAlpha c) p e with hkbd
          rw [findFrom_shift pre (cmtOf b) post _ kb e (by omega)]
          set ke := findFrom (pre ++ post) (fun c => c = '=') kb e with hked
          have hkege : kb ≤ ke ∨ ke = e := by
            rcases findFrom_cases (pre ++ post) (fun c => c = '=') kb e with h | h
            · exact Or.inr h
            · exact Or.inl h.1
          have hkep : pre.length ≤ ke + 1 := by
            rcases hkege with h | h
            · omega
            · omega
          rw [show ke + (cmtOf b).length + 2 - 1 = (ke + 1) + (cmtOf b).length
                from by omega,
              getC_shift pre (cmtOf b) post (ke + 1) (by omega),
              show ke + 2 - 1 = ke + 1 from by omega,
              show ke + (cmtOf b).length + 2 = (ke + 2) + (cmtOf b).length
                from by omega,
              findFrom_shift pre (cmtOf b) post _ (ke + 2) e (by omega)]
          set ve := findFrom (pre ++ post) (fun c => c = getC (pre ++ post) (ke + 1))
            (ke + 2) e with hved
          have hvege : pre.length ≤ ve := by
            rcases findFrom_cases (pre ++ post)
                (fun c => c = getC (pre ++ post) (ke + 1)) (ke + 2) e with h | h
            · omega
            · have := h.1
              omega
          rw [slice_shift pre (cmtOf b) post kb ke (by omega),
              slice_shift pre (cmtOf b) post (ke + 2) ve (by omega)]
          exact ih ve _ hvege
      · rw [if_neg (show ¬(p + (cmtOf b).length < e + (cmtOf b).length) from by omega),
            if_neg hpe]

/-- `ExtractAttributes` agrees on the two buffers for a token inside `pre`. -/
theorem EA_pre_eq (pre b post : List Char) (hpost : getC post 0 = '<')
    (l r : Nat) (hr : r ≤ pre.length) :
    ExtractAttributes (pre ++ (cmtOf b ++ post)) l r =
      ExtractAttributes (pre ++ post) l r := by
  unfold ExtractAttributes
  dsimp only
  have hag := agree_le pre b post hpost
  rw [findFrom_congr (pre ++ (cmtOf b ++ post)) (pre ++ post)
      (fun c => c = '>' || IsSpace c) l r (fun i _ h2 => hag i (by omega))]
  exact eaLoop_pre pre b post hpost r hr r _ []

/-- `ExtractAttributes` for a shifted token at or above the junction. -/
theorem EA_shift (pre b post : List Char) (l r : Nat) (hl : pre.length ≤ l)
    (hr : pre.length ≤ r) :
    ExtractAttributes (pre ++ (cmtOf b ++ post)) (l + (cmtOf b).length)
        (r + (cmtOf b).length) =
      ExtractAttributes (pre ++ post) l r := by
  unfold ExtractAttributes
  dsimp only
  rw [findFrom_shift pre (cmtOf b) post _ l r hl]
  have hst : pre.length ≤ findFrom (pre ++ post) (fun c => c = '>' || IsSpace c) l r := by
    rcases findFrom_cases (pre ++ post) (fun c => c = '>' || IsSpace c) l r with h | h
    · omega
    · have := h.1
      omega
  rw [eaLoop_shift pre b post r hr (r + (cmtOf b).length)
      (findFrom (pre ++ post) (fun c => c = '>' || IsSpace c) l r) [] hst]
  exact eaLoop_fuel (pre ++ post) r (r + (cmtOf b).length) r
    (findFrom (pre ++ post) (fun c => c = '>' || IsSpace c) l r) []
    (by omega) (by omega)
/-! ## Tokenizer decomposition over the junction -/

theorem tokenizeAux_shift (k : Nat) :
    ∀ (ys : List Char) (prev : Char) (i : Nat),
      tokenizeAux prev ys (i + k) = (tokenizeAux prev ys i).map (· + k) := by
  intro ys
  induction ys with
  | nil => intro prev i; rfl
  | cons c cs ih =>
      intro prev i
      rw [tokenizeAux_cons, tokenizeAux_cons]
      have harith : i + k + 1 = (i + 1) + k := by omega
      by_cases hc : c = '<'
      · rw [if_pos hc, if_pos hc, List.map_cons, harith, ih c (i + 1)]
      · rw [if_neg hc, if_neg hc]
        by_cases hp : prev = '>'
        · rw [if_pos hp, if_pos hp, List.map_cons, harith, ih c (i + 1)]
        · rw [if_neg hp, if_neg hp, harith, ih c (i + 1)]

theorem tokenizeAux_bounds :
    ∀ (ys : List Char) (prev : Char) (i j : Nat),
      j ∈ tokenizeAux prev ys i → i ≤ j ∧ j < i + ys.length := by
  intro ys
  induction ys with
  | nil => intro prev i j hj; cases hj
  | cons c cs ih =>
      intro prev i j hj
      rw [tokenizeAux_cons] at hj
      have hstep : j ∈ tokenizeAux c cs (i + 1) → i ≤ j ∧ j < i + (c :: cs).length := by
        intro h
        have := ih c (i + 1) j h
        rw [List.length_cons]
        omega
      by_cases hc : c = '<'
      · rw [if_pos hc] at hj
        rcases List.mem_cons.mp hj with h | h
        · subst h
          rw [List.length_cons]
          omega
        · exact hstep h
      · rw [if_neg hc] at hj
        by_cases hp : prev = '>'
        · rw [if_pos hp] at hj
          rcases List.mem_cons.mp hj with h | h
          · subst h
            rw [List.length_cons]
            omega
          · exact hstep h
        · rw [if_neg hp] at hj
          exact hstep hj

theorem getLastD_mem_nat (l : List Nat) (d : Nat) (h : l ≠ []) : l.getLastD d ∈ l := by
  induction l generalizing d with
  | nil => exact absurd rfl h
  | cons c cs ih =>
      rw [List.getLastD_cons]
      cases cs with
      | nil => exact List.mem_cons_self _ _
      | cons e es => exact List.mem_cons_of_mem c (ih c (by simp))

/-- `Tokenize` on a non-empty buffer without embedded NUL appends the
length sentinel. -/
theorem Tokenize_cons_sentinel (c : Char) (cs : List Char) (T : List Nat)
    (hT : tokenizeAux c cs 1 = T)
    (hbound : ∀ x ∈ 0 :: T, x < (c :: cs).length)
    (hnul : nulChar ∉ (c :: cs)) :
    Tokenize (c :: cs) = (0 :: T) ++ [(c :: cs).length] := by
  unfold Tokenize
  dsimp only
  rw [hT]
  rw [if_pos]
  intro he
  have hmem : (0 :: T).getLastD 0 ∈ 0 :: T := getLastD_mem_nat _ _ (by simp)
  have hlt : (0 :: T).getLastD 0 < (c :: cs).length := hbound _ hmem
  exact hnul (he ▸ getC_mem (c :: cs) _ hlt)

/-- The tail of a comment contributes no boundary marks. -/
theorem cmt_tail_no_marks (b : List Char) (hb : ∀ c ∈ b, ¬c = '<' ∧ ¬c = '>')
    (i : Nat) :
    tokenizeAux '<' ('!' :: '-' :: '-' :: (b ++ ['-', '-', '>'])) i = [] := by
  apply tokenizeAux_no_marks
  · intro c hc
    rcases List.mem_cons.mp hc with h | hc
    · rw [h]; decide
    rcases List.mem_cons.mp hc with h | hc
    · rw [h]; decide
    rcases List.mem_cons.mp hc with h | hc
    · rw [h]; decide
    rcases List.mem_append.mp hc with h | h
    · exact (hb c h).1
    · rcases List.mem_cons.mp h with h2 | h2
      · rw [h2]; decide
      rcases List.mem_cons.mp h2 with h3 | h3
      · rw [h3]; decide
      rcases List.mem_cons.mp h3 with h4 | h4
      · rw [h4]; decide
      · cases h4
  · intro c hc
    have hsplit : ('<' :: '!' :: '-' :: '-' :: (b ++ ['-', '-', '>'])) =
        ('<' :: '!' :: '-' :: '-' :: (b ++ ['-', '-'])) ++ ['>'] := by
      simp
    rw [hsplit, List.dropLast_concat] at hc
    rcases List.mem_cons.mp hc with h | hc
    · rw [h]; decide
    rcases List.mem_cons.mp hc with h | hc
    · rw [h]; decide
    rcases List.mem_cons.mp hc with h | hc
    · rw [h]; decide
    rcases List.mem_cons.mp hc with h | hc
    · rw [h]; decide
    rcases List.mem_append.mp hc with h | h
    · exact (hb c h).2
    · rcases List.mem_cons.mp h with h2 | h2
      · rw [h2]; decide
      rcases List.mem_cons.mp h2 with h3 | h3
      · rw [h3]; decide
      · cases h3

/-- Scanning a comment emits exactly one mark, at its opening `<`. -/
theorem tok_cmt (b : List Char) (hb : ∀ c ∈ b, ¬c = '<' ∧ ¬c = '>')
    (prev : Char) (i : Nat) :
    tokenizeAux prev (cmtOf b) i = [i] := by
  show tokenizeAux prev ('<' :: ('!' :: '-' :: '-' :: (b ++ ['-', '-', '>']))) i = [i]
  rw [tokenizeAux_cons, if_pos rfl, cmt_tail_no_marks b hb]

/-- The last character of a comment is `>`. -/
theorem cmt_getLastD (b : List Char) (d : Char) : (cmtOf b).getLastD d = '>' := by
  have hsplit : cmtOf b = ('<' :: '!' :: '-' :: '-' :: (b ++ ['-', '-'])) ++ ['>'] := by
    show '<' :: '!' :: '-' :: '-' :: (b ++ ['-', '-', '>']) = _
    simp
  rw [hsplit, List.getLastD_concat]

/-- Scanning a comment followed by more text: the mark at the comment
opening, then the rest scanned with previous character `>`. -/
theorem tok_cmt_append (b post : List Char) (hb : ∀ c ∈ b, ¬c = '<' ∧ ¬c = '>')
    (prev : Char) (i : Nat) :
    tokenizeAux prev (cmtOf b ++ post) i =
      i :: tokenizeAux '>' post (i + (cmtOf b).length) := by
  rw [tokenizeAux_append, tok_cmt b hb, cmt_getLastD]
  rfl

/-- `IsCommentStart` in the `post` region of the comment-free buffer. -/
theorem cmtStart_post (pre post : List Char) (i : Nat) (hi : pre.length ≤ i) :
    IsCommentStart (pre ++ post) i = IsCommentStart post (i - pre.length) := by
  unfold IsCommentStart
  rw [getC_append_right pre post i hi,
      getC_append_right pre post (i + 1) (by omega),
      getC_append_right pre post (i + 2) (by omega),
      getC_append_right pre post (i + 3) (by omega),
      show i + 1 - pre.length = (i - pre.length) + 1 from by omega,
      show i + 2 - pre.length = (i - pre.length) + 2 from by omega,
      show i + 3 - pre.length = (i - pre.length) + 3 from by omega]
/-! ## `RemoveGaps` over the junction -/

theorem allSpace_pre (pre b post : List Char) (hpost : getC post 0 = '<')
    (a c : Nat) (hc : c ≤ pre.length) :
    allSpace (pre ++ (cmtOf b ++ post)) a c = allSpace (pre ++ post) a c := by
  unfold allSpace
  apply all_congr
  intro i hi
  rw [List.mem_range'_1] at hi
  rw [agree_le pre b post hpost i (by omega)]

theorem RemoveGaps_subset (s : List Char) :
    ∀ ts : List Nat, ∀ x ∈ RemoveGaps s ts, x ∈ ts := by
  intro ts
  induction ts with
  | nil => intro x hx; cases hx
  | cons p rest ih =>
      cases rest with
      | nil => intro x hx; exact hx
      | cons q r =>
          intro x hx
          rw [RemoveGaps_cons₂] at hx
          by_cases ha : allSpace s p q
          · rw [if_pos ha] at hx
            exact List.mem_cons_of_mem p (ih x hx)
          · rw [if_neg ha] at hx
            rcases List.mem_cons.mp hx with h | h
            · exact h ▸ List.mem_cons_self _ _
            · exact List.mem_cons_of_mem p (ih x h)

theorem RemoveGaps_ne_nil (s : List Char) :
    ∀ (rest : List Nat) (p : Nat), RemoveGaps s (p :: rest) ≠ [] := by
  intro rest
  induction rest with
  | nil => intro p h; cases h
  | cons q r ih =>
      intro p h
      rw [RemoveGaps_cons₂] at h
      by_cases ha : allSpace s p q
      · rw [if_pos ha] at h
        exact ih q h
      · rw [if_neg ha] at h
        cases h

/-- `RemoveGaps` commutes with the position shift above the junction. -/
theorem RG_shift (pre b post : List Char) :
    ∀ U : List Nat, (∀ x ∈ U, pre.length ≤ x) →
      RemoveGaps (pre ++ (cmtOf b ++ post)) (U.map (· + (cmtOf b).length)) =
        (RemoveGaps (pre ++ post) U).map (· + (cmtOf b).length) := by
  intro U
  induction U with
  | nil => intro _; rfl
  | cons u U ih =>
      cases U with
      | nil => intro _; rfl
      | cons v W =>
          intro hU
          rw [List.map_cons, List.map_cons, RemoveGaps_cons₂, RemoveGaps_cons₂,
              allSpace_shift pre (cmtOf b) post u v (hU u (List.mem_cons_self _ _))]
          have htail := ih (fun x hx => hU x (List.mem_cons_of_mem u hx))
          rw [List.map_cons] at htail
          by_cases ha : allSpace (pre ++ post) u v
          · rw [if_pos ha, if_pos ha, htail]
          · rw [if_neg ha, if_neg ha, htail, List.map_cons]

/-- Splitting `RemoveGaps` at the junction: the prefix part filters the
same way in both buffers, the junction boundaries survive, and the tails
are processed independently. -/
theorem RG_decomp (s₁ s₂ : List Char) (m j : Nat) (t₁ t₂ : Nat)
    (T₁ T₂ : List Nat)
    (hsp : ∀ a c, c ≤ m → allSpace s₁ a c = allSpace s₂ a c)
    (h1 : allSpace s₁ m j = false)
    (h2 : allSpace s₁ j t₁ = false)
    (h3 : allSpace s₂ m t₂ = false) :
    ∀ Q, (∀ x ∈ Q, x < m) → ∃ C, (∀ x ∈ C, x < m) ∧
      RemoveGaps s₁ (Q ++ m :: j :: t₁ :: T₁) =
        C ++ m :: j :: RemoveGaps s₁ (t₁ :: T₁) ∧
      RemoveGaps s₂ (Q ++ m :: t₂ :: T₂) =
        C ++ m :: RemoveGaps s₂ (t₂ :: T₂) := by
  intro Q
  induction Q with
  | nil =>
      intro _
      refine ⟨[], ?_, ?_, ?_⟩
      · intro x hx
        cases hx
      · rw [List.nil_append, RemoveGaps_cons₂, if_neg (by rw [h1]; exact Bool.false_ne_true),
            RemoveGaps_cons₂, if_neg (by rw [h2]; exact Bool.false_ne_true)]
        rfl
      · rw [List.nil_append, RemoveGaps_cons₂, if_neg (by rw [h3]; exact Bool.false_ne_true)]
        rfl
  | cons q Q ih =>
      intro hQ
      have hq : q < m := hQ q (List.mem_cons_self _ _)
      obtain ⟨C, hC, e1, e2⟩ := ih (fun x hx => hQ x (List.mem_cons_of_mem q hx))
      cases Q with
      | nil =>
          by_cases ha : allSpace s₂ q m
          · refine ⟨C, hC, ?_, ?_⟩
            · rw [List.cons_append, List.nil_append, RemoveGaps_cons₂,
                  if_pos (by rw [hsp q m le_rfl]; exact ha)]
              rw [List.nil_append] at e1
              exact e1
            · rw [List.cons_append, List.nil_append, RemoveGaps_cons₂, if_pos ha]
              rw [List.nil_append] at e2
              exact e2
          · refine ⟨q :: C, ?_, ?_, ?_⟩
            · intro x hx
              rcases List.mem_cons.mp hx with h | h
              · exact h ▸ hq
              · exact hC x h
            · rw [List.cons_append, List.nil_append, RemoveGaps_cons₂,
                  if_neg (by rw [hsp q m le_rfl]; exact ha)]
              rw [List.nil_append] at e1
              rw [e1, List.cons_append]
            · rw [List.cons_append, List.nil_append, RemoveGaps_cons₂, if_neg ha]
              rw [List.nil_append] at e2
              rw [e2, List.cons_append]
      | cons q2 Q2 =>
          have hq2 : q2 < m := hQ q2 (List.mem_cons_of_mem q (List.mem_cons_self _ _))
          by_cases ha : allSpace s₂ q q2
          · refine ⟨C, hC, ?_, ?_⟩
            · rw [List.cons_append, List.cons_append, RemoveGaps_cons₂,
                  if_pos (by rw [hsp q q2 (by omega)]; exact ha)]
              rw [List.cons_append] at e1
              exact e1
            · rw [List.cons_append, List.cons_append, RemoveGaps_cons₂, if_pos ha]
              rw [List.cons_append] at e2
              exact e2
          · refine ⟨q :: C, ?_, ?_, ?_⟩
            · intro x hx
              rcases List.mem_cons.mp hx with h | h
              · exact h ▸ hq
              · exact hC x h
            · rw [List.cons_append, List.cons_append, RemoveGaps_cons₂,
                  if_neg (by rw [hsp q q2 (by omega)]; exact ha)]
              rw [List.cons_append] at e1
              rw [e1, List.cons_append]
            · rw [List.cons_append, List.cons_append, RemoveGaps_cons₂, if_neg ha]
              rw [List.cons_append] at e2
              rw [e2, List.cons_append]
/-! ## `RemoveInsideComments` over the junction -/

/-- Below the junction no comment start is in range, so the scan copies
the boundaries. -/
theorem ric_below (s : List Char) (m : Nat)
    (hno : ∀ i, i < m → IsCommentStart s i = false) :
    ∀ (C : List Nat) (l : Nat) (T : List Nat), (∀ x ∈ C, x < m) →
      ricAux s none l (C ++ m :: T) = (l :: C) ++ ricAux s none m T := by
  intro C
  induction C with
  | nil =>
      intro l T _
      rw [List.nil_append, ricAux_none_cons,
          if_neg (by
            rw [anyIn_eq_false s l (m - 3) _ (fun i h1 h2 => hno i (by omega))]
            exact Bool.false_ne_true)]
      rfl
  | cons c C ih =>
      intro l T hC
      have hc : c < m := hC c (List.mem_cons_self _ _)
      rw [List.cons_append, ricAux_none_cons,
          if_neg (by
            rw [anyIn_eq_false s l (c - 3) _ (fun i h1 h2 => hno i (by omega))]
            exact Bool.false_ne_true),
          ih c T (fun x hx => hC x (List.mem_cons_of_mem _ hx))]
      rfl

/-- From `lo` on there is no comment start, so the scan copies the
boundaries. -/
theorem ric_clean_from (s : List Char) (lo : Nat)
    (hno : ∀ i, lo ≤ i → IsCommentStart s i = false) :
    ∀ (T : List Nat) (l : Nat), lo ≤ l → (∀ x ∈ T, lo ≤ x) →
      ricAux s none l T = l :: T := by
  intro T
  induction T with
  | nil => intro l _ _; rfl
  | cons r T ih =>
      intro l hl hT
      rw [ricAux_none_cons,
          if_neg (by
            rw [anyIn_eq_false s l (r - 3) _ (fun i h1 h2 => hno i (by omega))]
            exact Bool.false_ne_true),
          ih r (hT r (List.mem_cons_self _ _)) (fun x hx => hT x (List.mem_cons_of_mem _ hx))]

theorem ric_full (s : List Char) (m : Nat)
    (hno : ∀ i, i < m → IsCommentStart s i = false) :
    ∀ (C T : List Nat), (∀ x ∈ C, x < m) →
      RemoveInsideComments s (C ++ m :: T) = C ++ ricAux s none m T := by
  intro C T hC
  cases C with
  | nil => rfl
  | cons c C2 =>
      show ricAux s none c (C2 ++ m :: T) = (c :: C2) ++ ricAux s none m T
      rw [ric_below s m hno C2 c T (fun x hx => hC x (List.mem_cons_of_mem _ hx))]

/-! ## `RemoveLeadingComments` helpers -/

theorem RLC_nil (s : List Char) : RemoveLeadingComments s [] = [] := rfl

theorem RLC_not_first (s : List Char) (l r : Nat) (rest : List Nat)
    (h : DetermineToken s l r ≠ tokCOMMENT) :
    RemoveLeadingComments s (l :: r :: rest) = l :: r :: rest := by
  rw [RemoveLeadingComments_cons₂, if_neg h]

theorem RLC_pop_first (s : List Char) (l r : Nat) (rest : List Nat)
    (h : DetermineToken s l r = tokCOMMENT) :
    RemoveLeadingComments s (l :: r :: rest) = RemoveLeadingComments s (r :: rest) := by
  rw [RemoveLeadingComments_cons₂, if_pos h]
/-! ## `BuildElementTree` over the junction -/

/-- The build loop on shifted tokens above the junction. -/
theorem bl_shift (s₁ s₂ : List Char) (rer : Bool) (m k : Nat)
    (hDT : ∀ l r, m ≤ l → DetermineToken s₁ (l + k) (r + k) = DetermineToken s₂ l r)
    (hEN : ∀ l r, m ≤ l → ExtractName s₁ (l + k) (r + k) = ExtractName s₂ l r)
    (hEA : ∀ l r, m ≤ l → m ≤ r →
      ExtractAttributes s₁ (l + k) (r + k) = ExtractAttributes s₂ l r)
    (hSL : ∀ l r, m ≤ l → m ≤ r → slice s₁ (l + k) (r + k) = slice s₂ l r) :
    ∀ (W : List Nat) (l : Nat) (top : ElementData) (stk : List ElementData),
      m ≤ l → (∀ x ∈ W, m ≤ x) →
      buildLoop s₁ rer top stk (l + k) (W.map (· + k)) =
        buildLoop s₂ rer top stk l W := by
  intro W
  induction W with
  | nil => intro l top stk _ _; rfl
  | cons w W ih =>
      intro l top stk hl hW
      have hw : m ≤ w := hW w (List.mem_cons_self _ _)
      have hW2 : ∀ x ∈ W, m ≤ x := fun x hx => hW x (List.mem_cons_of_mem _ hx)
      rw [List.map_cons, buildLoop_cons, buildLoop_cons]
      dsimp only
      rw [hDT l w hl, hEN l w hl, hEA l w hl hw, hSL l w hl hw]
      by_cases h1 : DetermineToken s₂ l w &&& tokOPEN ≠ 0
      · rw [if_pos h1, if_pos h1]
        by_cases h2 : DetermineToken s₂ l w &&& tokCLOSE ≠ 0
        · rw [if_pos h2, if_pos h2]
          exact ih w _ _ hw hW2
        · rw [if_neg h2, if_neg h2]
          exact ih w _ _ hw hW2
      · rw [if_neg h1, if_neg h1]
        by_cases h2 : DetermineToken s₂ l w &&& tokCLOSE ≠ 0
        · rw [if_pos h2, if_pos h2]
          cases stk with
          | nil => rfl
          | cons p ps => exact ih w _ _ hw hW2
        · rw [if_neg h2, if_neg h2]
          by_cases h3 : DetermineToken s₂ l w = tokCONTENT
          · rw [if_pos h3, if_pos h3]
            exact ih w _ _ hw hW2
          · rw [if_neg h3, if_neg h3]
            by_cases h4 : DetermineToken s₂ l w = tokERROR
            · rw [if_pos h4, if_pos h4]
            · rw [if_neg h4, if_neg h4]
              exact ih w _ _ hw hW2

/-- The build loop below the junction: pairwise agreement until the
junction, then the supplied continuation fact. -/
theorem bl_mixed (s₁ s₂ : List Char) (rer : Bool) (m : Nat) (T₁ T₂ : List Nat)
    (hDT : ∀ l r, l < m → r ≤ m → DetermineToken s₁ l r = DetermineToken s₂ l r)
    (hEN : ∀ l r, r ≤ m → ExtractName s₁ l r = ExtractName s₂ l r)
    (hEA : ∀ l r, r ≤ m → ExtractAttributes s₁ l r = ExtractAttributes s₂ l r)
    (hSL : ∀ l r, r ≤ m → slice s₁ l r = slice s₂ l r)
    (hjun : ∀ (top : ElementData) (stk : List ElementData),
      buildLoop s₁ rer top stk m T₁ = buildLoop s₂ rer top stk m T₂) :
    ∀ (C : List Nat) (l : Nat) (top : ElementData) (stk : List ElementData),
      l < m → (∀ x ∈ C, x < m) →
      buildLoop s₁ rer top stk l (C ++ m :: T₁) =
        buildLoop s₂ rer top stk l (C ++ m :: T₂) := by
  intro C
  induction C with
  | nil =>
      intro l top stk hl _
      rw [List.nil_append, List.nil_append, buildLoop_cons, buildLoop_cons]
      dsimp only
      rw [hDT l m hl le_rfl, hEN l m le_rfl, hEA l m le_rfl, hSL l m le_rfl]
      by_cases h1 : DetermineToken s₂ l m &&& tokOPEN ≠ 0
      · rw [if_pos h1, if_pos h1]
        by_cases h2 : DetermineToken s₂ l m &&& tokCLOSE ≠ 0
        · rw [if_pos h2, if_pos h2]
          exact hjun _ _
        · rw [if_neg h2, if_neg h2]
          exact hjun _ _
      · rw [if_neg h1, if_neg h1]
        by_cases h2 : DetermineToken s₂ l m &&& tokCLOSE ≠ 0
        · rw [if_pos h2, if_pos h2]
          cases stk with
          | nil => rfl
          | cons p ps => exact hjun _ _
        · rw [if_neg h2, if_neg h2]
          by_cases h3 : DetermineToken s₂ l m = tokCONTENT
          · rw [if_pos h3, if_pos h3]
            exact hjun _ _
          · rw [if_neg h3, if_neg h3]
            by_cases h4 : DetermineToken s₂ l m = tokERROR
            · rw [if_pos h4, if_pos h4]
            · rw [if_neg h4, if_neg h4]
              exact hjun _ _
  | cons c C ih =>
      intro l top stk hl hC
      have hc : c < m := hC c (List.mem_cons_self _ _)
      have hC2 : ∀ x ∈ C, x < m := fun x hx => hC x (List.mem_cons_of_mem _ hx)
      rw [List.cons_append, List.cons_append, buildLoop_cons, buildLoop_cons]
      dsimp only
      rw [hDT l c hl (by omega), hEN l c (by omega), hEA l c (by omega), hSL l c (by omega)]
      by_cases h1 : DetermineToken s₂ l c &&& tokOPEN ≠ 0
      · rw [if_pos h1, if_pos h1]
        by_cases h2 : DetermineToken s₂ l c &&& tokCLOSE ≠ 0
        · rw [if_pos h2, if_pos h2]
          exact ih c _ _ hc hC2
        · rw [if_neg h2, if_neg h2]
          exact ih c _ _ hc hC2
      · rw [if_neg h1, if_neg h1]
        by_cases h2 : DetermineToken s₂ l c &&& tokCLOSE ≠ 0
        · rw [if_pos h2, if_pos h2]
          cases stk with
          | nil => rfl
          | cons p ps => exact ih c _ _ hc hC2
        · rw [if_neg h2, if_neg h2]
          by_cases h3 : DetermineToken s₂ l c = tokCONTENT
          · rw [if_pos h3, if_pos h3]
            exact ih c _ _ hc hC2
          · rw [if_neg h3, if_neg h3]
            by_cases h4 : DetermineToken s₂ l c = tokERROR
            · rw [if_pos h4, if_pos h4]
            · rw [if_neg h4, if_neg h4]
              exact ih c _ _ hc hC2

/-- `BuildElementTree` on shifted tokens above the junction. -/
theorem BET_shift (s₁ s₂ : List Char) (rer : Bool) (m k : Nat)
    (hDT : ∀ l r, m ≤ l → DetermineToken s₁ (l + k) (r + k) = DetermineToken s₂ l r)
    (hEN : ∀ l r, m ≤ l → ExtractName s₁ (l + k) (r + k) = ExtractName s₂ l r)
    (hEA : ∀ l r, m ≤ l → m ≤ r →
      ExtractAttributes s₁ (l + k) (r + k) = ExtractAttributes s₂ l r)
    (hSL : ∀ l r, m ≤ l → m ≤ r → slice s₁ (l + k) (r + k) = slice s₂ l r) :
    ∀ W : List Nat, (∀ x ∈ W, m ≤ x) →
      BuildElementTree s₁ rer (W.map (· + k)) = BuildElementTree s₂ rer W := by
  intro W hW
  match W with
  | [] => rfl
  | [w] => rfl
  | w₁ :: w₂ :: W' =>
      have h1 : m ≤ w₁ := hW w₁ (List.mem_cons_self _ _)
      have h2 : m ≤ w₂ := hW w₂ (List.mem_cons_of_mem _ (List.mem_cons_self _ _))
      show buildLoop s₁ rer
          ⟨ExtractName s₁ (w₁ + k) (w₂ + k), [],
            ExtractAttributes s₁ (w₁ + k) (w₂ + k), []⟩ [] (w₂ + k) (W'.map (· + k)) =
        buildLoop s₂ rer
          ⟨ExtractName s₂ w₁ w₂, [], ExtractAttributes s₂ w₁ w₂, []⟩ [] w₂ W'
      rw [hEN w₁ w₂ h1, hEA w₁ w₂ h1 h2]
      exact bl_shift s₁ s₂ rer m k hDT hEN hEA hSL W' w₂ _ _ h2
        (fun x hx => hW x (List.mem_cons_of_mem _ (List.mem_cons_of_mem _ hx)))

/-- `BuildElementTree` when the first token lies below the junction. -/
theorem BET_mixed (s₁ s₂ : List Char) (rer : Bool) (m : Nat) (T₁ T₂ : List Nat)
    (hDT : ∀ l r, l < m → r ≤ m → DetermineToken s₁ l r = DetermineToken s₂ l r)
    (hEN : ∀ l r, r ≤ m → ExtractName s₁ l r = ExtractName s₂ l r)
    (hEA : ∀ l r, r ≤ m → ExtractAttributes s₁ l r = ExtractAttributes s₂ l r)
    (hSL : ∀ l r, r ≤ m → slice s₁ l r = slice s₂ l r)
    (hjun : ∀ (top : ElementData) (stk : List ElementData),
      buildLoop s₁ rer top stk m T₁ = buildLoop s₂ rer top stk m T₂) :
    ∀ (c : Nat) (C : List Nat), c < m → (∀ x ∈ C, x < m) →
      BuildElementTree s₁ rer ((c :: C) ++ m :: T₁) =
        BuildElementTree s₂ rer ((c :: C) ++ m :: T₂) := by
  intro c C hc hC
  match C with
  | [] =>
      show buildLoop s₁ rer ⟨ExtractName s₁ c m, [], ExtractAttributes s₁ c m, []⟩ []
          m T₁ =
        buildLoop s₂ rer ⟨ExtractName s₂ c m, [], ExtractAttributes s₂ c m, []⟩ [] m T₂
      rw [hEN c m le_rfl, hEA c m le_rfl]
      exact hjun _ _
  | c₂ :: C₂ =>
      have hc2 : c₂ < m := hC c₂ (List.mem_cons_self _ _)
      show buildLoop s₁ rer ⟨ExtractName s₁ c c₂, [], ExtractAttributes s₁ c c₂, []⟩ []
          c₂ (C₂ ++ m :: T₁) =
        buildLoop s₂ rer ⟨ExtractName s₂ c c₂, [], ExtractAttributes s₂ c c₂, []⟩ []
          c₂ (C₂ ++ m :: T₂)
      rw [hEN c c₂ (by omega), hEA c c₂ (by omega)]
      exact bl_mixed s₁ s₂ rer m T₁ T₂ hDT hEN hEA hSL hjun C₂ c₂ _ _ hc2
        (fun x hx => hC x (List.mem_cons_of_mem _ hx))
theorem RLC_front (s : List Char) (l : Nat) (rest : List Nat) (hne : rest ≠ [])
    (h : DetermineToken s l (rest.headD 0) ≠ tokCOMMENT) :
    RemoveLeadingComments s (l :: rest) = l :: rest := by
  cases rest with
  | nil => exact absurd rfl hne
  | cons r rest2 => exact RLC_not_first s l r rest2 h

theorem headD_append_cons (xs : List Nat) (y : Nat) (ys : List Nat) (d : Nat) :
    (xs ++ y :: ys).headD d = xs.headD y := by
  cases xs with
  | nil => rfl
  | cons a l => rfl

/-- The whole parsing pipeline ignores a comment placed at the junction:
given the decomposed boundary lists of the two buffers, the parsed
documents coincide. -/
theorem cmt_pipeline (pre b post : List Char) (rer : Bool) (Q U : List Nat)
    (hpost : getC post 0 = '<')
    (hpre : pre = [] ∨ getC pre (pre.length - 1) = '>')
    (hprecmtA : ∀ i, IsCommentStart pre i = false)
    (hwoge : ∀ i, pre.length ≤ i → IsCommentStart (pre ++ post) i = false)
    (hQ : ∀ x ∈ Q, x < pre.length)
    (hU : ∀ x ∈ U, pre.length < x)
    (hUne : U ≠ [])
    (hTokW : Tokenize (pre ++ (cmtOf b ++ post)) =
      Q ++ pre.length :: (pre.length + (cmtOf b).length) ::
        U.map (· + (cmtOf b).length))
    (hTokWo : Tokenize (pre ++ post) = Q ++ pre.length :: U) :
    parseDocument (pre ++ (cmtOf b ++ post)) rer = parseDocument (pre ++ post) rer := by
  obtain ⟨u0, U₂, rfl⟩ : ∃ u0 U₂, U = u0 :: U₂ := by
    cases U with
    | nil => exact absurd rfl hUne
    | cons a l => exact ⟨a, l, rfl⟩
  have hk : (cmtOf b).length = b.length + 7 := cmtOf_length b
  have hu0 : pre.length < u0 := hU u0 (List.mem_cons_self _ _)
  have hag : ∀ i, i ≤ pre.length →
      getC (pre ++ (cmtOf b ++ post)) i = getC (pre ++ post) i :=
    agree_le pre b post hpost
  have hjwo : getC (pre ++ post) pre.length = '<' := by
    rw [getC_append_right pre post pre.length le_rfl, Nat.sub_self]
    exact hpost
  have hjw2 : getC (pre ++ (cmtOf b ++ post)) (pre.length + (cmtOf b).length) = '<' := by
    rw [getC_shift pre (cmtOf b) post pre.length le_rfl]
    exact hjwo
  have hprej : ∀ (X : List Char) (l : Nat), l < pre.length →
      IsCommentStart (pre ++ X) l = false := by
    intro X l hl
    rcases hpre with h | h
    · rw [h] at hl
      simp at hl
    · exact cmtStart_append_false pre X hprecmtA h l hl
  have hwnolt : ∀ l, l < pre.length →
      IsCommentStart (pre ++ (cmtOf b ++ post)) l = false :=
    fun l hl => hprej (cmtOf b ++ post) l hl
  have hwonolt : ∀ l, l < pre.length → IsCommentStart (pre ++ post) l = false :=
    fun l hl => hprej post l hl
  have hwonc : ∀ i, IsCommentStart (pre ++ post) i = false := by
    intro i
    by_cases h : i < pre.length
    · exact hwonolt i h
    · exact hwoge i (by omega)
  have hwge : ∀ i, pre.length + (cmtOf b).length ≤ i →
      IsCommentStart (pre ++ (cmtOf b ++ post)) i = false := by
    intro i hi
    have h2 := cmtStart_shift pre b post (i - (cmtOf b).length) (by omega)
    rw [show i - (cmtOf b).length + (cmtOf b).length = i from by omega] at h2
    rw [h2]
    exact hwonc _
  have hDTpre : ∀ l r, l < pre.length → r ≤ pre.length →
      DetermineToken (pre ++ (cmtOf b ++ post)) l r =
        DetermineToken (pre ++ post) l r := by
    intro l r hl hr
    rcases hpre with h | h
    · rw [h] at hl
      simp at hl
    · exact DT_pre_eq pre b post hpost hprecmtA h l r hl hr
  have hDTsh : ∀ l r, pre.length ≤ l →
      DetermineToken (pre ++ (cmtOf b ++ post)) (l + (cmtOf b).length)
          (r + (cmtOf b).length) =
        DetermineToken (pre ++ post) l r :=
    fun l r hl => DT_shift pre b post l r hl
  have hENpre : ∀ l r, r ≤ pre.length →
      ExtractName (pre ++ (cmtOf b ++ post)) l r = ExtractName (pre ++ post) l r :=
    fun l r hr => EN_pre_eq pre b post hpost l r hr
  have hENsh : ∀ l r, pre.length ≤ l →
      ExtractName (pre ++ (cmtOf b ++ post)) (l + (cmtOf b).length)
          (r + (cmtOf b).length) =
        ExtractName (pre ++ post) l r :=
    fun l r hl => EN_shift pre b post l r hl
  have hEApre : ∀ l r, r ≤ pre.length →
      ExtractAttributes (pre ++ (cmtOf b ++ post)) l r =
        ExtractAttributes (pre ++ post) l r :=
    fun l r hr => EA_pre_eq pre b post hpost l r hr
  have hEAsh : ∀ l r, pre.length ≤ l → pre.length ≤ r →
      ExtractAttributes (pre ++ (cmtOf b ++ post)) (l + (cmtOf b).length)
          (r + (cmtOf b).length) =
        ExtractAttributes (pre ++ post) l r :=
    fun l r hl hr => EA_shift pre b post l r hl hr
  have hSLpre : ∀ l r, r ≤ pre.length →
      slice (pre ++ (cmtOf b ++ post)) l r = slice (pre ++ post) l r :=
    fun l r hr => slice_pre pre b post l r hr
  have hSLsh : ∀ l r, pre.length ≤ l → pre.length ≤ r →
      slice (pre ++ (cmtOf b ++ post)) (l + (cmtOf b).length) (r + (cmtOf b).length) =
        slice (pre ++ post) l r :=
    fun l r hl _ => slice_shift pre (cmtOf b) post l r hl
  have hDTwo : ∀ l r, DetermineToken (pre ++ post) l r ≠ tokCOMMENT :=
    fun l r => DT_ne_comment _ l r (hwonc l)
  have hsp : ∀ a c, c ≤ pre.length →
      allSpace (pre ++ (cmtOf b ++ post)) a c = allSpace (pre ++ post) a c :=
    fun a c hc => allSpace_pre pre b post hpost a c hc
  have h1 : allSpace (pre ++ (cmtOf b ++ post)) pre.length
      (pre.length + (cmtOf b).length) = false :=
    allSpace_eq_false _ _ _ pre.length le_rfl (by omega)
      (by rw [getC_at_junction]; decide)
  have h2 : allSpace (pre ++ (cmtOf b ++ post)) (pre.length + (cmtOf b).length)
      (u0 + (cmtOf b).length) = false :=
    allSpace_eq_false _ _ _ (pre.length + (cmtOf b).length) le_rfl (by omega)
      (by rw [hjw2]; decide)
  have h3 : allSpace (pre ++ post) pre.length u0 = false :=
    allSpace_eq_false _ _ _ pre.length le_rfl hu0 (by rw [hjwo]; decide)
  obtain ⟨C, hC, hRGw, hRGwo⟩ :=
    RG_decomp (pre ++ (cmtOf b ++ post)) (pre ++ post) pre.length
      (pre.length + (cmtOf b).length) (u0 + (cmtOf b).length) u0
      (U₂.map (· + (cmtOf b).length)) U₂ hsp h1 h2 h3 Q hQ
  set V := RemoveGaps (pre ++ post) (u0 :: U₂) with hVdef
  have hRGsh : RemoveGaps (pre ++ (cmtOf b ++ post))
      ((u0 + (cmtOf b).length) :: U₂.map (· + (cmtOf b).length)) =
      V.map (· + (cmtOf b).length) := by
    have h := RG_shift pre b post (u0 :: U₂) (fun x hx => le_of_lt (hU x hx))
    rw [List.map_cons] at h
    rw [hVdef]
    exact h
  have hVsub : ∀ x ∈ V, pre.length < x :=
    fun x hx => hU x (RemoveGaps_subset _ _ x hx)
  have hVne : V ≠ [] := RemoveGaps_ne_nil _ U₂ u0
  obtain ⟨v0, V₂, hVeq⟩ : ∃ v0 V₂, V = v0 :: V₂ := by
    cases hV : V with
    | nil => exact absurd hV hVne
    | cons a l => exact ⟨a, l, rfl⟩
  have hv0 : pre.length < v0 := hVsub v0 (by rw [hVeq]; exact List.mem_cons_self _ _)
  have hricjun : ricAux (pre ++ (cmtOf b ++ post)) none pre.length
      ((pre.length + (cmtOf b).length) :: V.map (· + (cmtOf b).length)) =
      pre.length :: (pre.length + (cmtOf b).length) ::
        V.map (· + (cmtOf b).length) := by
    rw [ricAux_none_cons,
        if_pos (anyIn_eq_true (pre ++ (cmtOf b ++ post)) pre.length
          (pre.length + (cmtOf b).length - 3) _ pre.length le_rfl (by omega)
          (cmtStart_at_junction pre b post)),
        if_pos (anyIn_eq_true (pre ++ (cmtOf b ++ post)) pre.length
          (pre.length + (cmtOf b).length - 2) _ (pre.length + (b.length + 4))
          (by omega) (by omega) (cmtEnd_before_junction_end pre b post)),
        ric_clean_from (pre ++ (cmtOf b ++ post)) (pre.length + (cmtOf b).length)
          hwge _ _ le_rfl
          (by
            intro x hx
            obtain ⟨v, hv, rfl⟩ := List.mem_map.mp hx
            have := hVsub v hv
            omega)]
  have hricw : RemoveInsideComments (pre ++ (cmtOf b ++ post))
      (C ++ pre.length :: (pre.length + (cmtOf b).length) ::
        V.map (· + (cmtOf b).length)) =
      C ++ pre.length :: (pre.length + (cmtOf b).length) ::
        V.map (· + (cmtOf b).length) := by
    rw [ric_full (pre ++ (cmtOf b ++ post)) pre.length hwnolt C _ hC, hricjun]
  have hricwo : RemoveInsideComments (pre ++ post) (C ++ pre.length :: V) =
      C ++ pre.length :: V := by
    rw [ric_full (pre ++ post) pre.length hwonolt C V hC,
        ric_clean_from (pre ++ post) 0 (fun i _ => hwonc i) V pre.length
          (Nat.zero_le _) (fun x _ => Nat.zero_le x)]
  have hfW : filteredTokens (pre ++ (cmtOf b ++ post)) =
      RemoveLeadingComments (pre ++ (cmtOf b ++ post))
        (C ++ pre.length :: (pre.length + (cmtOf b).length) ::
          V.map (· + (cmtOf b).length)) := by
    unfold filteredTokens
    rw [hTokW, List.map_cons, hRGw, hRGsh, hricw]
  have hfWo : filteredTokens (pre ++ post) =
      RemoveLeadingComments (pre ++ post) (C ++ pre.length :: V) := by
    unfold filteredTokens
    rw [hTokWo, hRGwo, hricwo]
  have hjun : ∀ (top : ElementData) (stk : List ElementData),
      buildLoop (pre ++ (cmtOf b ++ post)) rer top stk pre.length
        ((pre.length + (cmtOf b).length) :: V.map (· + (cmtOf b).length)) =
      buildLoop (pre ++ post) rer top stk pre.length V := by
    intro top stk
    rw [buildLoop_cons]
    dsimp only
    rw [DT_cmt pre b post (pre.length + (cmtOf b).length)]
    rw [if_neg (show ¬(tokCOMMENT &&& tokOPEN ≠ 0) from by decide),
        if_neg (show ¬(tokCOMMENT &&& tokCLOSE ≠ 0) from by decide),
        if_neg (show ¬(tokCOMMENT = tokCONTENT) from by decide),
        if_neg (show ¬(tokCOMMENT = tokERROR) from by decide)]
    exact bl_shift (pre ++ (cmtOf b ++ post)) (pre ++ post) rer pre.length
      (cmtOf b).length hDTsh hENsh hEAsh hSLsh V pre.length top stk le_rfl
      (fun x hx => le_of_lt (hVsub x hx))
  have hBETdrop : ∀ C₂ : List Nat, (∀ x ∈ C₂, x < pre.length) →
      BuildElementTree (pre ++ (cmtOf b ++ post)) rer
        (RemoveLeadingComments (pre ++ (cmtOf b ++ post))
          (C₂ ++ pre.length :: (pre.length + (cmtOf b).length) ::
            V.map (· + (cmtOf b).length))) =
      BuildElementTree (pre ++ post) rer
        (RemoveLeadingComments (pre ++ post) (C₂ ++ pre.length :: V)) := by
    intro C₂ hC₂
    cases C₂ with
    | nil =>
        rw [List.nil_append, List.nil_append,
            RLC_pop_first (pre ++ (cmtOf b ++ post)) pre.length
              (pre.length + (cmtOf b).length) _ (DT_cmt pre b post _),
            hVeq, List.map_cons,
            RLC_not_first (pre ++ (cmtOf b ++ post)) (pre.length + (cmtOf b).length)
              (v0 + (cmtOf b).length) _ (DT_ne_comment _ _ _ (hwge _ le_rfl)),
            RLC_not_first (pre ++ post) pre.length v0 _ (hDTwo _ _)]
        have hmap : (pre.length + (cmtOf b).length) :: (v0 + (cmtOf b).length) ::
            V₂.map (· + (cmtOf b).length) =
            (pre.length :: v0 :: V₂).map (· + (cmtOf b).length) := by
          rw [List.map_cons, List.map_cons]
        rw [hmap]
        apply BET_shift (pre ++ (cmtOf b ++ post)) (pre ++ post) rer pre.length
          (cmtOf b).length hDTsh hENsh hEAsh hSLsh
        intro x hx
        rcases List.mem_cons.mp hx with h | hx2
        · omega
        rcases List.mem_cons.mp hx2 with h | h
        · have hxv : x ∈ V := by
            rw [hVeq]
            exact h ▸ List.mem_cons_self _ _
          exact le_of_lt (hVsub x hxv)
        · have hxv : x ∈ V := by
            rw [hVeq]
            exact List.mem_cons_of_mem _ h
          exact le_of_lt (hVsub x hxv)
    | cons c₁ C₃ =>
        have hc₁ : c₁ < pre.length := hC₂ c₁ (List.mem_cons_self _ _)
        rw [List.cons_append, List.cons_append,
            RLC_front (pre ++ (cmtOf b ++ post)) c₁ _ (by simp)
              (DT_ne_comment _ _ _ (hwnolt c₁ hc₁)),
            RLC_front (pre ++ post) c₁ _ (by simp)
              (DT_ne_comment _ _ _ (hwonolt c₁ hc₁))]
        exact BET_mixed (pre ++ (cmtOf b ++ post)) (pre ++ post) rer pre.length
          ((pre.length + (cmtOf b).length) :: V.map (· + (cmtOf b).length)) V
          hDTpre hENpre hEApre hSLpre hjun c₁ C₃ hc₁
          (fun x hx => hC₂ x (List.mem_cons_of_mem _ hx))
  unfold parseDocument
  dsimp only
  rw [hfW, hfWo]
  cases C with
  | nil =>
      rw [List.nil_append, List.nil_append,
          RLC_pop_first (pre ++ (cmtOf b ++ post)) pre.length
            (pre.length + (cmtOf b).length) _ (DT_cmt pre b post _),
          hVeq, List.map_cons,
          RLC_not_first (pre ++ (cmtOf b ++ post)) (pre.length + (cmtOf b).length)
            (v0 + (cmtOf b).length) _ (DT_ne_comment _ _ _ (hwge _ le_rfl)),
          RLC_not_first (pre ++ post) pre.length v0 _ (hDTwo _ _)]
      simp only [List.headD_cons, List.drop_one, List.tail_cons]
      rw [getC_shift pre (cmtOf b) post pre.length le_rfl,
          show pre.length + (cmtOf b).length + 1 = (pre.length + 1) + (cmtOf b).length
            from by omega,
          getC_shift pre (cmtOf b) post (pre.length + 1) (by omega)]
      by_cases hlt : getC (pre ++ post) pre.length ≠ '<'
      · rw [if_pos hlt, if_pos hlt]
      · rw [if_neg hlt, if_neg hlt]
        by_cases hq : getC (pre ++ post) (pre.length + 1) = '?'
        · rw [if_pos hq, if_pos hq]
          rw [EA_shift pre b post pre.length v0 le_rfl (le_of_lt hv0)]
          have hrlcl : RemoveLeadingComments (pre ++ (cmtOf b ++ post))
              ((v0 + (cmtOf b).length) :: V₂.map (· + (cmtOf b).length)) =
              (v0 + (cmtOf b).length) :: V₂.map (· + (cmtOf b).length) := by
            cases V₂ with
            | nil => rfl
            | cons v1 V₃ =>
                rw [List.map_cons]
                exact RLC_not_first _ _ _ _ (DT_ne_comment _ _ _ (hwge _ (by omega)))
          have hrlcr : RemoveLeadingComments (pre ++ post) (v0 :: V₂) = v0 :: V₂ := by
            cases V₂ with
            | nil => rfl
            | cons v1 V₃ => exact RLC_not_first _ _ _ _ (hDTwo _ _)
          rw [hrlcl, hrlcr,
              show (v0 + (cmtOf b).length) :: V₂.map (· + (cmtOf b).length) =
                (v0 :: V₂).map (· + (cmtOf b).length) from by rw [List.map_cons],
              BET_shift (pre ++ (cmtOf b ++ post)) (pre ++ post) rer pre.length
                (cmtOf b).length hDTsh hENsh hEAsh hSLsh (v0 :: V₂)
                (by
                  intro x hx
                  have hxv : x ∈ V := by
                    rw [hVeq]
                    exact hx
                  exact le_of_lt (hVsub x hxv))]
        · rw [if_neg hq, if_neg hq,
              show (pre.length + (cmtOf b).length) :: (v0 + (cmtOf b).length) ::
                  V₂.map (· + (cmtOf b).length) =
                (pre.length :: v0 :: V₂).map (· + (cmtOf b).length) from by
                  rw [List.map_cons, List.map_cons],
              BET_shift (pre ++ (cmtOf b ++ post)) (pre ++ post) rer pre.length
                (cmtOf b).length hDTsh hENsh hEAsh hSLsh (pre.length :: v0 :: V₂)
                (by
                  intro x hx
                  rcases List.mem_cons.mp hx with h | hx2
                  · omega
                  · have hxv : x ∈ V := by
                      rw [hVeq]
                      exact hx2
                    exact le_of_lt (hVsub x hxv))]
  | cons c₀ C₂ =>
      have hc₀ : c₀ < pre.length := hC c₀ (List.mem_cons_self _ _)
      have hC₂ : ∀ x ∈ C₂, x < pre.length := fun x hx => hC x (List.mem_cons_of_mem _ hx)
      rw [List.cons_append, List.cons_append,
          RLC_front (pre ++ (cmtOf b ++ post)) c₀ _ (by simp)
            (DT_ne_comment _ _ _ (hwnolt c₀ hc₀)),
          RLC_front (pre ++ post) c₀ _ (by simp)
            (DT_ne_comment _ _ _ (hwonolt c₀ hc₀))]
      simp only [List.headD_cons, List.drop_one, List.tail_cons]
      rw [hag c₀ (by omega), hag (c₀ + 1) (by omega)]
      by_cases hlt : getC (pre ++ post) c₀ ≠ '<'
      · rw [if_pos hlt, if_pos hlt]
      · rw [if_neg hlt, if_neg hlt]
        by_cases hq : getC (pre ++ post) (c₀ + 1) = '?'
        · rw [if_pos hq, if_pos hq,
              headD_append_cons C₂ pre.length _ 0, headD_append_cons C₂ pre.length V 0]
          have hr₁ : C₂.headD pre.length ≤ pre.length := by
            cases C₂ with
            | nil => exact le_rfl
            | cons a l => exact le_of_lt (hC₂ a (List.mem_cons_self _ _))
          rw [hEApre c₀ (C₂.headD pre.length) hr₁, hBETdrop C₂ hC₂]
        · rw [if_neg hq, if_neg hq, ← List.cons_append, ← List.cons_append,
              BET_mixed (pre ++ (cmtOf b ++ post)) (pre ++ post) rer pre.length
                ((pre.length + (cmtOf b).length) :: V.map (· + (cmtOf b).length)) V
                hDTpre hENpre hEApre hSLpre hjun c₀ C₂ hc₀ hC₂]
theorem nul_not_in_cmtOf (b : List Char) (hnb : nulChar ∉ b) :
    nulChar ∉ cmtOf b := by
  intro h
  unfold cmtOf at h
  rcases List.mem_cons.mp h with h | h
  · exact absurd h (by decide)
  rcases List.mem_cons.mp h with h | h
  · exact absurd h (by decide)
  rcases List.mem_cons.mp h with h | h
  · exact absurd h (by decide)
  rcases List.mem_cons.mp h with h | h
  · exact absurd h (by decide)
  rcases List.mem_append.mp h with h | h
  · exact hnb h
  · rcases List.mem_cons.mp h with h | h
    · exact absurd h (by decide)
    rcases List.mem_cons.mp h with h | h
    · exact absurd h (by decide)
    rcases List.mem_cons.mp h with h | h
    · exact absurd h (by decide)
    · cases h

theorem cmt_tail_getLastD (b : List Char) (d : Char) :
    ('!' :: '-' :: '-' :: (b ++ ['-', '-', '>'])).getLastD d = '>' := by
  have hsplit : ('!' :: '-' :: '-' :: (b ++ ['-', '-', '>'])) =
      ('!' :: '-' :: '-' :: (b ++ ['-', '-'])) ++ ['>'] := by
    simp
  rw [hsplit, List.getLastD_concat]

theorem cmt_tail_length (b : List Char) :
    ('!' :: '-' :: '-' :: (b ++ ['-', '-', '>'])).length = b.length + 6 := by
  simp only [List.length_cons, List.length_append, List.length_nil]

/-- Tokenizing a comment followed by `<…`. -/
theorem Tok_w_nil (b pt : List Char) (hb : ∀ c ∈ b, ¬c = '<' ∧ ¬c = '>')
    (hnb : nulChar ∉ b) (hnul : nulChar ∉ ('<' :: pt)) :
    Tokenize (cmtOf b ++ ('<' :: pt)) =
      0 :: (cmtOf b).length ::
        (tokenizeAux '<' pt 1 ++ [pt.length + 1]).map (· + (cmtOf b).length) := by
  have hk : (cmtOf b).length = b.length + 7 := cmtOf_length b
  have hbody : tokenizeAux '<' (('!' :: '-' :: '-' :: (b ++ ['-', '-', '>'])) ++
      ('<' :: pt)) 1 =
      (cmtOf b).length :: (tokenizeAux '<' pt 1).map (· + (cmtOf b).length) := by
    rw [tokenizeAux_append, cmt_tail_no_marks b hb 1, List.nil_append,
        cmt_tail_getLastD b '<', cmt_tail_length b, tokenizeAux_cons, if_pos rfl,
        show (1 : Nat) + (b.length + 6) = (cmtOf b).length from by omega,
        show (cmtOf b).length + 1 = 1 + (cmtOf b).length from by omega,
        tokenizeAux_shift (cmtOf b).length pt '<' 1]
  have hbd : ∀ x ∈ 0 :: ((cmtOf b).length ::
      (tokenizeAux '<' pt 1).map (· + (cmtOf b).length)),
      x < ('<' :: (('!' :: '-' :: '-' :: (b ++ ['-', '-', '>'])) ++ ('<' :: pt))).length := by
    have hlen : ('<' :: (('!' :: '-' :: '-' :: (b ++ ['-', '-', '>'])) ++
        ('<' :: pt))).length = (cmtOf b).length + pt.length + 1 := by
      simp only [List.length_cons, List.length_append, List.length_nil, hk]
      omega
    intro x hx
    rw [hlen]
    rcases List.mem_cons.mp hx with h | hx2
    · omega
    rcases List.mem_cons.mp hx2 with h | h
    · omega
    · obtain ⟨y, hy, rfl⟩ := List.mem_map.mp h
      have := tokenizeAux_bounds pt '<' 1 y hy
      omega
  have hnulw : nulChar ∉ ('<' :: (('!' :: '-' :: '-' :: (b ++ ['-', '-', '>'])) ++
      ('<' :: pt))) := by
    show nulChar ∉ cmtOf b ++ ('<' :: pt)
    intro h
    rcases List.mem_append.mp h with h | h
    · exact nul_not_in_cmtOf b hnb h
    · exact hnul h
  have h := Tokenize_cons_sentinel '<'
    (('!' :: '-' :: '-' :: (b ++ ['-', '-', '>'])) ++ ('<' :: pt))
    ((cmtOf b).length :: (tokenizeAux '<' pt 1).map (· + (cmtOf b).length))
    hbody hbd hnulw
  rw [show ('<' :: (('!' :: '-' :: '-' :: (b ++ ['-', '-', '>'])) ++
      ('<' :: pt))).length = pt.length + 1 + (cmtOf b).length from by
        simp only [List.length_cons, List.length_append, List.length_nil, hk]
        omega] at h
  show Tokenize ('<' :: (('!' :: '-' :: '-' :: (b ++ ['-', '-', '>'])) ++ ('<' :: pt))) =
    0 :: (cmtOf b).length ::
      (tokenizeAux '<' pt 1 ++ [pt.length + 1]).map (· + (cmtOf b).length)
  simp only [List.map_append, List.map_cons, List.map_nil, List.cons_append,
    List.append_assoc] at h ⊢
  exact h

/-- Tokenizing `pre`, a comment, then `<…`. -/
theorem Tok_w_cons (p0 : Char) (pre₂ b pt : List Char)
    (hb : ∀ c ∈ b, ¬c = '<' ∧ ¬c = '>')
    (hnpre : nulChar ∉ (p0 :: pre₂)) (hnb : nulChar ∉ b)
    (hnul : nulChar ∉ ('<' :: pt)) :
    Tokenize ((p0 :: pre₂) ++ (cmtOf b ++ ('<' :: pt))) =
      (0 :: tokenizeAux p0 pre₂ 1) ++ (p0 :: pre₂).length ::
        ((p0 :: pre₂).length + (cmtOf b).length) ::
        ((tokenizeAux '<' pt ((p0 :: pre₂).length + 1) ++
          [(p0 :: pre₂).length + (pt.length + 1)]).map (· + (cmtOf b).length)) := by
  have hk : (cmtOf b).length = b.length + 7 := cmtOf_length b
  have hbody : tokenizeAux p0 (pre₂ ++ (cmtOf b ++ ('<' :: pt))) 1 =
      tokenizeAux p0 pre₂ 1 ++ ((p0 :: pre₂).length ::
        ((p0 :: pre₂).length + (cmtOf b).length) ::
        (tokenizeAux '<' pt ((p0 :: pre₂).length + 1)).map (· + (cmtOf b).length)) := by
    rw [tokenizeAux_append, tok_cmt_append b ('<' :: pt) hb, tokenizeAux_cons,
        if_pos rfl,
        show (1 : Nat) + pre₂.length = (p0 :: pre₂).length from by
          rw [List.length_cons]
          omega,
        show (p0 :: pre₂).length + (cmtOf b).length + 1 =
          ((p0 :: pre₂).length + 1) + (cmtOf b).length from by omega,
        tokenizeAux_shift (cmtOf b).length pt '<' ((p0 :: pre₂).length + 1)]
  have hbd : ∀ x ∈ 0 :: (tokenizeAux p0 pre₂ 1 ++ ((p0 :: pre₂).length ::
      ((p0 :: pre₂).length + (cmtOf b).length) ::
      (tokenizeAux '<' pt ((p0 :: pre₂).length + 1)).map (· + (cmtOf b).length))),
      x < (p0 :: (pre₂ ++ (cmtOf b ++ ('<' :: pt)))).length := by
    have hlen : (p0 :: (pre₂ ++ (cmtOf b ++ ('<' :: pt)))).length =
        pre₂.length + b.length + pt.length + 9 := by
      simp only [List.length_cons, List.length_append, List.length_nil, hk]
      omega
    intro x hx
    rw [hlen]
    rcases List.mem_cons.mp hx with h | hx2
    · omega
    rcases List.mem_append.mp hx2 with h | hx3
    · have := tokenizeAux_bounds pre₂ p0 1 x h
      omega
    rcases List.mem_cons.mp hx3 with h | hx4
    · rw [List.length_cons] at h
      omega
    rcases List.mem_cons.mp hx4 with h | h
    · rw [List.length_cons] at h
      omega
    · obtain ⟨y, hy, rfl⟩ := List.mem_map.mp h
      have := tokenizeAux_bounds pt '<' ((p0 :: pre₂).length + 1) y hy
      rw [List.length_cons] at this
      omega
  have hnulw : nulChar ∉ (p0 :: (pre₂ ++ (cmtOf b ++ ('<' :: pt)))) := by
    show nulChar ∉ (p0 :: pre₂) ++ (cmtOf b ++ ('<' :: pt))
    intro h
    rcases List.mem_append.mp h with h | h
    · exact hnpre h
    rcases List.mem_append.mp h with h | h
    · exact nul_not_in_cmtOf b hnb h
    · exact hnul h
  have h := Tokenize_cons_sentinel p0 (pre₂ ++ (cmtOf b ++ ('<' :: pt)))
    (tokenizeAux p0 pre₂ 1 ++ ((p0 :: pre₂).length ::
      ((p0 :: pre₂).length + (cmtOf b).length) ::
      (tokenizeAux '<' pt ((p0 :: pre₂).length + 1)).map (· + (cmtOf b).length)))
    hbody hbd hnulw
  rw [show (p0 :: (pre₂ ++ (cmtOf b ++ ('<' :: pt)))).length =
      (p0 :: pre₂).length + (pt.length + 1) + (cmtOf b).length from by
        simp only [List.length_cons, List.length_append, List.length_nil, hk]
        omega] at h
  simp only [List.map_append, List.map_cons, List.map_nil, List.cons_append,
    List.append_assoc] at h ⊢
  exact h
/-! ## Comment elision, general form: the comment body may contain markup -/

/-- The first character after `pre` being `<` blocks every comment-start
window that would cross out of `pre`. -/
theorem cmtStart_append_lt (pre X : List Char) (hX : getC X 0 = '<')
    (hprecmt : ∀ i, IsCommentStart pre i = false)
    (l : Nat) (hl : l < pre.length) :
    IsCommentStart (pre ++ X) l = false := by
  have hjun : getC (pre ++ X) pre.length = '<' := by
    rw [getC_append_right pre X pre.length le_rfl, Nat.sub_self]
    exact hX
  by_cases h3 : l + 3 < pre.length
  · have heq : IsCommentStart (pre ++ X) l = IsCommentStart pre l := by
      unfold IsCommentStart
      rw [getC_append_left _ _ l (by omega), getC_append_left _ _ (l + 1) (by omega),
          getC_append_left _ _ (l + 2) (by omega), getC_append_left _ _ (l + 3) (by omega)]
    rw [heq, hprecmt l]
  · by_cases h1 : l + 1 = pre.length
    · have hb : ¬getC (pre ++ X) (l + 1) = '!' := by
        rw [h1, hjun]
        decide
      simp [IsCommentStart, hb]
    · by_cases h2 : l + 2 = pre.length
      · have hb : ¬getC (pre ++ X) (l + 2) = '-' := by
          rw [h2, hjun]
          decide
        simp [IsCommentStart, hb]
      · have hb : ¬getC (pre ++ X) (l + 3) = '-' := by
          rw [show l + 3 = pre.length from by omega, hjun]
          decide
        simp [IsCommentStart, hb]

theorem getC_cmtOf_append_head (b post : List Char) : getC (cmtOf b ++ post) 0 = '<' := by
  rw [getC_append_left _ _ 0 (by rw [cmtOf_length]; omega)]
  rfl

/-- The character two before the junction end is `-`. -/
theorem getC_cmt_dash (b : List Char) : getC (cmtOf b) (b.length + 5) = '-' := by
  show getC ('<' :: '!' :: '-' :: '-' :: (b ++ ['-', '-', '>'])) (b.length + 5) = '-'
  rw [show b.length + 5 = (b.length + 4) + 1 from by omega, getC_cons_succ,
      show b.length + 4 = (b.length + 3) + 1 from by omega, getC_cons_succ,
      show b.length + 3 = (b.length + 2) + 1 from by omega, getC_cons_succ,
      show b.length + 2 = (b.length + 1) + 1 from by omega, getC_cons_succ,
      getC_append_right b _ (b.length + 1) (by omega),
      show b.length + 1 - b.length = 1 from by omega]
  rfl

/-- Transfer of `IsCommentEnd` from the combined buffer to the comment. -/
theorem cmtEnd_at_cmt (pre b post : List Char) (j : Nat)
    (hj : j + 2 < (cmtOf b).length) :
    IsCommentEnd (pre ++ (cmtOf b ++ post)) (pre.length + j) =
      IsCommentEnd (cmtOf b) j := by
  unfold IsCommentEnd
  rw [getC_at_cmt pre b post j (by omega),
      show pre.length + j + 1 = pre.length + (j + 1) from by omega,
      getC_at_cmt pre b post (j + 1) (by omega),
      show pre.length + j + 2 = pre.length + (j + 2) from by omega,
      getC_at_cmt pre b post (j + 2) (by omega)]

/-- A non-space head boundary survives `RemoveGaps`. -/
theorem RG_keep_head (s : List Char) (l r : Nat) (rest : List Nat) (hlr : l < r)
    (hlc : IsSpace (getC s l) = false) :
    RemoveGaps s (l :: r :: rest) = l :: RemoveGaps s (r :: rest) := by
  rw [RemoveGaps_cons₂,
      if_neg (by
        rw [allSpace_eq_false s l r l le_rfl hlr hlc]
        exact Bool.false_ne_true)]

theorem RG_keep_head₂ (s : List Char) (l : Nat) (rest : List Nat) (hne : rest ≠ [])
    (hlr : l < rest.headD 0) (hlc : IsSpace (getC s l) = false) :
    RemoveGaps s (l :: rest) = l :: RemoveGaps s rest := by
  cases rest with
  | nil => exact absurd rfl hne
  | cons r rest2 => exact RG_keep_head s l r rest2 hlr hlc

/-- `RemoveGaps` of a block of boundaries strictly inside the comment: some
subset survives, and the scan continues at the junction end. -/
theorem RG_mid (s : List Char) (e : Nat) (hm : IsSpace (getC s (e - 2)) = false) :
    ∀ (B T : List Nat), (∀ x ∈ B, x ≤ e - 3) → 3 ≤ e →
      ∃ I, (∀ x ∈ I, x ∈ B) ∧
        RemoveGaps s (B ++ e :: T) = I ++ RemoveGaps s (e :: T) := by
  intro B
  induction B with
  | nil =>
      intro T _ _
      refine ⟨[], ?_, ?_⟩
      · intro x hx
        cases hx
      · rfl
  | cons x B' ih =>
      intro T hB he3
      have hx3 : x ≤ e - 3 := hB x (List.mem_cons_self _ _)
      cases B' with
      | nil =>
          have ha : allSpace s x e = false :=
            allSpace_eq_false s x e (e - 2) (by omega) (by omega) hm
          refine ⟨[x], ?_, ?_⟩
          · intro y hy
            exact hy
          · rw [List.cons_append, List.nil_append, RemoveGaps_cons₂,
                if_neg (by rw [ha]; exact Bool.false_ne_true)]
            rfl
      | cons x2 B'' =>
          obtain ⟨I', hI', hEq⟩ := ih T (fun y hy => hB y (List.mem_cons_of_mem _ hy)) he3
          rw [List.cons_append] at hEq
          by_cases ha : allSpace s x x2
          · refine ⟨I', ?_, ?_⟩
            · intro y hy
              exact List.mem_cons_of_mem _ (hI' y hy)
            · rw [List.cons_append, List.cons_append, RemoveGaps_cons₂, if_pos ha]
              exact hEq
          · refine ⟨x :: I', ?_, ?_⟩
            · intro y hy
              rcases List.mem_cons.mp hy with h | h
              · exact h ▸ List.mem_cons_self _ _
              · exact List.mem_cons_of_mem _ (hI' y h)
            · rw [List.cons_append, List.cons_append, RemoveGaps_cons₂, if_neg ha,
                  hEq, List.cons_append]

/-- Splitting `RemoveGaps` before the junction: the boundaries below `m`
filter identically in the two buffers. -/
theorem RG_split (s₁ s₂ : List Char) (m : Nat) (X₁ X₂ : List Nat)
    (hsp : ∀ a c, c ≤ m → allSpace s₁ a c = allSpace s₂ a c) :
    ∀ Q, (∀ x ∈ Q, x < m) → ∃ C, (∀ x ∈ C, x < m) ∧
      RemoveGaps s₁ (Q ++ m :: X₁) = C ++ RemoveGaps s₁ (m :: X₁) ∧
      RemoveGaps s₂ (Q ++ m :: X₂) = C ++ RemoveGaps s₂ (m :: X₂) := by
  intro Q
  induction Q with
  | nil =>
      intro _
      refine ⟨[], ?_, ?_, ?_⟩
      · intro x hx
        cases hx
      · rfl
      · rfl
  | cons q Q' ih =>
      intro hQ
      have hq : q < m := hQ q (List.mem_cons_self _ _)
      cases Q' with
      | nil =>
          by_cases ha : allSpace s₂ q m
          · refine ⟨[], ?_, ?_, ?_⟩
            · intro x hx
              cases hx
            · rw [List.cons_append, List.nil_append, RemoveGaps_cons₂,
                  if_pos (by rw [hsp q m le_rfl]; exact ha)]
              rfl
            · rw [List.cons_append, List.nil_append, RemoveGaps_cons₂, if_pos ha]
              rfl
          · refine ⟨[q], ?_, ?_, ?_⟩
            · intro x hx
              rcases List.mem_cons.mp hx with h | h
              · exact h ▸ hq
              · cases h
            · rw [List.cons_append, List.nil_append, RemoveGaps_cons₂,
                  if_neg (by rw [hsp q m le_rfl]; exact ha)]
              rfl
            · rw [List.cons_append, List.nil_append, RemoveGaps_cons₂, if_neg ha]
              rfl
      | cons q2 Q'' =>
          have hq2 : q2 < m := hQ q2 (List.mem_cons_of_mem q (List.mem_cons_self _ _))
          obtain ⟨C, hC, e1, e2⟩ := ih (fun x hx => hQ x (List.mem_cons_of_mem q hx))
          rw [List.cons_append] at e1 e2
          by_cases ha : allSpace s₂ q q2
          · refine ⟨C, hC, ?_, ?_⟩
            · rw [List.cons_append, List.cons_append, RemoveGaps_cons₂,
                  if_pos (by rw [hsp q q2 (by omega)]; exact ha)]
              exact e1
            · rw [List.cons_append, List.cons_append, RemoveGaps_cons₂, if_pos ha]
              exact e2
          · refine ⟨q :: C, ?_, ?_, ?_⟩
            · intro x hx
              rcases List.mem_cons.mp hx with h | h
              · exact h ▸ hq
              · exact hC x h
            · rw [List.cons_append, List.cons_append, RemoveGaps_cons₂,
                  if_neg (by rw [hsp q q2 (by omega)]; exact ha), e1, List.cons_append]
            · rw [List.cons_append, List.cons_append, RemoveGaps_cons₂, if_neg ha,
                  e2, List.cons_append]
/-- Every boundary emitted by the comment-erasure scan comes from the
input, the current left boundary, or the pending list. -/
theorem ricAux_mem_ge (s : List Char) (m : Nat) :
    ∀ (T : List Nat) (mode : Option (List Nat)) (l : Nat), m ≤ l →
      (∀ x ∈ T, m ≤ x) →
      (∀ p, mode = some p → ∀ x ∈ p, m ≤ x) →
      ∀ x ∈ ricAux s mode l T, m ≤ x := by
  intro T
  induction T with
  | nil =>
      intro mode l hl _ hp x hx
      cases mode with
      | none =>
          rw [ricAux_none_nil] at hx
          rcases List.mem_cons.mp hx with h | h
          · omega
          · cases h
      | some pend =>
          rw [ricAux_some_nil] at hx
          rcases List.mem_append.mp hx with h | h
          · exact hp pend rfl x h
          · rcases List.mem_cons.mp h with h | h
            · omega
            · cases h
  | cons r T' ih =>
      intro mode l hl hT hp x hx
      have hr : m ≤ r := hT r (List.mem_cons_self _ _)
      have hT' : ∀ y ∈ T', m ≤ y := fun y hy => hT y (List.mem_cons_of_mem _ hy)
      cases mode with
      | none =>
          rw [ricAux_none_cons] at hx
          by_cases h1 : anyIn s l (r - 3) (fun i => IsCommentStart s i) = true
          · rw [if_pos h1] at hx
            by_cases h2 : anyIn s l (r - 2) (fun i => IsCommentEnd s i) = true
            · rw [if_pos h2] at hx
              rcases List.mem_cons.mp hx with h | h
              · omega
              · exact ih none r hr hT' (fun p hp2 => by cases hp2) x h
            · rw [if_neg h2] at hx
              rcases List.mem_cons.mp hx with h | h
              · omega
              · refine ih (some []) r hr hT' ?_ x h
                intro p hp2 y hy
                cases hp2
                cases hy
          · rw [if_neg h1] at hx
            rcases List.mem_cons.mp hx with h | h
            · omega
            · exact ih none r hr hT' (fun p hp2 => by cases hp2) x h
      | some pend =>
          rw [ricAux_some_cons] at hx
          by_cases h2 : anyIn s l (r - 2) (fun i => IsCommentEnd s i) = true
          · rw [if_pos h2] at hx
            exact ih none r hr hT' (fun p hp2 => by cases hp2) x hx
          · rw [if_neg h2] at hx
            refine ih (some (pend ++ [l])) r hr hT' ?_ x hx
            intro p hp2 y hy
            cases hp2
            rcases List.mem_append.mp hy with h | h
            · exact hp pend rfl y h
            · rcases List.mem_cons.mp h with h | h
              · omega
              · cases h

/-- The `none`-mode scan always emits its left boundary first. -/
theorem ricAux_none_head (s : List Char) (l : Nat) (T : List Nat) :
    ∃ R, ricAux s none l T = l :: R := by
  cases T with
  | nil => exact ⟨[], rfl⟩
  | cons r T' =>
      rw [ricAux_none_cons]
      by_cases h1 : anyIn s l (r - 3) (fun i => IsCommentStart s i) = true
      · rw [if_pos h1]
        by_cases h2 : anyIn s l (r - 2) (fun i => IsCommentEnd s i) = true
        · rw [if_pos h2]
          exact ⟨_, rfl⟩
        · rw [if_neg h2]
          exact ⟨_, rfl⟩
      · rw [if_neg h1]
        exact ⟨_, rfl⟩

/-- The erasure scan above the junction simulates the comment-free scan,
shifted by the comment length (in both modes). -/
theorem ric_shift (pre b post : List Char) :
    ∀ (W : List Nat) (l : Nat), pre.length ≤ l → (∀ x ∈ W, pre.length ≤ x) →
      (ricAux (pre ++ (cmtOf b ++ post)) none (l + (cmtOf b).length)
          (W.map (· + (cmtOf b).length)) =
        (ricAux (pre ++ post) none l W).map (· + (cmtOf b).length)) ∧
      ∀ pend : List Nat,
        ricAux (pre ++ (cmtOf b ++ post)) (some (pend.map (· + (cmtOf b).length)))
            (l + (cmtOf b).length) (W.map (· + (cmtOf b).length)) =
          (ricAux (pre ++ post) (some pend) l W).map (· + (cmtOf b).length) := by
  intro W
  induction W with
  | nil =>
      intro l hl _
      constructor
      · rfl
      · intro pend
        simp only [List.map_nil]
        rw [ricAux_some_nil, ricAux_some_nil, List.map_append]
        rfl
  | cons r W' ih =>
      intro l hl hW
      have hr : pre.length ≤ r := hW r (List.mem_cons_self _ _)
      have hW2 : ∀ x ∈ W', pre.length ≤ x := fun x hx => hW x (List.mem_cons_of_mem _ hx)
      have hk : (cmtOf b).length = b.length + 7 := cmtOf_length b
      have hstart : anyIn (pre ++ (cmtOf b ++ post)) (l + (cmtOf b).length)
          (r + (cmtOf b).length - 3)
          (fun i => IsCommentStart (pre ++ (cmtOf b ++ post)) i) =
          anyIn (pre ++ post) l (r - 3) (fun i => IsCommentStart (pre ++ post) i) :=
        anyIn_shift _ _ _ _ l (r - 3) (r + (cmtOf b).length - 3) (cmtOf b).length
          (by omega) (fun i h1 _ => cmtStart_shift pre b post i (by omega))
      have hend : anyIn (pre ++ (cmtOf b ++ post)) (l + (cmtOf b).length)
          (r + (cmtOf b).length - 2)
          (fun i => IsCommentEnd (pre ++ (cmtOf b ++ post)) i) =
          anyIn (pre ++ post) l (r - 2) (fun i => IsCommentEnd (pre ++ post) i) :=
        anyIn_shift _ _ _ _ l (r - 2) (r + (cmtOf b).length - 2) (cmtOf b).length
          (by omega) (fun i h1 _ => cmtEnd_shift pre b post i (by omega))
      constructor
      · rw [List.map_cons, ricAux_none_cons, ricAux_none_cons, hstart]
        by_cases h1 : anyIn (pre ++ post) l (r - 3)
            (fun i => IsCommentStart (pre ++ post) i) = true
        · rw [if_pos h1, if_pos h1, hend]
          by_cases h2 : anyIn (pre ++ post) l (r - 2)
              (fun i => IsCommentEnd (pre ++ post) i) = true
          · rw [if_pos h2, if_pos h2, List.map_cons]
            exact congrArg (List.cons _) (ih r hr hW2).1
          · rw [if_neg h2, if_neg h2, List.map_cons]
            exact congrArg (List.cons _) ((ih r hr hW2).2 [])
        · rw [if_neg h1, if_neg h1, List.map_cons]
          exact congrArg (List.cons _) (ih r hr hW2).1
      · intro pend
        rw [List.map_cons, ricAux_some_cons, ricAux_some_cons, hend]
        by_cases h2 : anyIn (pre ++ post) l (r - 2)
            (fun i => IsCommentEnd (pre ++ post) i) = true
        · rw [if_pos h2, if_pos h2]
          exact (ih r hr hW2).1
        · rw [if_neg h2, if_neg h2,
              show pend.map (· + (cmtOf b).length) ++ [l + (cmtOf b).length] =
                  (pend ++ [l]).map (· + (cmtOf b).length) from by
                rw [List.map_append]
                rfl]
          exact (ih r hr hW2).2 (pend ++ [l])

/-- Dropping leading comments commutes with the position shift above the
junction. -/
theorem RLC_shift (pre b post : List Char) :
    ∀ W : List Nat, (∀ x ∈ W, pre.length ≤ x) →
      RemoveLeadingComments (pre ++ (cmtOf b ++ post)) (W.map (· + (cmtOf b).length)) =
        (RemoveLeadingComments (pre ++ post) W).map (· + (cmtOf b).length) := by
  intro W
  induction W with
  | nil => intro _; rfl
  | cons l rest ih =>
      cases rest with
      | nil => intro _; rfl
      | cons r rest' =>
          intro hW
          rw [List.map_cons, List.map_cons, RemoveLeadingComments_cons₂,
              RemoveLeadingComments_cons₂,
              DT_shift pre b post l r (hW l (List.mem_cons_self _ _))]
          by_cases h : DetermineToken (pre ++ post) l r = tokCOMMENT
          · rw [if_pos h, if_pos h]
            have h2 := ih (fun x hx => hW x (List.mem_cons_of_mem _ hx))
            rw [List.map_cons] at h2
            exact h2
          · rw [if_neg h, if_neg h]
            rfl

theorem RLC_mem (s : List Char) :
    ∀ (ts : List Nat) (x : Nat), x ∈ RemoveLeadingComments s ts → x ∈ ts := by
  intro ts
  induction ts with
  | nil => intro x hx; exact hx
  | cons l rest ih =>
      intro x hx
      cases rest with
      | nil => exact hx
      | cons r rest' =>
          rw [RemoveLeadingComments_cons₂] at hx
          by_cases h : DetermineToken s l r = tokCOMMENT
          · rw [if_pos h] at hx
            exact List.mem_cons_of_mem _ (ih x hx)
          · rw [if_neg h] at hx
            exact hx
/-- The boundary marks inside a comment lie strictly between the opening
`<!--` and the closing `-->`. -/
theorem cmtMarks_bounds (b : List Char) :
    ∀ x ∈ tokenizeAux '<' ('!' :: '-' :: '-' :: (b ++ ['-', '-', '>'])) 1,
      4 ≤ x ∧ x ≤ b.length + 4 := by
  intro x hx
  have hstep : tokenizeAux '<' ('!' :: '-' :: '-' :: (b ++ ['-', '-', '>'])) 1 =
      tokenizeAux '-' (b ++ ['-', '-', '>']) 4 := by
    rw [tokenizeAux_cons, if_neg (by decide), if_neg (by decide),
        tokenizeAux_cons, if_neg (by decide), if_neg (by decide),
        tokenizeAux_cons, if_neg (by decide), if_neg (by decide)]
  rw [hstep, tokenizeAux_append] at hx
  rcases List.mem_append.mp hx with h | h
  · have := tokenizeAux_bounds b '-' 4 x h
    omega
  · rw [tokenizeAux_cons, if_neg (by decide)] at h
    have ht : tokenizeAux '-' ['-', '>'] (4 + b.length + 1) = [] := by
      rw [tokenizeAux_cons, if_neg (by decide), if_neg (by decide),
          tokenizeAux_cons, if_neg (by decide), if_neg (by decide), tokenizeAux_nil]
    by_cases hp : b.getLastD '-' = '>'
    · rw [if_pos hp, ht] at h
      rcases List.mem_cons.mp h with h | h
      · omega
      · cases h
    · rw [if_neg hp, ht] at h
      cases h

/-- Scanning a comment followed by more text: the mark at the comment
opening, the marks inside the comment, then the rest scanned with the
previous character `>`. -/
theorem tok_cmt_marks (b post : List Char) (prev : Char) (i : Nat) :
    tokenizeAux prev (cmtOf b ++ post) i =
      i :: ((tokenizeAux '<' ('!' :: '-' :: '-' :: (b ++ ['-', '-', '>'])) 1).map (· + i)
        ++ tokenizeAux '>' post (i + (cmtOf b).length)) := by
  have h1 : tokenizeAux prev (cmtOf b) i =
      i :: (tokenizeAux '<' ('!' :: '-' :: '-' :: (b ++ ['-', '-', '>'])) 1).map (· + i) := by
    show tokenizeAux prev ('<' :: ('!' :: '-' :: '-' :: (b ++ ['-', '-', '>']))) i = _
    rw [tokenizeAux_cons, if_pos rfl, show i + 1 = 1 + i from by omega,
        tokenizeAux_shift i ('!' :: '-' :: '-' :: (b ++ ['-', '-', '>'])) '<' 1]
  rw [tokenizeAux_append, h1, cmt_getLastD, List.cons_append]
/-- A whitespace character is none of the syntactically significant
characters. -/
theorem space_ne (c : Char) (h : IsSpace c = true) :
    c ≠ '<' ∧ c ≠ '>' ∧ c ≠ '!' ∧ c ≠ '-' ∧ c ≠ '=' ∧ c ≠ '/' ∧ c ≠ '?' ∧
      c ≠ nulChar := by
  refine ⟨?_, ?_, ?_, ?_, ?_, ?_, ?_, ?_⟩ <;>
    (intro heq; rw [heq] at h; exact absurd h (by decide))

/-- A whitespace character is not an ASCII letter. -/
theorem space_not_alpha (c : Char) (h : IsSpace c = true) : IsAlpha c = false := by
  unfold IsSpace at h
  unfold IsAlpha
  simp only [Bool.or_eq_true, Bool.and_eq_true, decide_eq_true_eq] at h
  rw [Bool.eq_false_iff]
  intro hh
  simp only [Bool.or_eq_true, Bool.and_eq_true, decide_eq_true_eq] at hh
  omega

/-- Splitting a `range'` interval at an interior point. -/
theorem range'_split (l m e : Nat) (h1 : l ≤ m) (h2 : m ≤ e) :
    List.range' l (e - l) = List.range' l (m - l) ++ List.range' m (e - m) := by
  have h := List.range'_append l (m - l) (e - m) 1
  rw [show l + 1 * (m - l) = m from by omega] at h
  rw [show e - l = e - m + (m - l) from by omega, ← h]

/-- `find?` only depends on the predicate values on the list. -/
theorem find?_congr_list {α : Type} (p q : α → Bool) :
    ∀ l : List α, (∀ a ∈ l, p a = q a) → l.find? p = l.find? q := by
  intro l
  induction l with
  | nil => intro _; rfl
  | cons a t ih =>
      intro h
      by_cases hqa : q a = true
      · rw [List.find?_cons_of_pos _ (by rw [h a (List.mem_cons_self _ _)]; exact hqa),
            List.find?_cons_of_pos _ hqa]
      · rw [List.find?_cons_of_neg _ (by rw [h a (List.mem_cons_self _ _)]; exact hqa),
            List.find?_cons_of_neg _ hqa]
        exact ih (fun x hx => h x (List.mem_cons_of_mem _ hx))

/-- `findFrom` over a range whose characters all fail the predicate. -/
theorem findFrom_all_false (s : List Char) (P : Char → Bool) (a c : Nat)
    (h : ∀ j, a ≤ j → j < c → P (getC s j) = false) : findFrom s P a c = c := by
  unfold findFrom
  cases hf : (List.range' a (c - a)).find? (fun i => P (getC s i)) with
  | none => rfl
  | some j =>
      have hm := List.mem_range'_1.mp (List.mem_of_find?_eq_some hf)
      have hp0 := List.find?_some hf
      have hp : P (getC s j) = true := hp0
      rw [h j hm.1 (by omega)] at hp
      cases hp

/-- `findFrom` when the first position already satisfies the predicate. -/
theorem findFrom_head_true (s : List Char) (P : Char → Bool) (a c : Nat)
    (ha : a < c) (h : P (getC s a) = true) : findFrom s P a c = a := by
  have hc : List.find? (fun i => P (getC s i))
      (a :: List.range' (a + 1) (c - a - 1)) = some a := by
    apply List.find?_cons_of_pos
    exact h
  unfold findFrom
  rw [show c - a = (c - a - 1) + 1 from by omega, List.range'_succ, hc]

/-- Comparing a search stopping at the junction `m` with a search running
past it: either both find the same position below `m`, or the first search
stops at `m` and the second continues from `m`. -/
theorem findFrom_ws_cases (s₁ s₂ : List Char) (P : Char → Bool) (l m e : Nat)
    (hl : l ≤ m) (hme : m ≤ e)
    (hag : ∀ j, l ≤ j → j < m → getC s₁ j = getC s₂ j) :
    (findFrom s₁ P l m < m ∧ findFrom s₂ P l e = findFrom s₁ P l m) ∨
    (findFrom s₁ P l m = m ∧ findFrom s₂ P l e = findFrom s₂ P m e) := by
  have hcong : (List.range' l (m - l)).find? (fun i => P (getC s₁ i)) =
      (List.range' l (m - l)).find? (fun i => P (getC s₂ i)) := by
    apply find?_congr_list
    intro a ha
    have hm2 := List.mem_range'_1.mp ha
    show P (getC s₁ a) = P (getC s₂ a)
    rw [hag a hm2.1 (by omega)]
  have hsplit := range'_split l m e hl hme
  cases hf : (List.range' l (m - l)).find? (fun i => P (getC s₁ i)) with
  | some j =>
      have hm2 := List.mem_range'_1.mp (List.mem_of_find?_eq_some hf)
      have e₁ : findFrom s₁ P l m = j := by unfold findFrom; rw [hf]
      have e₂ : findFrom s₂ P l e = j := by
        unfold findFrom
        rw [hsplit, List.find?_append, ← hcong, hf]
        rfl
      exact Or.inl ⟨by omega, by rw [e₂, e₁]⟩
  | none =>
      have e₁ : findFrom s₁ P l m = m := by unfold findFrom; rw [hf]
      have e₂ : findFrom s₂ P l e = findFrom s₂ P m e := by
        unfold findFrom
        rw [hsplit, List.find?_append, ← hcong, hf]
        rfl
      exact Or.inr ⟨e₁, e₂⟩
/-- Reads below the prefix length agree for any two continuations. -/
theorem getC_pre_any (pre X Y : List Char) (i : Nat) (hi : i < pre.length) :
    getC (pre ++ X) i = getC (pre ++ Y) i := by
  rw [getC_append_left _ _ i hi, getC_append_left _ _ i hi]

/-- A read inside the whitespace block after the prefix. -/
theorem getC_ws_block (pre wpost X : List Char) (j : Nat) (hj : j < wpost.length) :
    getC (pre ++ (wpost ++ X)) (pre.length + j) = getC wpost j := by
  rw [getC_append_right pre _ (pre.length + j) (by omega),
      show pre.length + j - pre.length = j from by omega,
      getC_append_left _ _ j hj]

/-- The character at the end of the whitespace block. -/
theorem getC_ws_end (pre wpost xt : List Char) :
    getC (pre ++ (wpost ++ '<' :: xt)) (pre.length + wpost.length) = '<' := by
  rw [getC_append_right pre _ (pre.length + wpost.length) (by omega),
      show pre.length + wpost.length - pre.length = wpost.length from by omega,
      getC_append_right wpost _ wpost.length le_rfl, Nat.sub_self]
  rfl

/-- As `cmtStart_append_lt`, with the weaker requirement that the first
appended character is neither `!` nor `-` (e.g. whitespace). -/
theorem cmtStart_append_lt₂ (pre X : List Char)
    (hX1 : getC X 0 ≠ '!') (hX2 : getC X 0 ≠ '-')
    (hprecmt : ∀ i, IsCommentStart pre i = false)
    (l : Nat) (hl : l < pre.length) :
    IsCommentStart (pre ++ X) l = false := by
  have hjun : getC (pre ++ X) pre.length = getC X 0 := by
    rw [getC_append_right pre X pre.length le_rfl, Nat.sub_self]
  by_cases h3 : l + 3 < pre.length
  · have heq : IsCommentStart (pre ++ X) l = IsCommentStart pre l := by
      unfold IsCommentStart
      rw [getC_append_left _ _ l (by omega), getC_append_left _ _ (l + 1) (by omega),
          getC_append_left _ _ (l + 2) (by omega), getC_append_left _ _ (l + 3) (by omega)]
    rw [heq, hprecmt l]
  · by_cases h1 : l + 1 = pre.length
    · have hb : ¬getC (pre ++ X) (l + 1) = '!' := by
        rw [h1, hjun]
        exact hX1
      simp [IsCommentStart, hb]
    · by_cases h2 : l + 2 = pre.length
      · have hb : ¬getC (pre ++ X) (l + 2) = '-' := by
          rw [h2, hjun]
          exact hX2
        simp [IsCommentStart, hb]
      · have hb : ¬getC (pre ++ X) (l + 3) = '-' := by
          rw [show l + 3 = pre.length from by omega, hjun]
          exact hX2
        simp [IsCommentStart, hb]

/-- On the comment-free buffer, no comment start below the end of the
whitespace block. -/
theorem cmtStart_wo_ws (pre wpost xt : List Char)
    (hwsp : ∀ c ∈ wpost, IsSpace c = true)
    (hprecmt : ∀ i, IsCommentStart pre i = false) :
    ∀ l, l < pre.length + wpost.length →
      IsCommentStart (pre ++ (wpost ++ '<' :: xt)) l = false := by
  intro l hl
  by_cases hlp : l < pre.length
  · cases hwp : wpost with
    | nil =>
        subst hwp
        exact cmtStart_append_lt pre _ (by rw [List.nil_append]; rfl) hprecmt l hlp
    | cons c cs =>
        have hc : IsSpace c = true := hwsp c (by rw [hwp]; exact List.mem_cons_self _ _)
        have hsp := space_ne c hc
        refine cmtStart_append_lt₂ pre _ ?_ ?_ hprecmt l hlp
        · show ¬c = '!'
          exact hsp.2.2.1
        · show ¬c = '-'
          exact hsp.2.2.2.1
  · have hspace : IsSpace (getC (pre ++ (wpost ++ '<' :: xt)) l) = true := by
      have hj : l - pre.length < wpost.length := by omega
      have := getC_ws_block pre wpost ('<' :: xt) (l - pre.length) hj
      rw [show pre.length + (l - pre.length) = l from by omega] at this
      rw [this]
      exact hwsp _ (getC_mem wpost (l - pre.length) hj)
    have hne := (space_ne _ hspace).1
    unfold IsCommentStart
    rw [show (decide (getC (pre ++ (wpost ++ '<' :: xt)) l = '<')) = false from by
          simpa using hne,
        Bool.false_and, Bool.false_and, Bool.false_and]
/-- Slices lying inside `pre` agree for any two continuations. -/
theorem slice_pre_any (pre X Y : List Char) (a r : Nat) (hr : r ≤ pre.length) :
    slice (pre ++ X) a r = slice (pre ++ Y) a r := by
  rw [slice_append_of_le pre X a r hr, slice_append_of_le pre Y a r hr]

/-- Characters inside the whitespace block are whitespace. -/
theorem getC_wo_space (pre wpost xt : List Char)
    (hwsp : ∀ c ∈ wpost, IsSpace c = true) (j : Nat)
    (h1 : pre.length ≤ j) (h2 : j < pre.length + wpost.length) :
    IsSpace (getC (pre ++ (wpost ++ '<' :: xt)) j) = true := by
  have hj : j - pre.length < wpost.length := by omega
  have hb := getC_ws_block pre wpost ('<' :: xt) (j - pre.length) hj
  rw [show pre.length + (j - pre.length) = j from by omega] at hb
  rw [hb]
  exact hwsp _ (getC_mem wpost (j - pre.length) hj)

/-- `DetermineToken` across the junction: the token ending at the comment
start on the commented buffer is classified like the token ending at the
next tag on the comment-free buffer. -/
theorem DT_junc (pre b wpost xt : List Char)
    (hwsp : ∀ c ∈ wpost, IsSpace c = true)
    (hprecmt : ∀ i, IsCommentStart pre i = false)
    (l : Nat) (hl : l < pre.length) :
    DetermineToken (pre ++ (cmtOf b ++ (wpost ++ '<' :: xt))) l pre.length =
      DetermineToken (pre ++ (wpost ++ '<' :: xt)) l
        (pre.length + wpost.length) := by
  have h0 : getC (pre ++ (cmtOf b ++ (wpost ++ '<' :: xt))) l =
      getC (pre ++ (wpost ++ '<' :: xt)) l := getC_pre_any _ _ _ l hl
  have hcsw : IsCommentStart (pre ++ (cmtOf b ++ (wpost ++ '<' :: xt))) l = false :=
    cmtStart_append_lt pre _ (getC_cmtOf_append_head b _) hprecmt l hl
  have hcswo : IsCommentStart (pre ++ (wpost ++ '<' :: xt)) l = false :=
    cmtStart_wo_ws pre wpost xt hwsp hprecmt l (by omega)
  unfold DetermineToken
  dsimp only
  rw [h0, hcsw, hcswo]
  simp only [Bool.false_eq_true, if_false]
  by_cases hlt : getC (pre ++ (wpost ++ '<' :: xt)) l = '<'
  · rw [if_pos hlt, if_pos hlt]
    suffices hCONT :
        (if findFrom (pre ++ (cmtOf b ++ (wpost ++ '<' :: xt))) (fun c => c = '>') l
            pre.length = pre.length then tokERROR
         else if getC (pre ++ (cmtOf b ++ (wpost ++ '<' :: xt)))
            (findFrom (pre ++ (cmtOf b ++ (wpost ++ '<' :: xt))) (fun c => c = '>') l
              pre.length - 1) = '/' then tokOPEN ||| tokCLOSE
         else tokOPEN) =
        (if findFrom (pre ++ (wpost ++ '<' :: xt)) (fun c => c = '>') l
            (pre.length + wpost.length) = pre.length + wpost.length then tokERROR
         else if getC (pre ++ (wpost ++ '<' :: xt))
            (findFrom (pre ++ (wpost ++ '<' :: xt)) (fun c => c = '>') l
              (pre.length + wpost.length) - 1) = '/' then tokOPEN ||| tokCLOSE
         else tokOPEN) by
      by_cases h1p : l + 1 < pre.length
      · rw [getC_pre_any pre (cmtOf b ++ (wpost ++ '<' :: xt))
            (wpost ++ '<' :: xt) (l + 1) h1p]
        by_cases hsl : getC (pre ++ (wpost ++ '<' :: xt)) (l + 1) = '/'
        · rw [if_pos hsl, if_pos hsl]
        · rw [if_neg hsl, if_neg hsl]
          exact hCONT
      · have hle : l + 1 = pre.length := by omega
        have hwne : ¬getC (pre ++ (cmtOf b ++ (wpost ++ '<' :: xt))) (l + 1) = '/' := by
          rw [hle, getC_at_junction pre b _]
          decide
        have hwo1 : ¬getC (pre ++ (wpost ++ '<' :: xt)) (l + 1) = '/' := by
          rw [hle]
          cases hwp : wpost with
          | nil =>
              subst hwp
              have hend := getC_ws_end pre [] xt
              simp only [List.length_nil, Nat.add_zero] at hend
              rw [hend]
              decide
          | cons c cs =>
              rw [← hwp]
              have hsp : IsSpace (getC (pre ++ (wpost ++ '<' :: xt)) pre.length)
                  = true :=
                getC_wo_space pre wpost xt hwsp pre.length le_rfl
                  (by rw [hwp]; simp)
              exact (space_ne _ hsp).2.2.2.2.2.1
        rw [if_neg hwne, if_neg hwo1]
        exact hCONT
    rcases findFrom_ws_cases (pre ++ (cmtOf b ++ (wpost ++ '<' :: xt)))
        (pre ++ (wpost ++ '<' :: xt)) (fun c => c = '>') l pre.length
        (pre.length + wpost.length) (by omega) (by omega)
        (fun j _ hj2 => getC_pre_any _ _ _ j hj2) with
      ⟨hflt, hfeq⟩ | ⟨hfw, hfwo⟩
    · rw [hfeq]
      rw [if_neg (show ¬findFrom (pre ++ (cmtOf b ++ (wpost ++ '<' :: xt)))
            (fun c => c = '>') l pre.length = pre.length from by omega),
          if_neg (show ¬findFrom (pre ++ (cmtOf b ++ (wpost ++ '<' :: xt)))
            (fun c => c = '>') l pre.length = pre.length + wpost.length from by omega),
          getC_pre_any pre (cmtOf b ++ (wpost ++ '<' :: xt)) (wpost ++ '<' :: xt)
            (findFrom (pre ++ (cmtOf b ++ (wpost ++ '<' :: xt)))
              (fun c => c = '>') l pre.length - 1) (by omega)]
    · have hfwo2 : findFrom (pre ++ (wpost ++ '<' :: xt)) (fun c => c = '>')
          pre.length (pre.length + wpost.length) = pre.length + wpost.length := by
        apply findFrom_all_false
        intro j h1 h2
        have hsp := getC_wo_space pre wpost xt hwsp j h1 h2
        exact decide_eq_false ((space_ne _ hsp).2.1)
      rw [hfw, hfwo, hfwo2, if_pos rfl, if_pos rfl]
  · rw [if_neg hlt, if_neg hlt]

/-- `ExtractName` across the junction: the name scan stops at whitespace,
so the trailing whitespace block is never included. -/
theorem EN_junc (pre b wpost xt : List Char)
    (hwsp : ∀ c ∈ wpost, IsSpace c = true) (hwne : wpost ≠ [])
    (l : Nat) (hl : l < pre.length) :
    ExtractName (pre ++ (cmtOf b ++ (wpost ++ '<' :: xt))) l pre.length =
      ExtractName (pre ++ (wpost ++ '<' :: xt)) l (pre.length + wpost.length) := by
  unfold ExtractName
  rcases findFrom_ws_cases (pre ++ (cmtOf b ++ (wpost ++ '<' :: xt)))
      (pre ++ (wpost ++ '<' :: xt)) (fun c => IsSpace c || c = '>' || c = '/')
      (l + 1) pre.length (pre.length + wpost.length) (by omega) (by omega)
      (fun j _ hj2 => getC_pre_any _ _ _ j hj2) with
    ⟨hflt, hfeq⟩ | ⟨hfw, hfwo⟩
  · rw [hfeq]
    exact slice_pre_any pre _ _ (l + 1)
      (findFrom (pre ++ (cmtOf b ++ (wpost ++ '<' :: xt)))
        (fun c => IsSpace c || c = '>' || c = '/') (l + 1) pre.length) (by omega)
  · have hhit : findFrom (pre ++ (wpost ++ '<' :: xt))
        (fun c => IsSpace c || c = '>' || c = '/') pre.length
        (pre.length + wpost.length) = pre.length := by
      apply findFrom_head_true
      · cases wpost with
        | nil => exact absurd rfl hwne
        | cons c cs => simp
      · have hsp := getC_wo_space pre wpost xt hwsp pre.length le_rfl
          (by cases wpost with
              | nil => exact absurd rfl hwne
              | cons c cs => simp)
        rw [hsp]
        rfl
    rw [hfw, hfwo, hhit]
    exact slice_pre_any pre _ _ (l + 1) pre.length le_rfl
/-- The attribute-reading loop across the junction: while the confined
scan certificate holds, the loop on the commented buffer (stopping at the
comment) and on the comment-free buffer (stopping at the next tag, past
the whitespace block) perform identical iterations. -/
theorem eaLoop_ws (pre b wpost xt : List Char)
    (hwsp : ∀ c ∈ wpost, IsSpace c = true) :
    ∀ fuel fuel₂ p (A : List (List Char × List Char)), fuel ≤ fuel₂ →
      p ≤ pre.length → eaScanOK pre fuel p = true →
      eaLoop (pre ++ (cmtOf b ++ (wpost ++ '<' :: xt))) pre.length fuel p A =
        eaLoop (pre ++ (wpost ++ '<' :: xt)) (pre.length + wpost.length) fuel₂ p A := by
  intro fuel
  induction fuel with
  | zero =>
      intro fuel₂ p A _ _ hok
      exact Bool.noConfusion hok
  | succ fuel ih =>
      intro fuel₂ p A hle hp hok
      obtain ⟨fuel₂', rfl⟩ : ∃ f, fuel₂ = f + 1 := ⟨fuel₂ - 1, by omega⟩
      have hok2 : (match eaStep pre p with
        | .stop => true
        | .bad => false
        | .next v => eaScanOK pre fuel v) = true := hok
      rw [eaLoop_succ, eaLoop_succ]
      by_cases hpp : p < pre.length
      · rw [if_pos hpp, if_pos (show p < pre.length + wpost.length from by omega)]
        dsimp only
        have hkbw : findFrom (pre ++ (cmtOf b ++ (wpost ++ '<' :: xt)))
            (fun c => IsAlpha c) p pre.length =
            findFrom pre (fun c => IsAlpha c) p pre.length :=
          findFrom_congr _ _ _ p pre.length
            (fun i _ h2 => getC_append_left pre _ i h2)
        rcases findFrom_ws_cases (pre ++ (cmtOf b ++ (wpost ++ '<' :: xt)))
            (pre ++ (wpost ++ '<' :: xt)) (fun c => IsAlpha c) p pre.length
            (pre.length + wpost.length) (by omega) (by omega)
            (fun j _ hj2 => getC_pre_any _ _ _ j hj2) with
          ⟨hkbl, hkbe⟩ | ⟨hkbend, hkbcont⟩
        · rw [hkbe, hkbw]
          rw [hkbw] at hkbl
          rw [if_neg (show ¬findFrom pre (fun c => IsAlpha c) p pre.length =
                pre.length from by omega),
              if_neg (show ¬findFrom pre (fun c => IsAlpha c) p pre.length =
                pre.length + wpost.length from by omega)]
          have hkew : findFrom (pre ++ (cmtOf b ++ (wpost ++ '<' :: xt)))
              (fun c => c = '=')
              (findFrom pre (fun c => IsAlpha c) p pre.length) pre.length =
              findFrom pre (fun c => c = '=')
                (findFrom pre (fun c => IsAlpha c) p pre.length) pre.length :=
            findFrom_congr _ _ _ _ pre.length
              (fun i _ h2 => getC_append_left pre _ i h2)
          rcases findFrom_ws_cases (pre ++ (cmtOf b ++ (wpost ++ '<' :: xt)))
              (pre ++ (wpost ++ '<' :: xt)) (fun c => c = '=')
              (findFrom pre (fun c => IsAlpha c) p pre.length) pre.length
              (pre.length + wpost.length) (by omega) (by omega)
              (fun j _ hj2 => getC_pre_any _ _ _ j hj2) with
            ⟨hkel, hkee⟩ | ⟨hkeend, hkecont⟩
          · rw [hkee, hkew]
            rw [hkew] at hkel
            by_cases hke1 : findFrom pre (fun c => c = '=')
                (findFrom pre (fun c => IsAlpha c) p pre.length) pre.length + 1 <
                pre.length
            · have hqw : getC (pre ++ (cmtOf b ++ (wpost ++ '<' :: xt)))
                  (findFrom pre (fun c => c = '=')
                    (findFrom pre (fun c => IsAlpha c) p pre.length) pre.length +
                      2 - 1) =
                  getC pre (findFrom pre (fun c => c = '=')
                    (findFrom pre (fun c => IsAlpha c) p pre.length) pre.length + 1) := by
                rw [show findFrom pre (fun c => c = '=')
                    (findFrom pre (fun c => IsAlpha c) p pre.length) pre.length + 2 - 1 =
                    findFrom pre (fun c => c = '=')
                      (findFrom pre (fun c => IsAlpha c) p pre.length) pre.length + 1
                    from by omega]
                exact getC_append_left pre _ _ hke1
              have hqwo : getC (pre ++ (wpost ++ '<' :: xt))
                  (findFrom pre (fun c => c = '=')
                    (findFrom pre (fun c => IsAlpha c) p pre.length) pre.length +
                      2 - 1) =
                  getC pre (findFrom pre (fun c => c = '=')
                    (findFrom pre (fun c => IsAlpha c) p pre.length) pre.length + 1) := by
                rw [show findFrom pre (fun c => c = '=')
                    (findFrom pre (fun c => IsAlpha c) p pre.length) pre.length + 2 - 1 =
                    findFrom pre (fun c => c = '=')
                      (findFrom pre (fun c => IsAlpha c) p pre.length) pre.length + 1
                    from by omega]
                exact getC_append_left pre _ _ hke1
              rw [hqw, hqwo]
              have hvew : findFrom (pre ++ (cmtOf b ++ (wpost ++ '<' :: xt)))
                  (fun c => c = getC pre (findFrom pre (fun c => c = '=')
                    (findFrom pre (fun c => IsAlpha c) p pre.length) pre.length + 1))
                  (findFrom pre (fun c => c = '=')
                    (findFrom pre (fun c => IsAlpha c) p pre.length) pre.length + 2)
                  pre.length =
                  findFrom pre (fun c => c = getC pre (findFrom pre (fun c => c = '=')
                    (findFrom pre (fun c => IsAlpha c) p pre.length) pre.length + 1))
                  (findFrom pre (fun c => c = '=')
                    (findFrom pre (fun c => IsAlpha c) p pre.length) pre.length + 2)
                  pre.length :=
                findFrom_congr _ _ _ _ pre.length
                  (fun i _ h2 => getC_append_left pre _ i h2)
              have hstep0 : eaStep pre p = (if findFrom pre
                  (fun c => c = getC pre (findFrom pre (fun c => c = '=')
                    (findFrom pre (fun c => IsAlpha c) p pre.length) pre.length + 1))
                  (findFrom pre (fun c => c = '=')
                    (findFrom pre (fun c => IsAlpha c) p pre.length) pre.length + 2)
                  pre.length = pre.length then EaStepRes.bad
                 else EaStepRes.next (findFrom pre
                  (fun c => c = getC pre (findFrom pre (fun c => c = '=')
                    (findFrom pre (fun c => IsAlpha c) p pre.length) pre.length + 1))
                  (findFrom pre (fun c => c = '=')
                    (findFrom pre (fun c => IsAlpha c) p pre.length) pre.length + 2)
                  pre.length)) := by
                unfold eaStep
                rw [if_pos hpp]
                dsimp only
                rw [if_neg (show ¬findFrom pre (fun c => IsAlpha c) p pre.length =
                      pre.length from by omega),
                    if_pos hke1]
              by_cases hve : findFrom pre
                  (fun c => c = getC pre (findFrom pre (fun c => c = '=')
                    (findFrom pre (fun c => IsAlpha c) p pre.length) pre.length + 1))
                  (findFrom pre (fun c => c = '=')
                    (findFrom pre (fun c => IsAlpha c) p pre.length) pre.length + 2)
                  pre.length = pre.length
              · exfalso
                rw [hstep0, if_pos hve] at hok2
                exact Bool.noConfusion hok2
              · rw [hstep0, if_neg hve] at hok2
                have hvelt : findFrom pre
                    (fun c => c = getC pre (findFrom pre (fun c => c = '=')
                      (findFrom pre (fun c => IsAlpha c) p pre.length) pre.length + 1))
                    (findFrom pre (fun c => c = '=')
                      (findFrom pre (fun c => IsAlpha c) p pre.length) pre.length + 2)
                    pre.length < pre.length := by
                  have := findFrom_le pre
                    (fun c => c = getC pre (findFrom pre (fun c => c = '=')
                      (findFrom pre (fun c => IsAlpha c) p pre.length) pre.length + 1))
                    (findFrom pre (fun c => c = '=')
                      (findFrom pre (fun c => IsAlpha c) p pre.length) pre.length + 2)
                    pre.length
                  omega
                rcases findFrom_ws_cases (pre ++ (cmtOf b ++ (wpost ++ '<' :: xt)))
                    (pre ++ (wpost ++ '<' :: xt))
                    (fun c => c = getC pre (findFrom pre (fun c => c = '=')
                      (findFrom pre (fun c => IsAlpha c) p pre.length) pre.length + 1))
                    (findFrom pre (fun c => c = '=')
                      (findFrom pre (fun c => IsAlpha c) p pre.length) pre.length + 2)
                    pre.length (pre.length + wpost.length) (by omega) (by omega)
                    (fun j _ hj2 => getC_pre_any _ _ _ j hj2) with
                  ⟨hvel, hvee⟩ | ⟨hveend, hvecont⟩
                · rw [hvee, hvew]
                  rw [slice_pre_any pre (cmtOf b ++ (wpost ++ '<' :: xt))
                        (wpost ++ '<' :: xt) (findFrom pre (fun c => IsAlpha c) p
                          pre.length)
                        (findFrom pre (fun c => c = '=')
                          (findFrom pre (fun c => IsAlpha c) p pre.length) pre.length)
                        (by omega),
                      slice_pre_any pre (cmtOf b ++ (wpost ++ '<' :: xt))
                        (wpost ++ '<' :: xt)
                        (findFrom pre (fun c => c = '=')
                          (findFrom pre (fun c => IsAlpha c) p pre.length) pre.length
                          + 2)
                        (findFrom pre
                          (fun c => c = getC pre (findFrom pre (fun c => c = '=')
                            (findFrom pre (fun c => IsAlpha c) p pre.length)
                            pre.length + 1))
                          (findFrom pre (fun c => c = '=')
                            (findFrom pre (fun c => IsAlpha c) p pre.length)
                            pre.length + 2) pre.length)
                        (by omega)]
                  exact ih fuel₂' _ _ (by omega) (by omega) hok2
                · exfalso
                  rw [hvew] at hveend
                  omega
            · exfalso
              have hstep0 : eaStep pre p = EaStepRes.bad := by
                unfold eaStep
                rw [if_pos hpp]
                dsimp only
                rw [if_neg (show ¬findFrom pre (fun c => IsAlpha c) p pre.length =
                      pre.length from by omega),
                    if_neg hke1]
              rw [hstep0] at hok2
              exact Bool.noConfusion hok2
          · exfalso
            rw [hkew] at hkeend
            have hstep0 : eaStep pre p = EaStepRes.bad := by
              unfold eaStep
              rw [if_pos hpp]
              dsimp only
              rw [if_neg (show ¬findFrom pre (fun c => IsAlpha c) p pre.length =
                    pre.length from by omega),
                  if_neg (show ¬findFrom pre (fun c => c = '=')
                    (findFrom pre (fun c => IsAlpha c) p pre.length) pre.length + 1 <
                    pre.length from by omega)]
            rw [hstep0] at hok2
            exact Bool.noConfusion hok2
        · rw [hkbw] at hkbend
          rw [hkbw, hkbend, if_pos rfl]
          have hwo2 : findFrom (pre ++ (wpost ++ '<' :: xt)) (fun c => IsAlpha c)
              pre.length (pre.length + wpost.length) = pre.length + wpost.length := by
            apply findFrom_all_false
            intro j h1 h2
            exact space_not_alpha _ (getC_wo_space pre wpost xt hwsp j h1 h2)
          rw [hkbcont, hwo2, if_pos rfl]
      · have hpe : p = pre.length := by omega
        rw [if_neg hpp]
        by_cases hpv : p < pre.length + wpost.length
        · rw [if_pos hpv]
          dsimp only
          have hkb : findFrom (pre ++ (wpost ++ '<' :: xt)) (fun c => IsAlpha c) p
              (pre.length + wpost.length) = pre.length + wpost.length := by
            apply findFrom_all_false
            intro j h1 h2
            exact space_not_alpha _ (getC_wo_space pre wpost xt hwsp j (by omega) h2)
          rw [hkb, if_pos rfl]
        · rw [if_neg hpv]
/-- `ExtractAttributes` across the junction: under the confined-scan
certificate, the attribute list of the token ending at the comment equals
that of the token extended by the whitespace block. -/
theorem EA_junc (pre b wpost xt : List Char)
    (hwsp : ∀ c ∈ wpost, IsSpace c = true)
    (l : Nat) (hl : l < pre.length)
    (hconf : eaScanOK pre pre.length
      (findFrom pre (fun c => c = '>' || IsSpace c) l pre.length) = true) :
    ExtractAttributes (pre ++ (cmtOf b ++ (wpost ++ '<' :: xt))) l pre.length =
      ExtractAttributes (pre ++ (wpost ++ '<' :: xt)) l
        (pre.length + wpost.length) := by
  unfold ExtractAttributes
  dsimp only
  have hstw : findFrom (pre ++ (cmtOf b ++ (wpost ++ '<' :: xt)))
      (fun c => c = '>' || IsSpace c) l pre.length =
      findFrom pre (fun c => c = '>' || IsSpace c) l pre.length :=
    findFrom_congr _ _ _ l pre.length (fun i _ h2 => getC_append_left pre _ i h2)
  rcases findFrom_ws_cases (pre ++ (cmtOf b ++ (wpost ++ '<' :: xt)))
      (pre ++ (wpost ++ '<' :: xt)) (fun c => c = '>' || IsSpace c) l pre.length
      (pre.length + wpost.length) (by omega) (by omega)
      (fun j _ hj2 => getC_pre_any _ _ _ j hj2) with
    ⟨hstl, hste⟩ | ⟨hstend, hstcont⟩
  · rw [hste, hstw]
    rw [hstw] at hstl
    exact eaLoop_ws pre b wpost xt hwsp pre.length (pre.length + wpost.length) _ []
      (by omega) (by omega) hconf
  · have hwoat : findFrom (pre ++ (wpost ++ '<' :: xt))
        (fun c => c = '>' || IsSpace c) pre.length (pre.length + wpost.length) =
        pre.length := by
      cases hwp : wpost with
      | nil =>
          subst hwp
          simp only [List.length_nil, Nat.add_zero]
          exact findFrom_empty _ _ _ _ le_rfl
      | cons c cs =>
          rw [← hwp]
          apply findFrom_head_true
          · rw [hwp]
            simp
          · have hsp := getC_wo_space pre wpost xt hwsp pre.length le_rfl
              (by rw [hwp]; simp)
            rw [hsp]
            simp
    rw [hstw] at hstend
    rw [hstw, hstend, hstcont, hwoat]
    rw [hstend] at hconf
    exact eaLoop_ws pre b wpost xt hwsp pre.length (pre.length + wpost.length)
      pre.length [] (by omega) le_rfl hconf
/-- As `ric_pending`, but the scan resumes at an arbitrary boundary `m`
at or past the junction end (the boundary after the whitespace block). -/
theorem ric_pending₂ (pre b post : List Char) (m : Nat)
    (hm : pre.length + (cmtOf b).length ≤ m)
    (hNoEndW : ∀ j, pre.length ≤ j → j < pre.length + (b.length + 4) →
      IsCommentEnd (pre ++ (cmtOf b ++ post)) j = false) :
    ∀ (I pend : List Nat) (l : Nat) (T : List Nat),
      pre.length + 4 ≤ l → l ≤ pre.length + (b.length + 4) →
      (∀ x ∈ I, pre.length + 4 ≤ x ∧ x ≤ pre.length + (b.length + 4)) →
      ricAux (pre ++ (cmtOf b ++ post)) (some pend) l (I ++ m :: T) =
        ricAux (pre ++ (cmtOf b ++ post)) none m T := by
  have hk : (cmtOf b).length = b.length + 7 := cmtOf_length b
  intro I
  induction I with
  | nil =>
      intro pend l T hl4 hlb _
      rw [List.nil_append, ricAux_some_cons,
          if_pos (anyIn_eq_true _ l (m - 2) _
            (pre.length + (b.length + 4)) hlb (by omega)
            (cmtEnd_before_junction_end pre b post))]
  | cons i I' ih =>
      intro pend l T hl4 hlb hI
      have hi := hI i (List.mem_cons_self _ _)
      rw [List.cons_append, ricAux_some_cons,
          if_neg (by
            rw [anyIn_eq_false _ l (i - 2) _
              (fun j h1 h2 => hNoEndW j (by omega) (by omega))]
            exact Bool.false_ne_true),
          ih (pend ++ [l]) i T hi.1 hi.2 (fun x hx => hI x (List.mem_cons_of_mem _ hx))]

/-- As `ric_junc`, with the boundary after the comment an arbitrary `m` at
or past the junction end. -/
theorem ric_junc₂ (pre b post : List Char) (m : Nat)
    (hm : pre.length + (cmtOf b).length ≤ m)
    (hNoEndW : ∀ j, pre.length ≤ j → j < pre.length + (b.length + 4) →
      IsCommentEnd (pre ++ (cmtOf b ++ post)) j = false) :
    ∀ (I T : List Nat),
      (∀ x ∈ I, pre.length + 4 ≤ x ∧ x ≤ pre.length + (b.length + 4)) →
      ricAux (pre ++ (cmtOf b ++ post)) none pre.length (I ++ m :: T) =
        pre.length :: ricAux (pre ++ (cmtOf b ++ post)) none m T := by
  have hk : (cmtOf b).length = b.length + 7 := cmtOf_length b
  intro I T hI
  cases I with
  | nil =>
      rw [List.nil_append, ricAux_none_cons,
          if_pos (anyIn_eq_true _ pre.length (m - 3) _
            pre.length le_rfl (by omega) (cmtStart_at_junction pre b post)),
          if_pos (anyIn_eq_true _ pre.length (m - 2) _
            (pre.length + (b.length + 4)) (by omega) (by omega)
            (cmtEnd_before_junction_end pre b post))]
  | cons i I' =>
      have hi := hI i (List.mem_cons_self _ _)
      rw [List.cons_append, ricAux_none_cons,
          if_pos (anyIn_eq_true _ pre.length (i - 3) _ pre.length le_rfl (by omega)
            (cmtStart_at_junction pre b post)),
          if_neg (by
            rw [anyIn_eq_false _ pre.length (i - 2) _
              (fun j h1 h2 => hNoEndW j h1 (by omega))]
            exact Bool.false_ne_true),
          ric_pending₂ pre b post m hm hNoEndW I' [] i T hi.1 hi.2
            (fun x hx => hI x (List.mem_cons_of_mem _ hx))]
/-- A token starting at `<` is never classified CONTENT. -/
theorem DT_lt_ne_content (s : List Char) (l r : Nat) (h : getC s l = '<') :
    DetermineToken s l r ≠ tokCONTENT := by
  unfold DetermineToken
  rw [if_pos h]
  by_cases h1 : getC s (l + 1) = '/'
  · rw [if_pos h1]
    decide
  · rw [if_neg h1]
    by_cases h2 : IsCommentStart s l = true
    · rw [if_pos h2]
      decide
    · rw [if_neg h2]
      dsimp only
      by_cases h3 : findFrom s (fun c => c = '>') l r = r
      · rw [if_pos h3]
        decide
      · rw [if_neg h3]
        by_cases h4 : getC s (findFrom s (fun c => c = '>') l r - 1) = '/'
        · rw [if_pos h4]
          decide
        · rw [if_neg h4]
          decide

/-- Skipping the junction comment token and rejoining the shifted tail. -/
theorem blws_skip (pre b wpost xt : List Char) (rer : Bool) (W : List Nat)
    (hW : ∀ x ∈ W, pre.length ≤ x) :
    ∀ (top : ElementData) (stk : List ElementData),
      buildLoop (pre ++ (cmtOf b ++ (wpost ++ '<' :: xt))) rer top stk pre.length
        ((pre.length + wpost.length + (cmtOf b).length) ::
          W.map (· + (cmtOf b).length)) =
      buildLoop (pre ++ (wpost ++ '<' :: xt)) rer top stk
        (pre.length + wpost.length) W := by
  intro top stk
  rw [buildLoop_cons]
  dsimp only
  rw [DT_cmt pre b (wpost ++ '<' :: xt) (pre.length + wpost.length + (cmtOf b).length),
      if_neg (show ¬(tokCOMMENT &&& tokOPEN ≠ 0) from by decide),
      if_neg (show ¬(tokCOMMENT &&& tokCLOSE ≠ 0) from by decide),
      if_neg (show ¬(tokCOMMENT = tokCONTENT) from by decide),
      if_neg (show ¬(tokCOMMENT = tokERROR) from by decide)]
  have h := bl_shift (pre ++ (cmtOf b ++ (wpost ++ '<' :: xt)))
    (pre ++ (wpost ++ '<' :: xt)) rer pre.length (cmtOf b).length
    (fun l r hl => DT_shift pre b (wpost ++ '<' :: xt) l r hl)
    (fun l r hl => EN_shift pre b (wpost ++ '<' :: xt) l r hl)
    (fun l r hl hr => EA_shift pre b (wpost ++ '<' :: xt) l r hl hr)
    (fun l r hl _ => slice_shift pre (cmtOf b) (wpost ++ '<' :: xt) l r hl)
    W (pre.length + wpost.length) top stk (by omega) hW
  rw [show pre.length + wpost.length + (cmtOf b).length =
      pre.length + wpost.length + (cmtOf b).length from rfl]
  exact h

/-- Processing the pair that ends at the junction: the open tag (or close
tag) before the comment behaves identically whether its right boundary is
the comment start or the next tag past the whitespace. -/
theorem blws_junc (pre b wpost xt : List Char) (rer : Bool)
    (hwsp : ∀ c ∈ wpost, IsSpace c = true) (hwne : wpost ≠ [])
    (hprecmt : ∀ i, IsCommentStart pre i = false)
    (lt : Nat) (hlt : lt < pre.length) (hltc : getC pre lt = '<')
    (hconf : eaScanOK pre pre.length
      (findFrom pre (fun c => c = '>' || IsSpace c) lt pre.length) = true)
    (W : List Nat) (hW : ∀ x ∈ W, pre.length ≤ x) :
    ∀ (top : ElementData) (stk : List ElementData),
      buildLoop (pre ++ (cmtOf b ++ (wpost ++ '<' :: xt))) rer top stk lt
        (pre.length :: (pre.length + wpost.length + (cmtOf b).length) ::
          W.map (· + (cmtOf b).length)) =
      buildLoop (pre ++ (wpost ++ '<' :: xt)) rer top stk lt
        ((pre.length + wpost.length) :: W) := by
  intro top stk
  have hskip := blws_skip pre b wpost xt rer W hW
  have hnc : DetermineToken (pre ++ (wpost ++ '<' :: xt)) lt
      (pre.length + wpost.length) ≠ tokCONTENT :=
    DT_lt_ne_content _ _ _ (by rw [getC_append_left pre _ lt hlt]; exact hltc)
  rw [buildLoop_cons (pre ++ (cmtOf b ++ (wpost ++ '<' :: xt))) rer top stk lt
        pre.length ((pre.length + wpost.length + (cmtOf b).length) ::
          W.map (· + (cmtOf b).length)),
      buildLoop_cons (pre ++ (wpost ++ '<' :: xt)) rer top stk lt
        (pre.length + wpost.length) W]
  dsimp only
  rw [DT_junc pre b wpost xt hwsp hprecmt lt hlt,
      EN_junc pre b wpost xt hwsp hwne lt hlt,
      EA_junc pre b wpost xt hwsp lt hlt hconf]
  by_cases h1 : DetermineToken (pre ++ (wpost ++ '<' :: xt)) lt
      (pre.length + wpost.length) &&& tokOPEN ≠ 0
  · rw [if_pos h1, if_pos h1]
    by_cases h2 : DetermineToken (pre ++ (wpost ++ '<' :: xt)) lt
        (pre.length + wpost.length) &&& tokCLOSE ≠ 0
    · rw [if_pos h2, if_pos h2]
      exact hskip _ _
    · rw [if_neg h2, if_neg h2]
      exact hskip _ _
  · rw [if_neg h1, if_neg h1]
    by_cases h2 : DetermineToken (pre ++ (wpost ++ '<' :: xt)) lt
        (pre.length + wpost.length) &&& tokCLOSE ≠ 0
    · rw [if_pos h2, if_pos h2]
      cases stk with
      | nil => rfl
      | cons p ps => exact hskip _ _
    · rw [if_neg h2, if_neg h2]
      rw [if_neg hnc, if_neg hnc]
      by_cases h4 : DetermineToken (pre ++ (wpost ++ '<' :: xt)) lt
          (pre.length + wpost.length) = tokERROR
      · rw [if_pos h4, if_pos h4]
      · rw [if_neg h4, if_neg h4]
        exact hskip _ _
/-- The tokenizer emits no boundaries while scanning whitespace (unless
the previous character was `>`). -/
theorem tokA_space_run : ∀ (w : List Char), (∀ c ∈ w, IsSpace c = true) →
    ∀ (rest : List Char) (prev : Char) (i : Nat), prev ≠ '>' →
      tokenizeAux prev (w ++ rest) i =
        tokenizeAux (w.getLastD prev) rest (i + w.length) := by
  intro w
  induction w with
  | nil =>
      intro _ rest prev i _
      rw [List.nil_append]
      simp only [List.length_nil, Nat.add_zero]
      rfl
  | cons c cs ih =>
      intro hw rest prev i hprev
      have hc := hw c (List.mem_cons_self _ _)
      rw [List.cons_append, tokenizeAux_cons, if_neg ((space_ne c hc).1),
          if_neg hprev,
          ih (fun x hx => hw x (List.mem_cons_of_mem _ hx)) rest c (i + 1)
            ((space_ne c hc).2.1),
          List.getLastD_cons,
          show i + 1 + cs.length = i + (c :: cs).length from by
            rw [List.length_cons]
            omega]

/-- After a `>`, the tokenizer emits one boundary at the head of a
whitespace run and then nothing until the run ends. -/
theorem tokA_space_aftergt (c : Char) (cs : List Char)
    (hw : ∀ x ∈ c :: cs, IsSpace x = true) (rest : List Char) (i : Nat) :
    tokenizeAux '>' ((c :: cs) ++ rest) i =
      i :: tokenizeAux ((c :: cs).getLastD '>') rest (i + (c :: cs).length) := by
  have hc := hw c (List.mem_cons_self _ _)
  rw [List.cons_append, tokenizeAux_cons, if_neg ((space_ne c hc).1), if_pos rfl,
      tokA_space_run cs (fun x hx => hw x (List.mem_cons_of_mem _ hx)) rest c (i + 1)
        ((space_ne c hc).2.1),
      List.getLastD_cons,
      show i + 1 + cs.length = i + (c :: cs).length from by
        rw [List.length_cons]
        omega]
/-- Tokenizing a whitespace block followed by `<…` (no prefix). -/
theorem TWS_wo_nil (w0 : Char) (wr xt : List Char)
    (hwsp : ∀ c ∈ w0 :: wr, IsSpace c = true) (hnw : nulChar ∉ (w0 :: wr))
    (hnxt : nulChar ∉ xt) :
    Tokenize ((w0 :: wr) ++ '<' :: xt) =
      0 :: ((w0 :: wr).length ::
        (tokenizeAux '<' xt ((w0 :: wr).length + 1) ++
          [(w0 :: wr).length + (xt.length + 1)])) := by
  have hT : tokenizeAux w0 (wr ++ '<' :: xt) 1 =
      (w0 :: wr).length :: tokenizeAux '<' xt ((w0 :: wr).length + 1) := by
    rw [tokA_space_run wr (fun x hx => hwsp x (List.mem_cons_of_mem _ hx))
          ('<' :: xt) w0 1 ((space_ne w0 (hwsp w0 (List.mem_cons_self _ _))).2.1),
        tokenizeAux_cons, if_pos rfl,
        show (1 : Nat) + wr.length = (w0 :: wr).length from by
          rw [List.length_cons]
          omega]
  have hbd : ∀ x ∈ 0 :: ((w0 :: wr).length ::
      tokenizeAux '<' xt ((w0 :: wr).length + 1)),
      x < (w0 :: (wr ++ '<' :: xt)).length := by
    have hlen : (w0 :: (wr ++ '<' :: xt)).length = wr.length + xt.length + 2 := by
      simp only [List.length_cons, List.length_append]
      omega
    intro x hx
    rw [hlen]
    rcases List.mem_cons.mp hx with h | hx2
    · omega
    rcases List.mem_cons.mp hx2 with h | h
    · rw [List.length_cons] at h
      omega
    · have := tokenizeAux_bounds xt '<' ((w0 :: wr).length + 1) x h
      rw [List.length_cons] at this
      omega
  have hnulw : nulChar ∉ (w0 :: (wr ++ '<' :: xt)) := by
    intro h
    rcases List.mem_cons.mp h with h | h2
    · exact hnw (h ▸ List.mem_cons_self _ _)
    rcases List.mem_append.mp h2 with h | h3
    · exact hnw (List.mem_cons_of_mem _ h)
    rcases List.mem_cons.mp h3 with h | h
    · exact absurd h (by decide)
    · exact hnxt h
  have h := Tokenize_cons_sentinel w0 (wr ++ '<' :: xt)
    ((w0 :: wr).length :: tokenizeAux '<' xt ((w0 :: wr).length + 1)) hT hbd hnulw
  rw [show (w0 :: (wr ++ '<' :: xt)).length =
      (w0 :: wr).length + (xt.length + 1) from by
        simp only [List.length_cons, List.length_append]
        omega] at h
  show Tokenize (w0 :: (wr ++ '<' :: xt)) = _
  rw [h]
  simp only [List.cons_append, List.nil_append, List.append_assoc]

/-- Tokenizing a prefix, a whitespace block and `<…`: the boundary after
the prefix exists exactly when the prefix ends in `>`. -/
theorem TWS_wo_cons (p₀ : Char) (pre' : List Char) (w0 : Char) (wr xt : List Char)
    (hnpre : nulChar ∉ (p₀ :: pre'))
    (hwsp : ∀ c ∈ w0 :: wr, IsSpace c = true) (hnw : nulChar ∉ (w0 :: wr))
    (hnxt : nulChar ∉ xt) :
    Tokenize ((p₀ :: pre') ++ ((w0 :: wr) ++ '<' :: xt)) =
      (0 :: tokenizeAux p₀ pre' 1) ++
        ((if pre'.getLastD p₀ = '>' then [(p₀ :: pre').length] else []) ++
          (((p₀ :: pre').length + (w0 :: wr).length) ::
            (tokenizeAux '<' xt ((p₀ :: pre').length + (w0 :: wr).length + 1) ++
              [(p₀ :: pre').length + ((w0 :: wr).length + (xt.length + 1))]))) := by
  have hlen : (p₀ :: (pre' ++ ((w0 :: wr) ++ '<' :: xt))).length =
      (p₀ :: pre').length + ((w0 :: wr).length + (xt.length + 1)) := by
    simp only [List.length_cons, List.length_append]
    omega
  have hnulw : nulChar ∉ (p₀ :: (pre' ++ ((w0 :: wr) ++ '<' :: xt))) := by
    intro h
    rcases List.mem_cons.mp h with h | h2
    · exact hnpre (h ▸ List.mem_cons_self _ _)
    rcases List.mem_append.mp h2 with h | h3
    · exact hnpre (List.mem_cons_of_mem _ h)
    rcases List.mem_append.mp h3 with h | h4
    · exact hnw h
    rcases List.mem_cons.mp h4 with h | h
    · exact absurd h (by decide)
    · exact hnxt h
  have htail : tokenizeAux (pre'.getLastD p₀) ((w0 :: wr) ++ '<' :: xt)
      (1 + pre'.length) =
      (if pre'.getLastD p₀ = '>' then [(p₀ :: pre').length] else []) ++
        (((p₀ :: pre').length + (w0 :: wr).length) ::
          tokenizeAux '<' xt ((p₀ :: pre').length + (w0 :: wr).length + 1)) := by
    have hpl : (1 : Nat) + pre'.length = (p₀ :: pre').length := by
      rw [List.length_cons]
      omega
    by_cases hgt : pre'.getLastD p₀ = '>'
    · rw [if_pos hgt, hgt,
          tokA_space_aftergt w0 wr hwsp ('<' :: xt) (1 + pre'.length),
          tokenizeAux_cons, if_pos rfl, hpl,
          show (p₀ :: pre').length + (w0 :: wr).length + 1 =
            (p₀ :: pre').length + (w0 :: wr).length + 1 from rfl]
      rw [List.singleton_append]
    · rw [if_neg hgt,
          tokA_space_run (w0 :: wr) hwsp ('<' :: xt) (pre'.getLastD p₀)
            (1 + pre'.length) hgt,
          tokenizeAux_cons, if_pos rfl, hpl, List.nil_append]
  have hT : tokenizeAux p₀ (pre' ++ ((w0 :: wr) ++ '<' :: xt)) 1 =
      tokenizeAux p₀ pre' 1 ++
        ((if pre'.getLastD p₀ = '>' then [(p₀ :: pre').length] else []) ++
          (((p₀ :: pre').length + (w0 :: wr).length) ::
            tokenizeAux '<' xt ((p₀ :: pre').length + (w0 :: wr).length + 1))) := by
    rw [tokenizeAux_append, htail]
  have hbd : ∀ x ∈ 0 :: (tokenizeAux p₀ pre' 1 ++
      ((if pre'.getLastD p₀ = '>' then [(p₀ :: pre').length] else []) ++
        (((p₀ :: pre').length + (w0 :: wr).length) ::
          tokenizeAux '<' xt ((p₀ :: pre').length + (w0 :: wr).length + 1)))),
      x < (p₀ :: (pre' ++ ((w0 :: wr) ++ '<' :: xt))).length := by
    intro x hx
    rw [hlen]
    rcases List.mem_cons.mp hx with h | hx2
    · simp only [List.length_cons]
      omega
    rcases List.mem_append.mp hx2 with h | hx3
    · have := tokenizeAux_bounds pre' p₀ 1 x h
      simp only [List.length_cons] at this ⊢
      omega
    rcases List.mem_append.mp hx3 with h | hx4
    · have hx5 : x = (p₀ :: pre').length := by
        by_cases hgt : pre'.getLastD p₀ = '>'
        · rw [if_pos hgt] at h
          exact List.mem_singleton.mp h
        · rw [if_neg hgt] at h
          cases h
      simp only [List.length_cons] at hx5 ⊢
      omega
    rcases List.mem_cons.mp hx4 with h | h
    · simp only [List.length_cons] at h ⊢
      omega
    · have := tokenizeAux_bounds xt '<'
        ((p₀ :: pre').length + (w0 :: wr).length + 1) x h
      simp only [List.length_cons] at this ⊢
      omega
  have h := Tokenize_cons_sentinel p₀ (pre' ++ ((w0 :: wr) ++ '<' :: xt)) _ hT hbd hnulw
  rw [hlen] at h
  show Tokenize (p₀ :: (pre' ++ ((w0 :: wr) ++ '<' :: xt))) = _
  rw [h]
  simp only [List.cons_append, List.nil_append, List.append_assoc]
/-- Tokenizing a comment, a whitespace block and `<…` (no prefix). -/
theorem TWS_w_nil (b : List Char) (w0 : Char) (wr xt : List Char)
    (hnb : nulChar ∉ b) (hwsp : ∀ c ∈ w0 :: wr, IsSpace c = true)
    (hnw : nulChar ∉ (w0 :: wr)) (hnxt : nulChar ∉ xt) :
    Tokenize (cmtOf b ++ ((w0 :: wr) ++ '<' :: xt)) =
      0 :: (tokenizeAux '<' ('!' :: '-' :: '-' :: (b ++ ['-', '-', '>'])) 1 ++
        ((cmtOf b).length :: (((w0 :: wr).length ::
          (tokenizeAux '<' xt ((w0 :: wr).length + 1) ++
            [(w0 :: wr).length + (xt.length + 1)])).map (· + (cmtOf b).length)))) := by
  have hk : (cmtOf b).length = b.length + 7 := cmtOf_length b
  have hT : tokenizeAux '<'
      (('!' :: '-' :: '-' :: (b ++ ['-', '-', '>'])) ++ ((w0 :: wr) ++ '<' :: xt)) 1 =
      tokenizeAux '<' ('!' :: '-' :: '-' :: (b ++ ['-', '-', '>'])) 1 ++
        ((cmtOf b).length :: (((w0 :: wr).length + (cmtOf b).length) ::
          (tokenizeAux '<' xt ((w0 :: wr).length + 1)).map (· + (cmtOf b).length))) := by
    rw [tokenizeAux_append, cmt_tail_getLastD b '<', cmt_tail_length b,
        show (1 : Nat) + (b.length + 6) = (cmtOf b).length from by omega,
        tokA_space_aftergt w0 wr hwsp ('<' :: xt) (cmtOf b).length,
        tokenizeAux_cons ((w0 :: wr).getLastD '>') '<' xt
          ((cmtOf b).length + (w0 :: wr).length),
        if_pos (show ('<' : Char) = '<' from rfl),
        show (cmtOf b).length + (w0 :: wr).length =
          (w0 :: wr).length + (cmtOf b).length from by omega,
        show (w0 :: wr).length + (cmtOf b).length + 1 =
          ((w0 :: wr).length + 1) + (cmtOf b).length from by omega,
        tokenizeAux_shift (cmtOf b).length xt '<' ((w0 :: wr).length + 1)]
  have hbd : ∀ x ∈ 0 ::
      (tokenizeAux '<' ('!' :: '-' :: '-' :: (b ++ ['-', '-', '>'])) 1 ++
        ((cmtOf b).length :: (((w0 :: wr).length + (cmtOf b).length) ::
          (tokenizeAux '<' xt ((w0 :: wr).length + 1)).map (· + (cmtOf b).length)))),
      x < ('<' :: (('!' :: '-' :: '-' :: (b ++ ['-', '-', '>'])) ++
        ((w0 :: wr) ++ '<' :: xt))).length := by
    have hlen : ('<' :: (('!' :: '-' :: '-' :: (b ++ ['-', '-', '>'])) ++
        ((w0 :: wr) ++ '<' :: xt))).length =
        (cmtOf b).length + (w0 :: wr).length + xt.length + 1 := by
      simp only [List.length_cons, List.length_append, List.length_nil, hk]
      omega
    intro x hx
    rw [hlen]
    rcases List.mem_cons.mp hx with h | hx2
    · omega
    rcases List.mem_append.mp hx2 with h | hx3
    · have := cmtMarks_bounds b x h
      simp only [List.length_cons]
      omega
    rcases List.mem_cons.mp hx3 with h | hx4
    · simp only [List.length_cons]
      omega
    rcases List.mem_cons.mp hx4 with h | h
    · simp only [List.length_cons] at h ⊢
      omega
    · obtain ⟨y, hy, rfl⟩ := List.mem_map.mp h
      have := tokenizeAux_bounds xt '<' ((w0 :: wr).length + 1) y hy
      simp only [List.length_cons] at this ⊢
      omega
  have hnulw : nulChar ∉ ('<' :: (('!' :: '-' :: '-' :: (b ++ ['-', '-', '>'])) ++
      ((w0 :: wr) ++ '<' :: xt))) := by
    show nulChar ∉ cmtOf b ++ ((w0 :: wr) ++ '<' :: xt)
    intro h
    rcases List.mem_append.mp h with h | h2
    · exact nul_not_in_cmtOf b hnb h
    rcases List.mem_append.mp h2 with h | h3
    · exact hnw h
    rcases List.mem_cons.mp h3 with h | h
    · exact absurd h (by decide)
    · exact hnxt h
  have h := Tokenize_cons_sentinel '<'
    (('!' :: '-' :: '-' :: (b ++ ['-', '-', '>'])) ++ ((w0 :: wr) ++ '<' :: xt))
    _ hT hbd hnulw
  rw [show ('<' :: (('!' :: '-' :: '-' :: (b ++ ['-', '-', '>'])) ++
      ((w0 :: wr) ++ '<' :: xt))).length =
      (w0 :: wr).length + (xt.length + 1) + (cmtOf b).length from by
        simp only [List.length_cons, List.length_append, List.length_nil, hk]
        omega] at h
  show Tokenize ('<' :: (('!' :: '-' :: '-' :: (b ++ ['-', '-', '>'])) ++
      ((w0 :: wr) ++ '<' :: xt))) = _
  simp only [List.map_append, List.map_cons, List.map_nil, List.cons_append,
    List.nil_append, List.append_assoc] at h ⊢
  exact h

/-- Tokenizing a prefix, a comment, a whitespace block and `<…`. -/
theorem TWS_w_cons (p₀ : Char) (pre' b : List Char) (w0 : Char) (wr xt : List Char)
    (hnpre : nulChar ∉ (p₀ :: pre')) (hnb : nulChar ∉ b)
    (hwsp : ∀ c ∈ w0 :: wr, IsSpace c = true) (hnw : nulChar ∉ (w0 :: wr))
    (hnxt : nulChar ∉ xt) :
    Tokenize ((p₀ :: pre') ++ (cmtOf b ++ ((w0 :: wr) ++ '<' :: xt))) =
      (0 :: tokenizeAux p₀ pre' 1) ++ ((p₀ :: pre').length ::
        ((tokenizeAux '<' ('!' :: '-' :: '-' :: (b ++ ['-', '-', '>'])) 1).map
            (· + (p₀ :: pre').length) ++
          (((p₀ :: pre').length + (cmtOf b).length) ::
            ((((p₀ :: pre').length + (w0 :: wr).length) ::
              (tokenizeAux '<' xt ((p₀ :: pre').length + (w0 :: wr).length + 1) ++
                [(p₀ :: pre').length + ((w0 :: wr).length + (xt.length + 1))])).map
              (· + (cmtOf b).length))))) := by
  have hk : (cmtOf b).length = b.length + 7 := cmtOf_length b
  have hpl : (1 : Nat) + pre'.length = (p₀ :: pre').length := by
    rw [List.length_cons]
    omega
  have hT : tokenizeAux p₀ (pre' ++ (cmtOf b ++ ((w0 :: wr) ++ '<' :: xt))) 1 =
      tokenizeAux p₀ pre' 1 ++ ((p₀ :: pre').length ::
        ((tokenizeAux '<' ('!' :: '-' :: '-' :: (b ++ ['-', '-', '>'])) 1).map
            (· + (p₀ :: pre').length) ++
          (((p₀ :: pre').length + (cmtOf b).length) ::
            (((p₀ :: pre').length + (w0 :: wr).length + (cmtOf b).length) ::
              (tokenizeAux '<' xt ((p₀ :: pre').length + (w0 :: wr).length + 1)).map
                (· + (cmtOf b).length))))) := by
    rw [tokenizeAux_append, tok_cmt_marks b ((w0 :: wr) ++ '<' :: xt)
          (pre'.getLastD p₀) (1 + pre'.length), hpl,
        tokA_space_aftergt w0 wr hwsp ('<' :: xt)
          ((p₀ :: pre').length + (cmtOf b).length),
        tokenizeAux_cons ((w0 :: wr).getLastD '>') '<' xt
          ((p₀ :: pre').length + (cmtOf b).length + (w0 :: wr).length),
        if_pos (show ('<' : Char) = '<' from rfl),
        show (p₀ :: pre').length + (cmtOf b).length + (w0 :: wr).length =
          (p₀ :: pre').length + (w0 :: wr).length + (cmtOf b).length from by omega,
        show (p₀ :: pre').length + (w0 :: wr).length + (cmtOf b).length + 1 =
          ((p₀ :: pre').length + (w0 :: wr).length + 1) + (cmtOf b).length from by
            omega,
        tokenizeAux_shift (cmtOf b).length xt '<'
          ((p₀ :: pre').length + (w0 :: wr).length + 1)]
  have hbd : ∀ x ∈ 0 :: (tokenizeAux p₀ pre' 1 ++ ((p₀ :: pre').length ::
      ((tokenizeAux '<' ('!' :: '-' :: '-' :: (b ++ ['-', '-', '>'])) 1).map
          (· + (p₀ :: pre').length) ++
        (((p₀ :: pre').length + (cmtOf b).length) ::
          (((p₀ :: pre').length + (w0 :: wr).length + (cmtOf b).length) ::
            (tokenizeAux '<' xt ((p₀ :: pre').length + (w0 :: wr).length + 1)).map
              (· + (cmtOf b).length)))))),
      x < (p₀ :: (pre' ++ (cmtOf b ++ ((w0 :: wr) ++ '<' :: xt)))).length := by
    have hlen : (p₀ :: (pre' ++ (cmtOf b ++ ((w0 :: wr) ++ '<' :: xt)))).length =
        (p₀ :: pre').length + (cmtOf b).length + (w0 :: wr).length + xt.length + 1 := by
      simp only [List.length_cons, List.length_append, List.length_nil, hk]
      omega
    intro x hx
    rw [hlen]
    rcases List.mem_cons.mp hx with h | hx2
    · simp only [List.length_cons]
      omega
    rcases List.mem_append.mp hx2 with h | hx3
    · have := tokenizeAux_bounds pre' p₀ 1 x h
      simp only [List.length_cons] at this ⊢
      omega
    rcases List.mem_cons.mp hx3 with h | hx4
    · simp only [List.length_cons] at h ⊢
      omega
    rcases List.mem_append.mp hx4 with h | hx5
    · obtain ⟨y, hy, rfl⟩ := List.mem_map.mp h
      have := cmtMarks_bounds b y hy
      simp only [List.length_cons]
      omega
    rcases List.mem_cons.mp hx5 with h | hx6
    · simp only [List.length_cons] at h ⊢
      omega
    rcases List.mem_cons.mp hx6 with h | h
    · simp only [List.length_cons] at h ⊢
      omega
    · obtain ⟨y, hy, rfl⟩ := List.mem_map.mp h
      have := tokenizeAux_bounds xt '<'
        ((p₀ :: pre').length + (w0 :: wr).length + 1) y hy
      simp only [List.length_cons] at this ⊢
      omega
  have hnulw : nulChar ∉ (p₀ :: (pre' ++ (cmtOf b ++ ((w0 :: wr) ++ '<' :: xt)))) := by
    intro h
    rcases List.mem_cons.mp h with h | h2
    · exact hnpre (h ▸ List.mem_cons_self _ _)
    rcases List.mem_append.mp h2 with h | h3
    · exact hnpre (List.mem_cons_of_mem _ h)
    rcases List.mem_append.mp h3 with h | h4
    · exact nul_not_in_cmtOf b hnb h
    rcases List.mem_append.mp h4 with h | h5
    · exact hnw h
    rcases List.mem_cons.mp h5 with h | h
    · exact absurd h (by decide)
    · exact hnxt h
  have h := Tokenize_cons_sentinel p₀ (pre' ++ (cmtOf b ++ ((w0 :: wr) ++ '<' :: xt)))
    _ hT hbd hnulw
  rw [show (p₀ :: (pre' ++ (cmtOf b ++ ((w0 :: wr) ++ '<' :: xt)))).length =
      (p₀ :: pre').length + ((w0 :: wr).length + (xt.length + 1)) +
        (cmtOf b).length from by
        simp only [List.length_cons, List.length_append, List.length_nil, hk]
        omega] at h
  show Tokenize (p₀ :: (pre' ++ (cmtOf b ++ ((w0 :: wr) ++ '<' :: xt)))) = _
  simp only [List.map_append, List.map_cons, List.map_nil, List.cons_append,
    List.nil_append, List.append_assoc] at h ⊢
  exact h
/-- The attribute loop agrees for any two continuations when the scan
range lies inside `pre`. -/
theorem eaLoop_pre_any (pre X Y : List Char) (e : Nat) (he : e ≤ pre.length) :
    ∀ fuel p attrs, eaLoop (pre ++ X) e fuel p attrs =
      eaLoop (pre ++ Y) e fuel p attrs := by
  intro fuel
  induction fuel with
  | zero => intro p attrs; rfl
  | succ fuel ih =>
      intro p attrs
      rw [eaLoop_succ, eaLoop_succ]
      by_cases hpe : p < e
      · rw [if_pos hpe, if_pos hpe]
        dsimp only
        rw [findFrom_congr (pre ++ X) (pre ++ Y)
            (fun c => IsAlpha c) p e (fun i _ h2 => getC_pre_any pre X Y i (by omega))]
        by_cases hkb : findFrom (pre ++ Y) (fun c => IsAlpha c) p e = e
        · rw [if_pos hkb, if_pos hkb]
        · rw [if_neg hkb, if_neg hkb]
          set kb := findFrom (pre ++ Y) (fun c => IsAlpha c) p e with hkbd
          rw [findFrom_congr (pre ++ X) (pre ++ Y)
              (fun c => c = '=') kb e (fun i _ h2 => getC_pre_any pre X Y i (by omega))]
          set ke := findFrom (pre ++ Y) (fun c => c = '=') kb e with hked
          by_cases hkee : ke = e
          · rw [hkee]
            rw [findFrom_empty (pre ++ X) _ (e + 2) e (by omega),
                findFrom_empty (pre ++ Y) _ (e + 2) e (by omega),
                slice_empty (pre ++ X) (e + 2) e (by omega),
                slice_empty (pre ++ Y) (e + 2) e (by omega),
                slice_pre_any pre X Y kb e he]
            exact ih e _
          · have hkelt : ke < e := by
              have := findFrom_le (pre ++ Y) (fun c => c = '=') kb e
              omega
            by_cases hke2 : ke + 2 ≤ e
            · rw [show ke + 2 - 1 = ke + 1 from by omega,
                  getC_pre_any pre X Y (ke + 1) (by omega)]
              rw [findFrom_congr (pre ++ X) (pre ++ Y)
                  (fun c => c = getC (pre ++ Y) (ke + 1)) (ke + 2) e
                  (fun i _ h2 => getC_pre_any pre X Y i (by omega))]
              rw [slice_pre_any pre X Y kb ke (by omega),
                  slice_pre_any pre X Y (ke + 2) _
                    (le_trans (findFrom_le (pre ++ Y) _ (ke + 2) e) (by omega))]
              exact ih _ _
            · rw [findFrom_empty (pre ++ X) _ (ke + 2) e (by omega),
                  findFrom_empty (pre ++ Y) _ (ke + 2) e (by omega),
                  slice_empty (pre ++ X) (ke + 2) e (by omega),
                  slice_empty (pre ++ Y) (ke + 2) e (by omega),
                  slice_pre_any pre X Y kb ke (by omega)]
              exact ih e _
      · rw [if_neg hpe, if_neg hpe]

/-- `ExtractAttributes` agrees for any two continuations when the token
lies inside `pre`. -/
theorem EA_pre_any (pre X Y : List Char) (l r : Nat) (hr : r ≤ pre.length) :
    ExtractAttributes (pre ++ X) l r = ExtractAttributes (pre ++ Y) l r := by
  unfold ExtractAttributes
  dsimp only
  rw [findFrom_congr (pre ++ X) (pre ++ Y)
      (fun c => c = '>' || IsSpace c) l r (fun i _ h2 => getC_pre_any pre X Y i (by omega))]
  exact eaLoop_pre_any pre X Y r hr r _ _

/-- `ExtractName` agrees for any two continuations when the token lies
inside `pre`. -/
theorem EN_pre_any (pre X Y : List Char) (l r : Nat) (hr : r ≤ pre.length) :
    ExtractName (pre ++ X) l r = ExtractName (pre ++ Y) l r := by
  unfold ExtractName
  rw [findFrom_congr (pre ++ X) (pre ++ Y) _ (l + 1) r
      (fun i _ h2 => getC_pre_any pre X Y i (by omega))]
  exact slice_pre_any pre X Y (l + 1) _
    (le_trans (findFrom_le (pre ++ Y) _ (l + 1) r) hr)

/-- `DetermineToken` agrees for any two continuations when the token lies
strictly inside `pre` and neither buffer has a comment start at its head. -/
theorem DT_pre_any (pre X Y : List Char) (l r : Nat)
    (hl1 : l + 1 < pre.length) (hr : r ≤ pre.length)
    (hcs₁ : IsCommentStart (pre ++ X) l = false)
    (hcs₂ : IsCommentStart (pre ++ Y) l = false) :
    DetermineToken (pre ++ X) l r = DetermineToken (pre ++ Y) l r := by
  unfold DetermineToken
  dsimp only
  rw [getC_pre_any pre X Y l (by omega), getC_pre_any pre X Y (l + 1) hl1,
      hcs₁, hcs₂,
      findFrom_congr (pre ++ X) (pre ++ Y) (fun c => c = '>') l r
        (fun i _ h2 => getC_pre_any pre X Y i (by omega))]
  simp only [Bool.false_eq_true, if_false]
  by_cases hlt : getC (pre ++ Y) l = '<'
  · rw [if_pos hlt, if_pos hlt]
    by_cases hsl : getC (pre ++ Y) (l + 1) = '/'
    · rw [if_pos hsl, if_pos hsl]
    · rw [if_neg hsl, if_neg hsl]
      by_cases hg : findFrom (pre ++ Y) (fun c => c = '>') l r = r
      · rw [if_pos hg, if_pos hg]
      · rw [if_neg hg, if_neg hg,
            getC_pre_any pre X Y (findFrom (pre ++ Y) (fun c => c = '>') l r - 1)
              (by
                have := findFrom_le (pre ++ Y) (fun c => c = '>') l r
                omega)]
  · rw [if_neg hlt, if_neg hlt]
/-- A gap whose characters are all whitespace: the left boundary is
erased. -/
theorem allSpace_eq_true (s : List Char) (a c : Nat)
    (h : ∀ j, a ≤ j → j < c → IsSpace (getC s j) = true) : allSpace s a c = true := by
  unfold allSpace
  rw [List.all_eq_true]
  intro i hi
  rw [List.mem_range'_1] at hi
  exact h i hi.1 (by omega)

theorem RG_drop (s : List Char) (p q : Nat) (rest : List Nat)
    (h : allSpace s p q = true) :
    RemoveGaps s (p :: q :: rest) = RemoveGaps s (q :: rest) := by
  rw [RemoveGaps_cons₂, if_pos h]

/-- Whitespace tests inside `pre` agree for any two continuations. -/
theorem allSpace_pre_any (pre X Y : List Char) (a c : Nat) (hc : c ≤ pre.length) :
    allSpace (pre ++ X) a c = allSpace (pre ++ Y) a c := by
  unfold allSpace
  apply all_congr
  intro i hi
  rw [List.mem_range'_1] at hi
  rw [getC_pre_any pre X Y i (by omega)]
/-- `BuildElementTree` when the junction-adjacent tag is the first token:
the root extraction and the rest of the build agree. -/
theorem BET_ws_head (pre b : List Char) (w0 : Char) (wr xt : List Char) (rer : Bool)
    (hwsp : ∀ c ∈ w0 :: wr, IsSpace c = true)
    (lt : Nat) (hlt : lt < pre.length)
    (hconf : eaScanOK pre pre.length
      (findFrom pre (fun c => c = '>' || IsSpace c) lt pre.length) = true)
    (W : List Nat) (hW : ∀ x ∈ W, pre.length ≤ x) :
    BuildElementTree (pre ++ (cmtOf b ++ ((w0 :: wr) ++ '<' :: xt))) rer
      (lt :: pre.length :: ((pre.length + (w0 :: wr).length + (cmtOf b).length) ::
        W.map (· + (cmtOf b).length))) =
    BuildElementTree (pre ++ ((w0 :: wr) ++ '<' :: xt)) rer
      (lt :: (pre.length + (w0 :: wr).length) :: W) := by
  show buildLoop (pre ++ (cmtOf b ++ ((w0 :: wr) ++ '<' :: xt))) rer
      ⟨ExtractName (pre ++ (cmtOf b ++ ((w0 :: wr) ++ '<' :: xt))) lt pre.length, [],
        ExtractAttributes (pre ++ (cmtOf b ++ ((w0 :: wr) ++ '<' :: xt))) lt
          pre.length, []⟩ [] pre.length
      ((pre.length + (w0 :: wr).length + (cmtOf b).length) ::
        W.map (· + (cmtOf b).length)) =
    buildLoop (pre ++ ((w0 :: wr) ++ '<' :: xt)) rer
      ⟨ExtractName (pre ++ ((w0 :: wr) ++ '<' :: xt)) lt
          (pre.length + (w0 :: wr).length), [],
        ExtractAttributes (pre ++ ((w0 :: wr) ++ '<' :: xt)) lt
          (pre.length + (w0 :: wr).length), []⟩ []
      (pre.length + (w0 :: wr).length) W
  rw [EN_junc pre b (w0 :: wr) xt hwsp (by simp) lt hlt,
      EA_junc pre b (w0 :: wr) xt hwsp lt hlt hconf]
  exact blws_skip pre b (w0 :: wr) xt rer W hW _ _
/-- The whole pipeline when a tag (possibly followed by whitespace)
precedes the comment and whitespace separates the comment from the next
tag: given the decomposed boundary lists of the two buffers, the parsed
documents coincide. -/
theorem cmt_pipeline_ws (pre b : List Char) (w0 : Char) (wr xt : List Char)
    (rer : Bool) (lt gt : Nat) (Q GW BI U₂ : List Nat)
    (hwsp : ∀ c ∈ w0 :: wr, IsSpace c = true)
    (hprecmt : ∀ i, IsCommentStart pre i = false)
    (hltgt : lt < gt) (hgtp : gt < pre.length)
    (hltc : getC pre lt = '<')
    (htail : ∀ j, gt < j → j < pre.length → IsSpace (getC pre j) = true)
    (hNoEnd : ∀ j, j < b.length + 4 → IsCommentEnd (cmtOf b) j = false)
    (hconf : eaScanOK pre pre.length
      (findFrom pre (fun c => c = '>' || IsSpace c) lt pre.length) = true)
    (hQ : ∀ x ∈ Q, x < lt)
    (hGW : GW = [] ∨ (GW = [gt + 1] ∧ gt + 1 < pre.length))
    (hBI : ∀ x ∈ BI, pre.length + 4 ≤ x ∧ x ≤ pre.length + (b.length + 4))
    (hU₂ : ∀ x ∈ U₂, pre.length + (w0 :: wr).length < x) (hU₂ne : U₂ ≠ [])
    (hTokW : Tokenize (pre ++ (cmtOf b ++ ((w0 :: wr) ++ '<' :: xt))) =
      Q ++ lt :: (GW ++ pre.length :: (BI ++ (pre.length + (cmtOf b).length) ::
        (((pre.length + (w0 :: wr).length) :: U₂).map (· + (cmtOf b).length)))))
    (hTokWo : Tokenize (pre ++ ((w0 :: wr) ++ '<' :: xt)) =
      Q ++ lt :: ((gt + 1) :: (pre.length + (w0 :: wr).length) :: U₂)) :
    parseDocument (pre ++ (cmtOf b ++ ((w0 :: wr) ++ '<' :: xt))) rer =
      parseDocument (pre ++ ((w0 :: wr) ++ '<' :: xt)) rer := by
  obtain ⟨u₁, U₃, rfl⟩ : ∃ a l, U₂ = a :: l := by
    cases U₂ with
    | nil => exact absurd rfl hU₂ne
    | cons a l => exact ⟨a, l, rfl⟩
  rw [List.map_cons] at hTokW
  have hk : (cmtOf b).length = b.length + 7 := cmtOf_length b
  have hlt : lt < pre.length := by omega
  have hu₁ : pre.length + (w0 :: wr).length < u₁ := hU₂ u₁ (List.mem_cons_self _ _)
  have hjw : getC (pre ++ (cmtOf b ++ ((w0 :: wr) ++ '<' :: xt))) pre.length = '<' :=
    getC_at_junction pre b _
  have hjwo : getC (pre ++ ((w0 :: wr) ++ '<' :: xt))
      (pre.length + (w0 :: wr).length) = '<' := getC_ws_end pre (w0 :: wr) xt
  have hltw : getC (pre ++ (cmtOf b ++ ((w0 :: wr) ++ '<' :: xt))) lt = '<' := by
    rw [getC_append_left pre _ lt hlt]
    exact hltc
  have hltwo : getC (pre ++ ((w0 :: wr) ++ '<' :: xt)) lt = '<' := by
    rw [getC_append_left pre _ lt hlt]
    exact hltc
  have hwnolt : ∀ l, l < pre.length →
      IsCommentStart (pre ++ (cmtOf b ++ ((w0 :: wr) ++ '<' :: xt))) l = false :=
    cmtStart_append_lt pre _ (getC_cmtOf_append_head b _) hprecmt
  have hwonolt : ∀ l, l < pre.length + (w0 :: wr).length →
      IsCommentStart (pre ++ ((w0 :: wr) ++ '<' :: xt)) l = false :=
    cmtStart_wo_ws pre (w0 :: wr) xt hwsp hprecmt
  have hNoEndW : ∀ j, pre.length ≤ j → j < pre.length + (b.length + 4) →
      IsCommentEnd (pre ++ (cmtOf b ++ ((w0 :: wr) ++ '<' :: xt))) j = false := by
    intro j h1 h2
    have h3 := cmtEnd_at_cmt pre b ((w0 :: wr) ++ '<' :: xt) (j - pre.length)
      (by omega)
    rw [show pre.length + (j - pre.length) = j from by omega] at h3
    rw [h3]
    exact hNoEnd (j - pre.length) (by omega)
  have hDTpre : ∀ l r, l < lt → r ≤ lt →
      DetermineToken (pre ++ (cmtOf b ++ ((w0 :: wr) ++ '<' :: xt))) l r =
        DetermineToken (pre ++ ((w0 :: wr) ++ '<' :: xt)) l r :=
    fun l r hl hr => DT_pre_any pre _ _ l r (by omega) (by omega)
      (hwnolt l (by omega)) (hwonolt l (by omega))
  have hENpre : ∀ l r, r ≤ lt →
      ExtractName (pre ++ (cmtOf b ++ ((w0 :: wr) ++ '<' :: xt))) l r =
        ExtractName (pre ++ ((w0 :: wr) ++ '<' :: xt)) l r :=
    fun l r hr => EN_pre_any pre _ _ l r (by omega)
  have hEApre : ∀ l r, r ≤ lt →
      ExtractAttributes (pre ++ (cmtOf b ++ ((w0 :: wr) ++ '<' :: xt))) l r =
        ExtractAttributes (pre ++ ((w0 :: wr) ++ '<' :: xt)) l r :=
    fun l r hr => EA_pre_any pre _ _ l r (by omega)
  have hSLpre : ∀ l r, r ≤ lt →
      slice (pre ++ (cmtOf b ++ ((w0 :: wr) ++ '<' :: xt))) l r =
        slice (pre ++ ((w0 :: wr) ++ '<' :: xt)) l r :=
    fun l r hr => slice_pre_any pre _ _ l r (by omega)
  have hDTsh : ∀ l r, pre.length ≤ l →
      DetermineToken (pre ++ (cmtOf b ++ ((w0 :: wr) ++ '<' :: xt)))
          (l + (cmtOf b).length) (r + (cmtOf b).length) =
        DetermineToken (pre ++ ((w0 :: wr) ++ '<' :: xt)) l r :=
    fun l r hl => DT_shift pre b _ l r hl
  have hENsh : ∀ l r, pre.length ≤ l →
      ExtractName (pre ++ (cmtOf b ++ ((w0 :: wr) ++ '<' :: xt)))
          (l + (cmtOf b).length) (r + (cmtOf b).length) =
        ExtractName (pre ++ ((w0 :: wr) ++ '<' :: xt)) l r :=
    fun l r hl => EN_shift pre b _ l r hl
  have hEAsh : ∀ l r, pre.length ≤ l → pre.length ≤ r →
      ExtractAttributes (pre ++ (cmtOf b ++ ((w0 :: wr) ++ '<' :: xt)))
          (l + (cmtOf b).length) (r + (cmtOf b).length) =
        ExtractAttributes (pre ++ ((w0 :: wr) ++ '<' :: xt)) l r :=
    fun l r hl hr => EA_shift pre b _ l r hl hr
  have hSLsh : ∀ l r, pre.length ≤ l → pre.length ≤ r →
      slice (pre ++ (cmtOf b ++ ((w0 :: wr) ++ '<' :: xt)))
          (l + (cmtOf b).length) (r + (cmtOf b).length) =
        slice (pre ++ ((w0 :: wr) ++ '<' :: xt)) l r :=
    fun l r hl _ => slice_shift pre (cmtOf b) _ l r hl
  obtain ⟨C, hC, hRGw, hRGwo⟩ :=
    RG_split (pre ++ (cmtOf b ++ ((w0 :: wr) ++ '<' :: xt)))
      (pre ++ ((w0 :: wr) ++ '<' :: xt)) lt
      (GW ++ pre.length :: (BI ++ (pre.length + (cmtOf b).length) ::
        ((pre.length + (w0 :: wr).length + (cmtOf b).length) ::
          (u₁ :: U₃).map (· + (cmtOf b).length))))
      ((gt + 1) :: (pre.length + (w0 :: wr).length) :: u₁ :: U₃)
      (fun a c hc => allSpace_pre_any pre _ _ a c (by omega)) Q hQ
  have hVwo : RemoveGaps (pre ++ ((w0 :: wr) ++ '<' :: xt))
      ((pre.length + (w0 :: wr).length) :: u₁ :: U₃) =
      (pre.length + (w0 :: wr).length) ::
        RemoveGaps (pre ++ ((w0 :: wr) ++ '<' :: xt)) (u₁ :: U₃) :=
    RG_keep_head _ _ _ _ hu₁ (by rw [hjwo]; decide)
  set V₂ := RemoveGaps (pre ++ ((w0 :: wr) ++ '<' :: xt)) (u₁ :: U₃) with hV₂def
  have hV₂sub : ∀ x ∈ V₂, pre.length + (w0 :: wr).length < x :=
    fun x hx => hU₂ x (RemoveGaps_subset _ _ x hx)
  have hRGsh : RemoveGaps (pre ++ (cmtOf b ++ ((w0 :: wr) ++ '<' :: xt)))
      ((pre.length + (w0 :: wr).length + (cmtOf b).length) ::
        (u₁ :: U₃).map (· + (cmtOf b).length)) =
      (pre.length + (w0 :: wr).length + (cmtOf b).length) ::
        V₂.map (· + (cmtOf b).length) := by
    have h := RG_shift pre b ((w0 :: wr) ++ '<' :: xt)
      ((pre.length + (w0 :: wr).length) :: u₁ :: U₃)
      (by
        intro x hx
        rcases List.mem_cons.mp hx with h | h
        · omega
        · have := hU₂ x h
          omega)
    simp only [List.map_cons] at h
    rw [hVwo] at h
    simp only [List.map_cons] at h
    exact h
  have hspace_w_mid : allSpace (pre ++ (cmtOf b ++ ((w0 :: wr) ++ '<' :: xt)))
      (pre.length + (cmtOf b).length)
      (pre.length + (w0 :: wr).length + (cmtOf b).length) = true := by
    apply allSpace_eq_true
    intro j h1 h2
    have hs := getC_shift pre (cmtOf b) ((w0 :: wr) ++ '<' :: xt)
      (j - (cmtOf b).length) (by omega)
    rw [show j - (cmtOf b).length + (cmtOf b).length = j from by omega] at hs
    rw [hs]
    exact getC_wo_space pre (w0 :: wr) xt hwsp (j - (cmtOf b).length)
      (by omega) (by omega)
  obtain ⟨I, hIB, hImid⟩ :=
    RG_mid (pre ++ (cmtOf b ++ ((w0 :: wr) ++ '<' :: xt)))
      (pre.length + (cmtOf b).length)
      (by
        rw [show pre.length + (cmtOf b).length - 2 = pre.length + (b.length + 5)
              from by omega,
            getC_at_cmt pre b _ (b.length + 5) (by omega), getC_cmt_dash b]
        decide)
      BI ((pre.length + (w0 :: wr).length + (cmtOf b).length) ::
        (u₁ :: U₃).map (· + (cmtOf b).length))
      (fun x hx => by have := hBI x hx; omega) (by omega)
  have hIbounds : ∀ x ∈ I, pre.length + 4 ≤ x ∧ x ≤ pre.length + (b.length + 4) :=
    fun x hx => hBI x (hIB x hx)
  have hheadBI : pre.length < (BI ++ (pre.length + (cmtOf b).length) ::
      ((pre.length + (w0 :: wr).length + (cmtOf b).length) ::
        (u₁ :: U₃).map (· + (cmtOf b).length))).headD 0 := by
    rw [headD_append_cons]
    cases BI with
    | nil =>
        simp only [List.headD_nil]
        omega
    | cons x B' =>
        have := hBI x (List.mem_cons_self _ _)
        simp only [List.headD_cons]
        omega
  have hRGwTail : RemoveGaps (pre ++ (cmtOf b ++ ((w0 :: wr) ++ '<' :: xt)))
      (pre.length :: (BI ++ (pre.length + (cmtOf b).length) ::
        ((pre.length + (w0 :: wr).length + (cmtOf b).length) ::
          (u₁ :: U₃).map (· + (cmtOf b).length)))) =
      pre.length :: (I ++ (pre.length + (w0 :: wr).length + (cmtOf b).length) ::
        V₂.map (· + (cmtOf b).length)) := by
    rw [RG_keep_head₂ (pre ++ (cmtOf b ++ ((w0 :: wr) ++ '<' :: xt))) pre.length _
          (by simp) hheadBI (by rw [hjw]; decide),
        hImid,
        RG_drop (pre ++ (cmtOf b ++ ((w0 :: wr) ++ '<' :: xt)))
          (pre.length + (cmtOf b).length)
          (pre.length + (w0 :: wr).length + (cmtOf b).length) _ hspace_w_mid,
        hRGsh]
  have hltne : IsSpace (getC (pre ++ (cmtOf b ++ ((w0 :: wr) ++ '<' :: xt))) lt)
      = false := by
    rw [hltw]
    decide
  have hltnewo : IsSpace (getC (pre ++ ((w0 :: wr) ++ '<' :: xt)) lt) = false := by
    rw [hltwo]
    decide
  have hRGwFull : RemoveGaps (pre ++ (cmtOf b ++ ((w0 :: wr) ++ '<' :: xt)))
      (lt :: (GW ++ pre.length :: (BI ++ (pre.length + (cmtOf b).length) ::
        ((pre.length + (w0 :: wr).length + (cmtOf b).length) ::
          (u₁ :: U₃).map (· + (cmtOf b).length))))) =
      lt :: (pre.length :: (I ++ (pre.length + (w0 :: wr).length + (cmtOf b).length) ::
        V₂.map (· + (cmtOf b).length))) := by
    rcases hGW with hg | ⟨hg, hglt⟩
    · subst hg
      rw [List.nil_append,
          RG_keep_head (pre ++ (cmtOf b ++ ((w0 :: wr) ++ '<' :: xt))) lt
            pre.length _ (by omega) hltne,
          hRGwTail]
    · subst hg
      rw [List.singleton_append,
          RG_keep_head (pre ++ (cmtOf b ++ ((w0 :: wr) ++ '<' :: xt))) lt
            (gt + 1) _ (by omega) hltne,
          RG_drop (pre ++ (cmtOf b ++ ((w0 :: wr) ++ '<' :: xt))) (gt + 1)
            pre.length _
            (by
              apply allSpace_eq_true
              intro j h1 h2
              rw [getC_append_left pre _ j (by omega)]
              exact htail j (by omega) (by omega)),
          hRGwTail]
  have hspace_wo_gt : allSpace (pre ++ ((w0 :: wr) ++ '<' :: xt)) (gt + 1)
      (pre.length + (w0 :: wr).length) = true := by
    apply allSpace_eq_true
    intro j h1 h2
    by_cases hjp : j < pre.length
    · rw [getC_append_left pre _ j hjp]
      exact htail j (by omega) hjp
    · exact getC_wo_space pre (w0 :: wr) xt hwsp j (by omega) h2
  have hRGwoFull : RemoveGaps (pre ++ ((w0 :: wr) ++ '<' :: xt))
      (lt :: ((gt + 1) :: (pre.length + (w0 :: wr).length) :: u₁ :: U₃)) =
      lt :: ((pre.length + (w0 :: wr).length) :: V₂) := by
    rw [RG_keep_head (pre ++ ((w0 :: wr) ++ '<' :: xt)) lt (gt + 1) _
          (by omega) hltnewo,
        RG_drop (pre ++ ((w0 :: wr) ++ '<' :: xt)) (gt + 1)
          (pre.length + (w0 :: wr).length) _ hspace_wo_gt,
        hVwo]
  obtain ⟨R₂, hReq⟩ := ricAux_none_head (pre ++ ((w0 :: wr) ++ '<' :: xt))
    (pre.length + (w0 :: wr).length) V₂
  have hR₂ : ∀ x ∈ R₂, pre.length ≤ x := by
    intro x hx
    refine ricAux_mem_ge (pre ++ ((w0 :: wr) ++ '<' :: xt)) pre.length V₂ none
      (pre.length + (w0 :: wr).length) (by omega)
      (fun y hy => by have := hV₂sub y hy; omega) (fun p hp => by cases hp) x ?_
    rw [hReq]
    exact List.mem_cons_of_mem _ hx
  have hricwInner : ricAux (pre ++ (cmtOf b ++ ((w0 :: wr) ++ '<' :: xt))) none lt
      (pre.length :: (I ++ (pre.length + (w0 :: wr).length + (cmtOf b).length) ::
        V₂.map (· + (cmtOf b).length))) =
      lt :: pre.length :: ((pre.length + (w0 :: wr).length + (cmtOf b).length) ::
        R₂.map (· + (cmtOf b).length)) := by
    rw [ricAux_none_cons,
        if_neg (by
          rw [anyIn_eq_false (pre ++ (cmtOf b ++ ((w0 :: wr) ++ '<' :: xt))) lt
            (pre.length - 3) _ (fun j h1 h2 => hwnolt j (by omega))]
          exact Bool.false_ne_true),
        ric_junc₂ pre b ((w0 :: wr) ++ '<' :: xt)
          (pre.length + (w0 :: wr).length + (cmtOf b).length) (by omega) hNoEndW I
          (V₂.map (· + (cmtOf b).length)) hIbounds,
        show pre.length + (w0 :: wr).length + (cmtOf b).length =
          (pre.length + (w0 :: wr).length) + (cmtOf b).length from rfl,
        (ric_shift pre b ((w0 :: wr) ++ '<' :: xt) V₂
          (pre.length + (w0 :: wr).length) (by omega)
          (fun x hx => by have := hV₂sub x hx; omega)).1,
        hReq]
    simp only [List.map_cons]
  have hricwoInner : ricAux (pre ++ ((w0 :: wr) ++ '<' :: xt)) none lt
      ((pre.length + (w0 :: wr).length) :: V₂) =
      lt :: (pre.length + (w0 :: wr).length) :: R₂ := by
    rw [ricAux_none_cons,
        if_neg (by
          rw [anyIn_eq_false (pre ++ ((w0 :: wr) ++ '<' :: xt)) lt
            (pre.length + (w0 :: wr).length - 3) _
            (fun j h1 h2 => hwonolt j (by omega))]
          exact Bool.false_ne_true),
        hReq]
  have hfW : filteredTokens (pre ++ (cmtOf b ++ ((w0 :: wr) ++ '<' :: xt))) =
      RemoveLeadingComments (pre ++ (cmtOf b ++ ((w0 :: wr) ++ '<' :: xt)))
        (C ++ lt :: pre.length ::
          ((pre.length + (w0 :: wr).length + (cmtOf b).length) ::
            R₂.map (· + (cmtOf b).length))) := by
    unfold filteredTokens
    rw [hTokW, hRGw, hRGwFull,
        ric_full (pre ++ (cmtOf b ++ ((w0 :: wr) ++ '<' :: xt))) lt
          (fun i hi => hwnolt i (by omega)) C _ hC,
        hricwInner]
  have hfWo : filteredTokens (pre ++ ((w0 :: wr) ++ '<' :: xt)) =
      RemoveLeadingComments (pre ++ ((w0 :: wr) ++ '<' :: xt))
        (C ++ lt :: (pre.length + (w0 :: wr).length) :: R₂) := by
    unfold filteredTokens
    rw [hTokWo, hRGwo, hRGwoFull,
        ric_full (pre ++ ((w0 :: wr) ++ '<' :: xt)) lt
          (fun i hi => hwonolt i (by omega)) C _ hC,
        hricwoInner]
  have hjun : ∀ (top : ElementData) (stk : List ElementData),
      buildLoop (pre ++ (cmtOf b ++ ((w0 :: wr) ++ '<' :: xt))) rer top stk lt
        (pre.length :: ((pre.length + (w0 :: wr).length + (cmtOf b).length) ::
          R₂.map (· + (cmtOf b).length))) =
      buildLoop (pre ++ ((w0 :: wr) ++ '<' :: xt)) rer top stk lt
        ((pre.length + (w0 :: wr).length) :: R₂) :=
    blws_junc pre b (w0 :: wr) xt rer hwsp (by simp) hprecmt lt hlt hltc hconf R₂ hR₂
  have hBEThead := BET_ws_head pre b w0 wr xt rer hwsp lt hlt hconf R₂ hR₂
  have hBETdrop : ∀ C₂ : List Nat, (∀ x ∈ C₂, x < lt) →
      BuildElementTree (pre ++ (cmtOf b ++ ((w0 :: wr) ++ '<' :: xt))) rer
        (RemoveLeadingComments (pre ++ (cmtOf b ++ ((w0 :: wr) ++ '<' :: xt)))
          (C₂ ++ lt :: pre.length ::
            ((pre.length + (w0 :: wr).length + (cmtOf b).length) ::
              R₂.map (· + (cmtOf b).length)))) =
      BuildElementTree (pre ++ ((w0 :: wr) ++ '<' :: xt)) rer
        (RemoveLeadingComments (pre ++ ((w0 :: wr) ++ '<' :: xt))
          (C₂ ++ lt :: (pre.length + (w0 :: wr).length) :: R₂)) := by
    intro C₂ hC₂
    cases C₂ with
    | nil =>
        rw [List.nil_append, List.nil_append,
            RLC_front (pre ++ (cmtOf b ++ ((w0 :: wr) ++ '<' :: xt))) lt _
              (by simp) (DT_ne_comment _ _ _ (hwnolt lt hlt)),
            RLC_front (pre ++ ((w0 :: wr) ++ '<' :: xt)) lt _
              (by simp) (DT_ne_comment _ _ _ (hwonolt lt (by omega)))]
        exact hBEThead
    | cons c₁ C₃ =>
        have hc₁ : c₁ < lt := hC₂ c₁ (List.mem_cons_self _ _)
        rw [List.cons_append c₁ C₃ (lt :: pre.length ::
              ((pre.length + (w0 :: wr).length + (cmtOf b).length) ::
                R₂.map (· + (cmtOf b).length))),
            List.cons_append c₁ C₃ (lt :: (pre.length + (w0 :: wr).length) :: R₂),
            RLC_front (pre ++ (cmtOf b ++ ((w0 :: wr) ++ '<' :: xt))) c₁ _
              (by simp) (DT_ne_comment _ _ _ (hwnolt c₁ (by omega))),
            RLC_front (pre ++ ((w0 :: wr) ++ '<' :: xt)) c₁ _
              (by simp) (DT_ne_comment _ _ _ (hwonolt c₁ (by omega)))]
        exact BET_mixed (pre ++ (cmtOf b ++ ((w0 :: wr) ++ '<' :: xt)))
          (pre ++ ((w0 :: wr) ++ '<' :: xt)) rer lt
          (pre.length :: ((pre.length + (w0 :: wr).length + (cmtOf b).length) ::
            R₂.map (· + (cmtOf b).length)))
          ((pre.length + (w0 :: wr).length) :: R₂)
          hDTpre hENpre hEApre hSLpre hjun c₁ C₃ hc₁
          (fun x hx => hC₂ x (List.mem_cons_of_mem _ hx))
  unfold parseDocument
  dsimp only
  rw [hfW, hfWo]
  cases C with
  | nil =>
      rw [List.nil_append, List.nil_append,
          RLC_front (pre ++ (cmtOf b ++ ((w0 :: wr) ++ '<' :: xt))) lt _
            (by simp) (DT_ne_comment _ _ _ (hwnolt lt hlt)),
          RLC_front (pre ++ ((w0 :: wr) ++ '<' :: xt)) lt _
            (by simp) (DT_ne_comment _ _ _ (hwonolt lt (by omega)))]
      simp only [List.headD_cons, List.drop_one, List.tail_cons]
      rw [getC_pre_any pre (cmtOf b ++ ((w0 :: wr) ++ '<' :: xt))
            ((w0 :: wr) ++ '<' :: xt) lt hlt,
          getC_pre_any pre (cmtOf b ++ ((w0 :: wr) ++ '<' :: xt))
            ((w0 :: wr) ++ '<' :: xt) (lt + 1) (by omega)]
      by_cases hltq : getC (pre ++ ((w0 :: wr) ++ '<' :: xt)) lt ≠ '<'
      · rw [if_pos hltq, if_pos hltq]
      · rw [if_neg hltq, if_neg hltq]
        by_cases hq : getC (pre ++ ((w0 :: wr) ++ '<' :: xt)) (lt + 1) = '?'
        · rw [if_pos hq, if_pos hq]
          rw [EA_junc pre b (w0 :: wr) xt hwsp lt hlt hconf,
              RLC_pop_first (pre ++ (cmtOf b ++ ((w0 :: wr) ++ '<' :: xt)))
                pre.length (pre.length + (w0 :: wr).length + (cmtOf b).length) _
                (DT_cmt pre b _ _),
              show (pre.length + (w0 :: wr).length + (cmtOf b).length) ::
                  R₂.map (· + (cmtOf b).length) =
                  ((pre.length + (w0 :: wr).length) :: R₂).map (· + (cmtOf b).length)
                from by simp only [List.map_cons],
              RLC_shift pre b ((w0 :: wr) ++ '<' :: xt)
                ((pre.length + (w0 :: wr).length) :: R₂) (by
                  intro x hx
                  rcases List.mem_cons.mp hx with h | h
                  · omega
                  · exact hR₂ x h)]
          rw [BET_shift (pre ++ (cmtOf b ++ ((w0 :: wr) ++ '<' :: xt)))
                (pre ++ ((w0 :: wr) ++ '<' :: xt)) rer pre.length
                (cmtOf b).length hDTsh hENsh hEAsh hSLsh
                (RemoveLeadingComments (pre ++ ((w0 :: wr) ++ '<' :: xt))
                  ((pre.length + (w0 :: wr).length) :: R₂))
                (by
                  intro x hx
                  have h2 := RLC_mem (pre ++ ((w0 :: wr) ++ '<' :: xt)) _ x hx
                  rcases List.mem_cons.mp h2 with h | h
                  · omega
                  · exact hR₂ x h)]
        · rw [if_neg hq, if_neg hq, hBEThead]
  | cons c₀ C₂ =>
      have hc₀ : c₀ < lt := hC c₀ (List.mem_cons_self _ _)
      have hC₂ : ∀ x ∈ C₂, x < lt :=
        fun x hx => hC x (List.mem_cons_of_mem _ hx)
      rw [List.cons_append c₀ C₂ (lt :: pre.length ::
            ((pre.length + (w0 :: wr).length + (cmtOf b).length) ::
              R₂.map (· + (cmtOf b).length))),
          List.cons_append c₀ C₂ (lt :: (pre.length + (w0 :: wr).length) :: R₂),
          RLC_front (pre ++ (cmtOf b ++ ((w0 :: wr) ++ '<' :: xt))) c₀ _
            (by simp) (DT_ne_comment _ _ _ (hwnolt c₀ (by omega))),
          RLC_front (pre ++ ((w0 :: wr) ++ '<' :: xt)) c₀ _
            (by simp) (DT_ne_comment _ _ _ (hwonolt c₀ (by omega)))]
      simp only [List.headD_cons, List.drop_one, List.tail_cons]
      rw [getC_pre_any pre (cmtOf b ++ ((w0 :: wr) ++ '<' :: xt))
            ((w0 :: wr) ++ '<' :: xt) c₀ (by omega),
          getC_pre_any pre (cmtOf b ++ ((w0 :: wr) ++ '<' :: xt))
            ((w0 :: wr) ++ '<' :: xt) (c₀ + 1) (by omega)]
      by_cases hltq : getC (pre ++ ((w0 :: wr) ++ '<' :: xt)) c₀ ≠ '<'
      · rw [if_pos hltq, if_pos hltq]
      · rw [if_neg hltq, if_neg hltq]
        by_cases hq : getC (pre ++ ((w0 :: wr) ++ '<' :: xt)) (c₀ + 1) = '?'
        · rw [if_pos hq, if_pos hq,
              headD_append_cons C₂ lt _ 0, headD_append_cons C₂ lt _ 0]
          have hr₁ : C₂.headD lt ≤ lt := by
            cases C₂ with
            | nil => exact le_rfl
            | cons a l => exact le_of_lt (hC₂ a (List.mem_cons_self _ _))
          rw [hEApre c₀ (C₂.headD lt) hr₁, hBETdrop C₂ hC₂]
        · rw [if_neg hq, if_neg hq, ← List.cons_append, ← List.cons_append,
              BET_mixed (pre ++ (cmtOf b ++ ((w0 :: wr) ++ '<' :: xt)))
                (pre ++ ((w0 :: wr) ++ '<' :: xt)) rer lt
                (pre.length :: ((pre.length + (w0 :: wr).length + (cmtOf b).length) ::
                  R₂.map (· + (cmtOf b).length)))
                ((pre.length + (w0 :: wr).length) :: R₂)
                hDTpre hENpre hEApre hSLpre hjun c₀ C₂ hc₀ hC₂]
end Xml
